import Mathlib

/-!
A verification development for `compiler.js`.

The program is a three-stage compiler: `Tokenizer` (text to tokens), `Parser`
(tokens to a tree) and `generate` (tree to JavaScript text).

Conventions of the embedding.

* A JavaScript string is a `List Char`, one element per character.  All the
  characters the program inspects (letters, digits, `_`, `(`, `)`, `,` and the
  whitespace removed by `trim`) are single UTF-16 code units, so lengths and
  slices agree with the source on every text.
* A thrown exception is the `Except.error` branch.  Mutable fields
  (`this.buffer`, `this.tokens`) are passed and returned explicitly.
* Loops and the recursion of the parser run on a fuel counter; the fuel that the
  entry points supply is proved sufficient, so `outOfFuel` is never returned.
-/

namespace Compiler

deriving instance DecidableEq for Except

/-! ## Regular expressions of `TOKEN_TYPES` -/

/-- A word character of a JavaScript regular expression without flags:
`[A-Za-z0-9_]`. -/
def isWordChar (c : Char) : Bool :=
  c.isAlpha || c.isDigit || c == '_'

/-- The pieces the regular expressions of `TOKEN_TYPES` are made of. -/
inductive Rx where
  /-- The assertion `\b`. -/
  | wordBoundary
  /-- A literal character. -/
  | lit (c : Char)
  /-- A greedy `[...]+` over a character class. -/
  | plus (cls : Char → Bool)

/-- The assertion `\b` between a previous character (none at the start of the
text) and the rest of the text: exactly one side is a word character. -/
def atWordBoundary (prev : Option Char) (rest : List Char) : Bool :=
  xor (prev.any isWordChar) (rest.head?.any isWordChar)

/-- The last character of `taken`, or `prev` when nothing was taken. -/
def lastCharOr (prev : Option Char) (taken : List Char) : Option Char :=
  match taken.getLast? with
  | some c => some c
  | none => prev

/-- Backtracking match of a sequence of pieces at the start of `s`, `prev`
being the character before `s`.  The result is the number of characters
matched.  A `plus` first takes the longest run and gives characters back one
at a time, down to one character, until the rest of the pattern matches. -/
def rxMatch : List Rx → Option Char → List Char → Option Nat
  | [], _, _ => some 0
  | Rx.wordBoundary :: ps, prev, s =>
    if atWordBoundary prev s then rxMatch ps prev s else none
  | Rx.lit c :: ps, _, s =>
    match s with
    | [] => none
    | x :: xs => if x = c then (rxMatch ps (some x) xs).map (· + 1) else none
  | Rx.plus cls :: ps, prev, s =>
    ((List.range (s.takeWhile cls).length).reverse.map (· + 1)).findSome? fun k =>
      (rxMatch ps (lastCharOr prev (s.take k)) (s.drop k)).map (· + k)

/-- The keys of `TOKEN_TYPES`; the keys `def` and `end` are written `def_` and
`end_`. -/
inductive TokenType where
  | def_
  | end_
  | identifier
  | integer
  | oparen
  | cparen
  | comma
  deriving DecidableEq, Repr

/-- The key as the source spells it. -/
def TokenType.name : TokenType → List Char
  | .def_ => "def".toList
  | .end_ => "end".toList
  | .identifier => "identifier".toList
  | .integer => "integer".toList
  | .oparen => "oparen".toList
  | .cparen => "cparen".toList
  | .comma => "comma".toList

/-- The table `TOKEN_TYPES`, in the order `Object.entries` enumerates it. -/
def TOKEN_TYPES : List (TokenType × List Rx) :=
  [ (.def_, [.wordBoundary, .lit 'd', .lit 'e', .lit 'f', .wordBoundary]),
    (.end_, [.wordBoundary, .lit 'e', .lit 'n', .lit 'd', .wordBoundary]),
    (.identifier, [.wordBoundary, .plus Char.isAlpha, .wordBoundary]),
    (.integer, [.wordBoundary, .plus Char.isDigit, .wordBoundary]),
    (.oparen, [.lit '(']),
    (.cparen, [.lit ')']),
    (.comma, [.lit ',']) ]

/-- The class `Token`. -/
structure Token where
  type : TokenType
  value : List Char
  deriving DecidableEq, Repr

/-- What the tokenizer throws. -/
inductive LexError where
  /-- The error "Couldn't match token on" followed by the buffer. -/
  | noMatch (buffer : List Char)
  /-- The loop counter of the embedding ran out (never returned by `tokenize`). -/
  | outOfFuel
  deriving DecidableEq, Repr

/-- The text of the error. -/
def LexError.message : LexError → List Char
  | .noMatch buffer => "Couldn't match token on\n".toList ++ buffer
  | .outOfFuel => []

/-- The characters `String.prototype.trim` removes: WhiteSpace and
LineTerminator of ECMAScript. -/
def isWhiteSpace (c : Char) : Bool :=
  let n := c.toNat
  n == 0x09 || n == 0x0A || n == 0x0B || n == 0x0C || n == 0x0D || n == 0x20 ||
  n == 0xA0 || n == 0x1680 || (0x2000 ≤ n && n ≤ 0x200A) || n == 0x2028 ||
  n == 0x2029 || n == 0x202F || n == 0x205F || n == 0x3000 || n == 0xFEFF

/-- The method `String.prototype.trim`: whitespace is removed at both ends. -/
def trim (s : List Char) : List Char :=
  ((s.dropWhile isWhiteSpace).reverse.dropWhile isWhiteSpace).reverse

namespace Tokenizer

/-- The loop of `tokenizeOneToken` over the entries of the table: the rule is
anchored at the start of the buffer (`^(` rule `)[\s\S]*$`), the first rule
that matches wins, its match is sliced off the buffer. -/
def tryRules : List (TokenType × List Rx) → List Char →
    Except LexError (Token × List Char)
  | [], buffer => .error (.noMatch buffer)
  | (type, re) :: rules, buffer =>
    match rxMatch re none buffer with
    | some n => .ok (⟨type, buffer.take n⟩, buffer.drop n)
    | none => tryRules rules buffer

/-- The method `tokenizeOneToken`: the token and the new buffer. -/
def tokenizeOneToken (buffer : List Char) : Except LexError (Token × List Char) :=
  tryRules TOKEN_TYPES buffer

/-- The body of the loop of `tokenize` on the state (`tokens`, `this.buffer`). -/
def loopBody (state : List Token × List Char) :
    Except LexError (List Token × List Char) :=
  match tokenizeOneToken state.2 with
  | .error e => .error e
  | .ok (token, buffer) => .ok (state.1 ++ [token], trim buffer)

/-- The loop `while (this.buffer.length)` of `tokenize`. -/
def tokenizeLoop : Nat → List Token × List Char → Except LexError (List Token)
  | _, (tokens, []) => .ok tokens
  | 0, (_, _ :: _) => .error .outOfFuel
  | fuel + 1, (tokens, c :: cs) =>
    match loopBody (tokens, c :: cs) with
    | .error e => .error e
    | .ok state => tokenizeLoop fuel state

/-- The method `tokenize` of a tokenizer constructed on `code`. -/
def tokenize (code : List Char) : Except LexError (List Token) :=
  tokenizeLoop code.length ([], code)

/-- The state after `n` rounds of the loop of `tokenize`. -/
def rounds : Nat → List Token × List Char → Except LexError (List Token × List Char)
  | 0, state => .ok state
  | n + 1, state =>
    match loopBody state with
    | .error e => .error e
    | .ok state' => rounds n state'

end Tokenizer

/-! ## Numbers -/

/-- The number values the program can hold in an `IntegerNode`: a non-negative
integer (an IEEE double when it comes from `Number`), `Infinity`, or `NaN`. -/
inductive JSNumber where
  | nat (n : Nat)
  | infinity
  | nan
  deriving DecidableEq, Repr

/-- The integer a run of decimal digits denotes. -/
def decimalValue (digits : List Char) : Nat :=
  digits.foldl (fun acc c => 10 * acc + (c.toNat - '0'.toNat)) 0

/-- The number of low bits of `n` that do not fit in a significand of 53 bits:
the least `e` with `n / 2 ^ e < 2 ^ 53` (the first argument bounds the search
and is `n` itself in every use). -/
def excessBits : Nat → Nat → Nat
  | 0, _ => 0
  | fuel + 1, n => if n < 2 ^ 53 then 0 else excessBits fuel (n / 2) + 1

/-- The IEEE 754 double nearest to the natural number `n`, ties to even:
53 significant bits are kept (below `2 ^ 53` every integer is a double), and a
result that needs more than 1024 bits, that is `2 ^ 1024` or more, is
`Infinity`. -/
def roundToDouble (n : Nat) : JSNumber :=
  let e := excessBits n n
  let q := n / 2 ^ e
  let r := n % 2 ^ e
  let q' := if 2 ^ e < 2 * r ∨ (2 * r = 2 ^ e ∧ q % 2 = 1) then q + 1 else q
  if 972 ≤ excessBits (q' * 2 ^ e) (q' * 2 ^ e) then .infinity else .nat (q' * 2 ^ e)

/-- The natural numbers that are IEEE doubles: at most 1024 bits, and nothing
below the 53 leading ones. -/
def isDouble (n : Nat) : Prop :=
  excessBits n n < 972 ∧ 2 ^ excessBits n n ∣ n

instance (n : Nat) : Decidable (isDouble n) := by
  unfold isDouble; infer_instance

/-- The function `Number` applied to a string, with the correct rounding that
JavaScript engines implement.  The model is exact on the empty text and on
every run of ASCII digits, the only texts an `integer` token of the tokenizer
carries, and on every text that JavaScript does not read as a number.  The
other texts JavaScript reads as a number (whitespace alone or around a
numeral, a sign, a fraction, an exponent, a hexadecimal, octal or binary
numeral, `Infinity`) are outside the model and are mapped to `NaN` too. -/
def Number (text : List Char) : JSNumber :=
  if text.all Char.isDigit then roundToDouble (decimalValue text) else .nan

/-- The decimal with `i + 1` digits that `Number::toString` of ECMAScript may
choose for the positive integer double `x` of `n0` digits: the digits `s` such
that `s * 10 ^ (n0 - (i + 1))` rounds to `x`, taken from the two multiples next
to `x`; when both round to `x`, the nearer one (the even one on a tie). -/
def decimalCandidate (x n0 i : Nat) : Option (Nat × Nat) :=
  let k := i + 1
  let p := 10 ^ (n0 - k)
  let lo := x / p
  let hi := lo + 1
  let okLo : Bool := roundToDouble (lo * p) = .nat x
  let okHi : Bool := hi < 10 ^ k ∧ roundToDouble (hi * p) = .nat x
  if okLo && okHi then
    if x - lo * p < hi * p - x ∨ (x - lo * p = hi * p - x ∧ lo % 2 = 0) then some (k, lo)
    else some (k, hi)
  else if okLo then some (k, lo)
  else if okHi then some (k, hi)
  else none

/-- The triple `(n, k, s)` of `Number::toString` of ECMAScript for a positive
integer double `x`: `s` has `k` digits, `s * 10 ^ (n - k)` rounds to `x`, and
`k` is the least possible. -/
def shortestDecimal (x : Nat) : Nat × Nat × Nat :=
  let n0 := (Nat.toDigits 10 x).length
  if roundToDouble (10 ^ n0) = .nat x then (n0 + 1, 1, 1)
  else
    match (List.range n0).findSome? (decimalCandidate x n0) with
    | some (k, s) => (n0, k, s)
    | none => (n0, n0, x)

/-- The conversion of a number to a string (`Number::toString`, radix 10). -/
def numberToString : JSNumber → List Char
  | .nan => "NaN".toList
  | .infinity => "Infinity".toList
  | .nat x =>
    if x = 0 then "0".toList
    else
      match shortestDecimal x with
      | (n, k, s) =>
        if n ≤ 21 then Nat.toDigits 10 s ++ List.replicate (n - k) '0'
        else if k = 1 then Nat.toDigits 10 s ++ "e+".toList ++ Nat.toDigits 10 (n - 1)
        else
          (Nat.toDigits 10 s).take 1 ++ ".".toList ++ (Nat.toDigits 10 s).drop 1 ++
            "e+".toList ++ Nat.toDigits 10 (n - 1)

/-! ## Trees -/

/-- The four node objects `DefNode`, `IntegerNode`, `CallNode`, `VarRefNode`. -/
inductive Node where
  | DefNode (name : List Char) (argNames : List (List Char)) (body : Node)
  | IntegerNode (value : JSNumber)
  | CallNode (name : List Char) (argExprs : List Node)
  | VarRefNode (value : List Char)
  deriving Repr

mutual
/-- Equality of trees, computed. -/
def Node.beq : Node → Node → Bool
  | .DefNode n1 a1 b1, .DefNode n2 a2 b2 => n1 == n2 && a1 == a2 && Node.beq b1 b2
  | .IntegerNode v1, .IntegerNode v2 => v1 == v2
  | .CallNode n1 a1, .CallNode n2 a2 => n1 == n2 && Node.beqList a1 a2
  | .VarRefNode v1, .VarRefNode v2 => v1 == v2
  | _, _ => false
/-- Equality of lists of trees, computed. -/
def Node.beqList : List Node → List Node → Bool
  | [], [] => true
  | a :: as, b :: bs => Node.beq a b && Node.beqList as bs
  | _, _ => false
end

/-- What the parser throws. -/
inductive ParseError where
  /-- The error "Expected token type ..., but got ..." of `consume`. -/
  | unexpected (expectedType actualType : TokenType)
  /-- The TypeError of reading `.type` of `undefined`: `peek` or `consume`
  went past the last token. -/
  | readPastEnd
  /-- The recursion counter of the embedding ran out (never returned by `parse`). -/
  | outOfFuel
  deriving DecidableEq, Repr

/-- The text of the error of `consume`. -/
def ParseError.message : ParseError → List Char
  | .unexpected expectedType actualType =>
    "Expected token type ".toList ++ expectedType.name ++ ", but got ".toList ++ actualType.name
  | .readPastEnd => []
  | .outOfFuel => []

namespace Parser

/-- The method `peek(expectedType, offset)`. -/
def peek (tokens : List Token) (expectedType : TokenType) (offset : Nat) :
    Except ParseError Bool :=
  match tokens.get? offset with
  | none => .error .readPastEnd
  | some token => .ok (token.type == expectedType)

/-- The method `consume(expectedType)`. -/
def consume (tokens : List Token) (expectedType : TokenType) :
    Except ParseError (Token × List Token) :=
  match tokens with
  | [] => .error .readPastEnd
  | token :: rest =>
    if token.type = expectedType then .ok (token, rest)
    else .error (.unexpected expectedType token.type)

/-- The loop `while (this.peek('comma'))` of `parseArgNames`. -/
def parseArgNamesLoop : Nat → List (List Char) → List Token →
    Except ParseError (List (List Char) × List Token)
  | 0, _, _ => .error .outOfFuel
  | fuel + 1, argNames, tokens => do
    if ← peek tokens .comma 0 then
      let (_, tokens) ← consume tokens .comma
      let (token, tokens) ← consume tokens .identifier
      parseArgNamesLoop fuel (argNames ++ [token.value]) tokens
    else
      pure (argNames, tokens)

/-- The method `parseArgNames`. -/
def parseArgNames (fuel : Nat) (tokens : List Token) :
    Except ParseError (List (List Char) × List Token) := do
  let (_, tokens) ← consume tokens .oparen
  let (argNames, tokens) ←
    if ← peek tokens .identifier 0 then do
      let (token, tokens) ← consume tokens .identifier
      parseArgNamesLoop fuel [token.value] tokens
    else
      pure ([], tokens)
  let (_, tokens) ← consume tokens .cparen
  pure (argNames, tokens)

/-- The method `parseInteger`. -/
def parseInteger (tokens : List Token) : Except ParseError (Node × List Token) := do
  let (token, tokens) ← consume tokens .integer
  pure (.IntegerNode (Number token.value), tokens)

/-- The method `parseVarRef`. -/
def parseVarRef (tokens : List Token) : Except ParseError (Node × List Token) := do
  let (token, tokens) ← consume tokens .identifier
  pure (.VarRefNode token.value, tokens)

/-- The loop `while (this.peek('comma'))` of `parseArgExprs`; `parseExpr` is
the method it calls. -/
def parseArgExprsLoop (parseExpr : List Token → Except ParseError (Node × List Token)) :
    Nat → List Node → List Token → Except ParseError (List Node × List Token)
  | 0, _, _ => .error .outOfFuel
  | fuel + 1, argExprs, tokens => do
    if ← peek tokens .comma 0 then
      let (_, tokens) ← consume tokens .comma
      let (expr, tokens) ← parseExpr tokens
      parseArgExprsLoop parseExpr fuel (argExprs ++ [expr]) tokens
    else
      pure (argExprs, tokens)

/-- The method `parseArgExprs`; `parseExpr` is the method it calls. -/
def parseArgExprs (parseExpr : List Token → Except ParseError (Node × List Token)) (fuel : Nat)
    (tokens : List Token) : Except ParseError (List Node × List Token) := do
  let (_, tokens) ← consume tokens .oparen
  let (argExprs, tokens) ←
    if !(← peek tokens .cparen 0) then do
      let (expr, tokens) ← parseExpr tokens
      parseArgExprsLoop parseExpr fuel [expr] tokens
    else
      pure ([], tokens)
  let (_, tokens) ← consume tokens .cparen
  pure (argExprs, tokens)

/-- The method `parseCall`; `parseExpr` is the method it calls. -/
def parseCall (parseExpr : List Token → Except ParseError (Node × List Token)) (fuel : Nat)
    (tokens : List Token) : Except ParseError (Node × List Token) := do
  let (token, tokens) ← consume tokens .identifier
  let (argExprs, tokens) ← parseArgExprs parseExpr fuel tokens
  pure (.CallNode token.value argExprs, tokens)

/-- The method `parseExpr`.  The second `peek` of the `&&` runs only when the
first one answered true. -/
def parseExpr : Nat → List Token → Except ParseError (Node × List Token)
  | 0, _ => .error .outOfFuel
  | fuel + 1, tokens => do
    if ← peek tokens .integer 0 then
      parseInteger tokens
    else
      let isCall ← (do
        if ← peek tokens .identifier 0 then peek tokens .oparen 1 else pure false)
      if isCall then
        parseCall (parseExpr fuel) (fuel + 1) tokens
      else
        parseVarRef tokens

/-- The method `parseDef`. -/
def parseDef (fuel : Nat) (tokens : List Token) : Except ParseError (Node × List Token) := do
  let (_, tokens) ← consume tokens .def_
  let (token, tokens) ← consume tokens .identifier
  let (argNames, tokens) ← parseArgNames fuel tokens
  let (body, tokens) ← parseExpr fuel tokens
  let (_, tokens) ← consume tokens .end_
  pure (.DefNode token.value argNames body, tokens)

/-- The method `parse` of a parser constructed on `tokens`: the tree and the
tokens left in `this.tokens`. -/
def parse (tokens : List Token) : Except ParseError (Node × List Token) :=
  parseDef (tokens.length + 1) tokens

end Parser

/-! ## Generator -/

/-- What `generate` returns: a string, or the number of an `IntegerNode`. -/
inductive JSVal where
  | str (s : List Char)
  | num (v : JSNumber)
  deriving DecidableEq, Repr

/-- The conversion to a string that a template literal and `join` apply. -/
def JSVal.toStr : JSVal → List Char
  | .str s => s
  | .num v => numberToString v

/-- The method `Array.prototype.join`. -/
def join (parts : List (List Char)) (separator : List Char) : List Char :=
  separator.intercalate parts

mutual
/-- The function `generate`. -/
def generate : Node → JSVal
  | .DefNode name argNames body =>
    .str ("function ".toList ++ name ++ "(".toList ++ join argNames ", ".toList ++
      ") \x7b return ".toList ++ (generate body).toStr ++ " \x7d".toList)
  | .CallNode name argExprs =>
    .str (name ++ "(".toList ++ join ((generateEach argExprs).map JSVal.toStr) ", ".toList ++
      ")".toList)
  | .VarRefNode value => .str value
  | .IntegerNode value => .num value
/-- The array `argExprs.map(generate)`. -/
def generateEach : List Node → List JSVal
  | [] => []
  | node :: nodes => generate node :: generateEach nodes
end

/-- What the pipeline throws: the error of the tokenizer or of the parser. -/
inductive CompileError where
  | lex (e : LexError)
  | parse (e : ParseError)
  deriving DecidableEq, Repr

/-- The pipeline of the last lines of the program, from the source text to the
generated text (without the fixed prelude and test line): tokenize, parse,
generate. -/
def compile (code : List Char) : Except CompileError (List Char) :=
  match Tokenizer.tokenize code with
  | .error e => .error (.lex e)
  | .ok tokens =>
    match Parser.parse tokens with
    | .error e => .error (.parse e)
    | .ok (tree, _) => .ok (generate tree).toStr

/-! ## Auxiliary definitions of the proofs -/

/-- A closed form of `tokenizeOneToken` (proved equal to it below): the rules
are read off the maximal run `w` of word characters at the start of the text. -/
def nextToken (s : List Char) : Except LexError (Token × List Char) :=
  let w := s.takeWhile isWordChar
  let rest := s.dropWhile isWordChar
  if w = "def".toList then .ok (⟨.def_, w⟩, rest)
  else if w = "end".toList then .ok (⟨.end_, w⟩, rest)
  else if w ≠ [] ∧ w.all Char.isAlpha = true then .ok (⟨.identifier, w⟩, rest)
  else if w ≠ [] ∧ w.all Char.isDigit = true then .ok (⟨.integer, w⟩, rest)
  else
    match s with
    | [] => .error (.noMatch s)
    | c :: cs =>
      if c = '(' then .ok (⟨.oparen, [c]⟩, cs)
      else if c = ')' then .ok (⟨.cparen, [c]⟩, cs)
      else if c = ',' then .ok (⟨.comma, [c]⟩, cs)
      else .error (.noMatch s)

/-- A token as the tokenizer can produce it: the text fits the type. -/
def Token.WellFormed (t : Token) : Prop :=
  match t.type with
  | .def_ => t.value = "def".toList
  | .end_ => t.value = "end".toList
  | .identifier =>
    t.value ≠ [] ∧ t.value.all Char.isAlpha = true ∧ t.value ≠ "def".toList ∧
      t.value ≠ "end".toList
  | .integer => t.value ≠ [] ∧ t.value.all Char.isDigit = true
  | .oparen => t.value = "(".toList
  | .cparen => t.value = ")".toList
  | .comma => t.value = ",".toList

instance (t : Token) : Decidable t.WellFormed := by
  unfold Token.WellFormed; split <;> infer_instance

/-- The characters a source text may contain: letters, digits, `(`, `)`, `,`
and whitespace. -/
def isSourceChar (c : Char) : Bool :=
  c.isAlpha || c.isDigit || c == '(' || c == ')' || c == ',' || isWhiteSpace c

/-- The result `y` is `x`, unless `x` ran out of fuel. -/
def FuelLe {α : Type} (x y : Except ParseError α) : Prop :=
  x = .error .outOfFuel ∨ x = y

/-- The computation did not run out of fuel and left at most `L` tokens. -/
def Within {α : Type} (L : Nat) (x : Except ParseError (α × List Token)) : Prop :=
  x ≠ .error .outOfFuel ∧ ∀ v r, x = .ok (v, r) → r.length ≤ L

/-- The computation `y`, run on the prefix `p` of the tokens `ts` on which `x` succeeds,
either reads past the end or succeeds with the same value, having consumed the
same tokens. -/
def Trunc {α : Type} (ts p : List Token) (x y : Except ParseError (α × List Token)) : Prop :=
  ∀ v r, x = .ok (v, r) → y = .error .readPastEnd ∨
    ∃ r', y = .ok (v, r') ∧ r' <+: r ∧ p.length + r.length = ts.length + r'.length

/-- The same for a computation that consumes nothing and answers a Boolean. -/
def TruncB (x y : Except ParseError Bool) : Prop :=
  ∀ b, x = .ok b → y = .error .readPastEnd ∨ y = .ok b

/-- The identifier tokens of parameter names, each further one after a comma. -/
def commaNameTokens : List (List Char) → List Token
  | [] => []
  | name :: names => ⟨.comma, ",".toList⟩ :: ⟨.identifier, name⟩ :: commaNameTokens names

/-- The tokens of a parameter list between the parentheses: identifiers separated by commas. -/
def nameTokens : List (List Char) → List Token
  | [] => []
  | name :: names => ⟨.identifier, name⟩ :: commaNameTokens names

/-- The decimal digits of a natural number value (no digits for `Infinity` and `NaN`). -/
def decimalDigits : JSNumber → List Char
  | .nat n => Nat.toDigits 10 n
  | _ => []

mutual
/-- The token sequence the grammar derives for a tree: an integer is one integer
token with its decimal digits, a variable one identifier token, a call is identifier,
oparen, the arguments separated by commas, cparen, and a definition is def, identifier,
oparen, the parameters separated by commas, cparen, the body, end. -/
def tokensOf : Node → List Token
  | .IntegerNode value => [⟨.integer, decimalDigits value⟩]
  | .VarRefNode value => [⟨.identifier, value⟩]
  | .CallNode name argExprs =>
    ⟨.identifier, name⟩ :: ⟨.oparen, "(".toList⟩ :: (argTokens argExprs ++ [⟨.cparen, ")".toList⟩])
  | .DefNode name argNames body =>
    ⟨.def_, "def".toList⟩ :: ⟨.identifier, name⟩ :: ⟨.oparen, "(".toList⟩ ::
      (nameTokens argNames ++ ⟨.cparen, ")".toList⟩ :: (tokensOf body ++ [⟨.end_, "end".toList⟩]))
/-- The tokens of an argument list between the parentheses. -/
def argTokens : List Node → List Token
  | [] => []
  | node :: nodes => tokensOf node ++ commaArgTokens nodes
/-- The tokens of further arguments, each after a comma. -/
def commaArgTokens : List Node → List Token
  | [] => []
  | node :: nodes => ⟨.comma, ",".toList⟩ :: (tokensOf node ++ commaArgTokens nodes)
end

mutual
/-- An expression tree as the parser builds it: no definition inside, and every
integer value a natural number that is an IEEE double. -/
def Node.isExpr : Node → Bool
  | .IntegerNode (.nat n) => decide (isDouble n)
  | .IntegerNode _ => false
  | .VarRefNode _ => true
  | .CallNode _ argExprs => Node.allExpr argExprs
  | .DefNode _ _ _ => false
/-- Every tree of the list is an expression tree. -/
def Node.allExpr : List Node → Bool
  | [] => true
  | node :: nodes => node.isExpr && Node.allExpr nodes
end

/-- Specification side, the matches of a rule: the pieces `ps` match exactly the first
`k` characters of `s`, `prev` being the character before `s`.  Unlike `rxMatch`, which
returns the one match the backtracking search finds, this tells of every length
whether the pattern can match it. -/
def rxAccepts : List Rx → Option Char → List Char → Nat → Bool
  | [], _, _, k => k == 0
  | Rx.wordBoundary :: ps, prev, s, k => atWordBoundary prev s && rxAccepts ps prev s k
  | Rx.lit c :: ps, _, s, k =>
    match s, k with
    | x :: xs, k + 1 => x == c && rxAccepts ps (some x) xs k
    | _, _ => false
  | Rx.plus cls :: ps, prev, s, k =>
    (List.range k).any fun i =>
      decide (i + 1 ≤ s.length) && (s.take (i + 1)).all cls &&
        rxAccepts ps (lastCharOr prev (s.take (i + 1))) (s.drop (i + 1)) (k - (i + 1))

/-- Specification side, the longest-match rule: the longest prefix of the buffer that
some rule of the table matches, with the first rule in declaration order among those
that match a prefix of that length. -/
def longestMatch (rules : List (TokenType × List Rx)) (buffer : List Char) :
    Option (TokenType × Nat) :=
  (List.range (buffer.length + 1)).reverse.findSome? fun k =>
    rules.findSome? fun rule =>
      if rxAccepts rule.2 none buffer k then some (rule.1, k) else none

/-- Specification side, one step of a longest-match tokenizer. -/
def tokenizeOneTokenLongest (buffer : List Char) : Except LexError (Token × List Char) :=
  match longestMatch TOKEN_TYPES buffer with
  | some (type, n) => .ok (⟨type, buffer.take n⟩, buffer.drop n)
  | none => .error (.noMatch buffer)

/-- Specification side, the loop of a longest-match tokenizer. -/
def tokenizeLongestLoop : Nat → List Token × List Char → Except LexError (List Token)
  | _, (tokens, []) => .ok tokens
  | 0, (_, _ :: _) => .error .outOfFuel
  | fuel + 1, (tokens, c :: cs) =>
    match tokenizeOneTokenLongest (c :: cs) with
    | .error e => .error e
    | .ok (token, buffer) => tokenizeLongestLoop fuel (tokens ++ [token], trim buffer)

/-- Specification side, a tokenizer that picks the longest match at every step,
breaking ties by declaration order. -/
def tokenizeLongest (code : List Char) : Except LexError (List Token) :=
  tokenizeLongestLoop code.length ([], code)

/-- The tokens `r'` agree with the tokens `r` on the one token that a run which left
`r` may have looked at without consuming it: the first. -/
def Agree (r r' : List Token) : Prop := ∀ t, r.head? = some t → r'.head? = some t

/-- The run `x` on the tokens `ts` consumed a prefix `c` of them, and the run `y` on
the tokens `ts'`, which has the same prefix followed by tokens that agree with those
that `x` left, gives the same value and leaves what follows the prefix. -/
def Frame {α : Type} (ts ts' : List Token) (x y : Except ParseError (α × List Token)) :
    Prop :=
  ∀ v r, x = .ok (v, r) →
    ∃ c, ts = c ++ r ∧ ∀ r', ts' = c ++ r' → Agree r r' → y = .ok (v, r')

/-- The types of the word tokens: `def`, `end`, identifiers and integers. -/
def TokenType.isWord : TokenType → Bool
  | .def_ | .end_ | .identifier | .integer => true
  | _ => false

mutual
/-- The tokens of the text that `generate` returns for an expression tree: an integer is
one integer token with the text of its number, a variable one identifier token, a call is
identifier, oparen, the arguments separated by commas, cparen (no tokens for a
definition, which is not an expression). -/
def generatedTokens : Node → List Token
  | .IntegerNode value => [⟨.integer, numberToString value⟩]
  | .VarRefNode value => [⟨.identifier, value⟩]
  | .CallNode name argExprs =>
    ⟨.identifier, name⟩ :: ⟨.oparen, "(".toList⟩ ::
      (generatedArgTokens argExprs ++ [⟨.cparen, ")".toList⟩])
  | .DefNode _ _ _ => []
/-- The tokens of a generated argument list between the parentheses. -/
def generatedArgTokens : List Node → List Token
  | [] => []
  | node :: nodes => generatedTokens node ++ generatedCommaArgTokens nodes
/-- The tokens of further generated arguments, each after a comma. -/
def generatedCommaArgTokens : List Node → List Token
  | [] => []
  | node :: nodes => ⟨.comma, ",".toList⟩ :: (generatedTokens node ++ generatedCommaArgTokens nodes)
end

mutual
/-- An expression tree whose generated text is source text: no definition inside, every
name the text of an identifier token (ASCII letters, at least one, not `def` and not
`end`), and every integer value a natural number that is an IEEE double below
`10 ^ 21`. -/
def Node.isSourceExpr : Node → Bool
  | .IntegerNode (.nat n) => decide (isDouble n ∧ n < 10 ^ 21)
  | .IntegerNode _ => false
  | .VarRefNode value => decide (Token.WellFormed ⟨.identifier, value⟩)
  | .CallNode name argExprs =>
    decide (Token.WellFormed ⟨.identifier, name⟩) && Node.allSourceExpr argExprs
  | .DefNode _ _ _ => false
/-- Every tree of the list is such an expression tree. -/
def Node.allSourceExpr : List Node → Bool
  | [] => true
  | node :: nodes => node.isSourceExpr && Node.allSourceExpr nodes
end

/-- A text that may follow the text of an expression in the buffer: it is not empty,
does not start with a word character and does not end with whitespace. -/
def GoodTail (tail : List Char) : Prop :=
  tail ≠ [] ∧ tail.head?.any isWordChar = false ∧
    ∀ c, tail.getLast? = some c → isWhiteSpace c = false

/-- The text of further arguments in a generated argument list, each after `, `. -/
def commaText : List Node → List Char
  | [] => []
  | node :: nodes => ", ".toList ++ (generate node).toStr ++ commaText nodes

/-! # Proofs -/

/-! ## Equality of trees is decidable -/

mutual
theorem Node.beq_iff : ∀ a b : Node, Node.beq a b = true ↔ a = b
  | .DefNode n1 a1 b1, .DefNode n2 a2 b2 => by
    simp [Node.beq, Node.beq_iff b1 b2, and_assoc]
  | .IntegerNode v1, .IntegerNode v2 => by simp [Node.beq]
  | .CallNode n1 a1, .CallNode n2 a2 => by simp [Node.beq, Node.beqList_iff a1 a2]
  | .VarRefNode v1, .VarRefNode v2 => by simp [Node.beq]
  | .DefNode _ _ _, .IntegerNode _ => by simp [Node.beq]
  | .DefNode _ _ _, .CallNode _ _ => by simp [Node.beq]
  | .DefNode _ _ _, .VarRefNode _ => by simp [Node.beq]
  | .IntegerNode _, .DefNode _ _ _ => by simp [Node.beq]
  | .IntegerNode _, .CallNode _ _ => by simp [Node.beq]
  | .IntegerNode _, .VarRefNode _ => by simp [Node.beq]
  | .CallNode _ _, .DefNode _ _ _ => by simp [Node.beq]
  | .CallNode _ _, .IntegerNode _ => by simp [Node.beq]
  | .CallNode _ _, .VarRefNode _ => by simp [Node.beq]
  | .VarRefNode _, .DefNode _ _ _ => by simp [Node.beq]
  | .VarRefNode _, .IntegerNode _ => by simp [Node.beq]
  | .VarRefNode _, .CallNode _ _ => by simp [Node.beq]
theorem Node.beqList_iff : ∀ as bs : List Node, Node.beqList as bs = true ↔ as = bs
  | [], [] => by simp [Node.beqList]
  | a :: as, b :: bs => by simp [Node.beqList, Node.beq_iff a b, Node.beqList_iff as bs]
  | [], _ :: _ => by simp [Node.beqList]
  | _ :: _, [] => by simp [Node.beqList]
end

instance : DecidableEq Node := fun a b => decidable_of_iff _ (Node.beq_iff a b)

/-! ## The regular expressions -/

theorem rxMatch_boundary_only (prev : Option Char) (s : List Char) :
    rxMatch [Rx.wordBoundary] prev s = if atWordBoundary prev s then some 0 else none := by
  simp [rxMatch]

theorem plus_candidates_succ (m : Nat) :
    ((List.range (m + 1)).reverse.map (· + 1)) = (m + 1) :: ((List.range m).reverse.map (· + 1)) := by
  simp [List.range_succ]

theorem mem_plus_candidates {m k : Nat} :
    k ∈ ((List.range m).reverse.map (· + 1)) ↔ 1 ≤ k ∧ k ≤ m := by
  simp only [List.mem_map, List.mem_reverse, List.mem_range]
  constructor
  · rintro ⟨a, ha, rfl⟩; omega
  · rintro ⟨h1, h2⟩; exact ⟨k - 1, by omega, by omega⟩

theorem lastCharOr_take_append (prev : Option Char) (run rest : List Char) (k : Nat)
    (h1 : 1 ≤ k) (h2 : k ≤ run.length) :
    ∃ c ∈ run, lastCharOr prev ((run ++ rest).take k) = some c := by
  rw [List.take_append_of_le_length h2]
  have hne' : run.take k ≠ [] := by
    intro h
    have := congrArg List.length h
    rw [List.length_take, List.length_nil] at this
    omega
  obtain ⟨c, hc⟩ : ∃ c, (run.take k).getLast? = some c := by
    cases h : (run.take k).getLast? with
    | none => exact absurd (List.getLast?_eq_none_iff.mp h) hne'
    | some c => exact ⟨c, rfl⟩
  refine ⟨c, ?_, ?_⟩
  · exact List.mem_of_mem_take (List.mem_of_getLast?_eq_some hc)
  · simp [lastCharOr, hc]

theorem head?_drop_append (run rest : List Char) (k : Nat) (h2 : k < run.length) :
    ∃ c ∈ run, ((run ++ rest).drop k).head? = some c := by
  rw [List.drop_append_of_le_length (Nat.le_of_lt h2)]
  cases h : run.drop k with
  | nil =>
    have := congrArg List.length h
    rw [List.length_drop, List.length_nil] at this
    omega
  | cons c cs =>
    refine ⟨c, ?_, by simp⟩
    exact List.mem_of_mem_drop (h ▸ List.mem_cons_self _ _)

theorem rxMatch_word_run (cls : Char → Bool)
    (hcls : ∀ c, cls c = true → isWordChar c = true)
    (run rest : List Char) (hrun : ∀ c ∈ run, cls c = true)
    (hrest : ∀ c, rest.head? = some c → cls c = false) :
    rxMatch [.wordBoundary, .plus cls, .wordBoundary] none (run ++ rest) =
      if run ≠ [] ∧ rest.head?.any isWordChar = false then some run.length else none := by
  have htake : (run ++ rest).takeWhile cls = run := by
    rw [List.takeWhile_append_of_pos hrun]
    cases rest with
    | nil => simp
    | cons c cs =>
      have := hrest c rfl
      simp [this]
  cases run with
  | nil =>
    simp only [List.nil_append] at htake ⊢
    simp [rxMatch, htake]
  | cons a as =>
    have ha : isWordChar a = true := hcls a (hrun a (List.mem_cons_self _ _))
    have hb : atWordBoundary none ((a :: as) ++ rest) = true := by
      simp [atWordBoundary, ha]
    rw [rxMatch, if_pos hb, rxMatch, htake, List.length_cons, plus_candidates_succ,
      List.findSome?_cons]
    have hd : (a :: as ++ rest).drop (as.length + 1) = rest := by
      rw [show as.length + 1 = (a :: as).length from rfl, List.drop_left]
    obtain ⟨c, hc, hlast⟩ := lastCharOr_take_append none (a :: as) rest (as.length + 1)
      (by omega) (by simp)
    have hcw : isWordChar c = true := hcls c (hrun c hc)
    rw [hd, hlast, rxMatch_boundary_only]
    by_cases hr : rest.head?.any isWordChar = true
    · have : atWordBoundary (some c) rest = false := by simp [atWordBoundary, hcw, hr]
      simp only [this, Bool.false_eq_true, if_false, Option.map_none']
      have hnone : ∀ k ∈ ((List.range as.length).reverse.map (· + 1)),
          Option.map (· + k) (rxMatch [Rx.wordBoundary]
            (lastCharOr none ((a :: as ++ rest).take k)) ((a :: as ++ rest).drop k)) = none := by
        intro k hk'
        rw [mem_plus_candidates] at hk'
        obtain ⟨c1, hc1, hl1⟩ := lastCharOr_take_append none (a :: as) rest k hk'.1
          (by simp; omega)
        obtain ⟨c2, hc2, hh2⟩ := head?_drop_append (a :: as) rest k (by simp; omega)
        have w1 := hcls c1 (hrun c1 hc1)
        have w2 := hcls c2 (hrun c2 hc2)
        have hnb : atWordBoundary (some c1) ((a :: as ++ rest).drop k) = false := by
          unfold atWordBoundary
          rw [hh2]
          simp [w1, w2]
        rw [hl1, rxMatch_boundary_only, hnb]
        rfl
      rw [List.findSome?_eq_none_iff.mpr hnone]
      simp [hr]
    · have hr' : rest.head?.any isWordChar = false := by simpa using hr
      have : atWordBoundary (some c) rest = true := by simp [atWordBoundary, hcw, hr']
      simp [this, hr']


theorem isWordChar_of_isAlpha (c : Char) (h : c.isAlpha = true) : isWordChar c = true := by
  simp [isWordChar, h]

theorem isWordChar_of_isDigit (c : Char) (h : c.isDigit = true) : isWordChar c = true := by
  simp [isWordChar, h]

theorem take_takeWhile_length (p : Char → Bool) (s : List Char) :
    s.take (s.takeWhile p).length = s.takeWhile p := by
  have h := List.take_left (s.takeWhile p) (s.dropWhile p)
  rwa [List.takeWhile_append_dropWhile] at h

theorem drop_takeWhile_length (p : Char → Bool) (s : List Char) :
    s.drop (s.takeWhile p).length = s.dropWhile p := by
  have h := List.drop_left (s.takeWhile p) (s.dropWhile p)
  rwa [List.takeWhile_append_dropWhile] at h

theorem head?_dropWhile_false (p : Char → Bool) (s : List Char) (c : Char)
    (h : (s.dropWhile p).head? = some c) : p c = false := by
  induction s with
  | nil => simp at h
  | cons a as ih =>
    by_cases ha : p a = true
    · rw [List.dropWhile_cons_of_pos ha] at h; exact ih h
    · rw [List.dropWhile_cons_of_neg ha] at h
      simp at h; subst h; simpa using ha

theorem takeWhile_append_stop (p : Char → Bool) (run rest : List Char)
    (hrun : ∀ c ∈ run, p c = true) (hrest : ∀ c, rest.head? = some c → p c = false) :
    (run ++ rest).takeWhile p = run ∧ (run ++ rest).dropWhile p = rest := by
  rw [List.takeWhile_append_of_pos hrun, List.dropWhile_append_of_pos hrun]
  cases rest with
  | nil => simp
  | cons c cs =>
    have := hrest c rfl
    simp [this]

/-- The rule of a run of word characters of one class, in terms of the maximal run of word
characters at the start of the text. -/
theorem rxMatch_run_rule (cls : Char → Bool)
    (hcls : ∀ c, cls c = true → isWordChar c = true) (s : List Char) :
    rxMatch [.wordBoundary, .plus cls, .wordBoundary] none s =
      if s.takeWhile isWordChar ≠ [] ∧ (s.takeWhile isWordChar).all cls = true
      then some (s.takeWhile isWordChar).length else none := by
  have hs := List.takeWhile_append_dropWhile cls s
  have h1 := rxMatch_word_run cls hcls (s.takeWhile cls) (s.dropWhile cls)
    (fun c hc => (List.mem_takeWhile_imp hc)) (head?_dropWhile_false cls s)
  rw [hs] at h1
  rw [h1]
  by_cases hA : s.takeWhile cls ≠ [] ∧ (s.dropWhile cls).head?.any isWordChar = false
  · rw [if_pos hA]
    have hw := takeWhile_append_stop isWordChar (s.takeWhile cls) (s.dropWhile cls)
      (fun c hc => hcls c (List.mem_takeWhile_imp hc))
      (fun c hc => by have := hA.2; rw [hc] at this; simpa using this)
    rw [hs] at hw
    rw [hw.1, if_pos]
    exact ⟨hA.1, by simp⟩
  · rw [if_neg hA, if_neg]
    rintro ⟨hne, hall⟩
    apply hA
    have hw := List.takeWhile_append_dropWhile isWordChar s
    have hc := takeWhile_append_stop cls (s.takeWhile isWordChar) (s.dropWhile isWordChar)
      (by simpa using hall)
      (fun c hc => by
        have := head?_dropWhile_false isWordChar s c hc
        by_contra hcc
        rw [hcls c (by simpa using hcc)] at this
        exact absurd this (by simp))
    rw [hw] at hc
    rw [hc.1, hc.2]
    refine ⟨hne, ?_⟩
    cases h : (s.dropWhile isWordChar).head? with
    | none => rfl
    | some c => simpa using head?_dropWhile_false isWordChar s c h


theorem rxMatch_keyword_rule (a b c : Char) (ha : isWordChar a = true)
    (hb : isWordChar b = true) (hc : isWordChar c = true) (s : List Char) :
    rxMatch [.wordBoundary, .lit a, .lit b, .lit c, .wordBoundary] none s =
      if s.takeWhile isWordChar = [a, b, c] then some 3 else none := by
  rcases s with _ | ⟨x, _ | ⟨y, _ | ⟨z, rest⟩⟩⟩
  · simp [rxMatch, atWordBoundary]
  · by_cases hx : isWordChar x = true <;> simp [rxMatch, atWordBoundary, List.takeWhile_cons, hx]
  · by_cases hx : isWordChar x = true <;> by_cases hy : isWordChar y = true <;>
      simp [rxMatch, atWordBoundary, List.takeWhile_cons, hx, hy]
  · by_cases hxa : x = a
    · subst hxa
      by_cases hyb : y = b
      · subst hyb
        by_cases hzc : z = c
        · subst hzc
          cases rest with
          | nil => simp [rxMatch, atWordBoundary, List.takeWhile_cons, ha, hb, hc]
          | cons r rs =>
            by_cases hr : isWordChar r = true <;>
              simp [rxMatch, atWordBoundary, List.takeWhile_cons, ha, hb, hc, hr]
        · have : ¬ (List.takeWhile isWordChar (x :: y :: z :: rest) = [x, y, c]) := by
            simp only [List.takeWhile_cons, ha, hb, if_true]
            split <;> simp [hzc]
          rw [if_neg this]; simp [rxMatch, atWordBoundary, ha, hzc]
      · have : ¬ (List.takeWhile isWordChar (x :: y :: z :: rest) = [x, b, c]) := by
          simp only [List.takeWhile_cons, ha, if_true]
          split <;> simp [hyb]
        rw [if_neg this]; simp [rxMatch, atWordBoundary, ha, hyb]
    · have : ¬ (List.takeWhile isWordChar (x :: y :: z :: rest) = [a, b, c]) := by
        rw [List.takeWhile_cons]
        split <;> simp [hxa]
      rw [if_neg this]
      by_cases hx : isWordChar x = true <;> simp [rxMatch, atWordBoundary, hx, hxa]

theorem rxMatch_lit_rule (a : Char) (s : List Char) :
    rxMatch [.lit a] none s = if s.head? = some a then some 1 else none := by
  cases s with
  | nil => simp [rxMatch]
  | cons x xs => 
    by_cases h : x = a <;> simp [rxMatch, h]


theorem tokenizeOneToken_eq_nextToken (s : List Char) :
    Tokenizer.tokenizeOneToken s = nextToken s := by
  have hdef : "def".toList = ['d', 'e', 'f'] := rfl
  have hend : "end".toList = ['e', 'n', 'd'] := rfl
  have hT := take_takeWhile_length isWordChar s
  have hD := drop_takeWhile_length isWordChar s
  unfold Tokenizer.tokenizeOneToken TOKEN_TYPES nextToken
  simp only [Tokenizer.tryRules, hdef, hend]
  rw [rxMatch_keyword_rule 'd' 'e' 'f' (by decide) (by decide) (by decide),
    rxMatch_keyword_rule 'e' 'n' 'd' (by decide) (by decide) (by decide),
    rxMatch_run_rule Char.isAlpha isWordChar_of_isAlpha,
    rxMatch_run_rule Char.isDigit isWordChar_of_isDigit,
    rxMatch_lit_rule, rxMatch_lit_rule, rxMatch_lit_rule]
  by_cases h1 : s.takeWhile isWordChar = ['d', 'e', 'f']
  · rw [h1] at hT hD
    simp only [h1, if_true]
    rw [← hD]; simp at hT ⊢; exact hT
  rw [if_neg h1, if_neg h1]
  by_cases h2 : s.takeWhile isWordChar = ['e', 'n', 'd']
  · rw [h2] at hT hD
    simp only [h2, if_true]
    rw [← hD]; simp at hT ⊢; exact hT
  rw [if_neg h2, if_neg h2]
  by_cases h3 : s.takeWhile isWordChar ≠ [] ∧ (s.takeWhile isWordChar).all Char.isAlpha = true
  · rw [if_pos h3, if_pos h3]; simp only [hT, hD]
  rw [if_neg h3, if_neg h3]
  by_cases h4 : s.takeWhile isWordChar ≠ [] ∧ (s.takeWhile isWordChar).all Char.isDigit = true
  · rw [if_pos h4, if_pos h4]; simp only [hT, hD]
  rw [if_neg h4, if_neg h4]
  cases s with
  | nil => simp
  | cons c cs =>
    by_cases c1 : c = '('
    · subst c1; simp
    by_cases c2 : c = ')'
    · subst c2; simp
    by_cases c3 : c = ','
    · subst c3; simp
    simp [c1, c2, c3]

/-! ## Character classes -/

theorem char_le_val_iff (n : Nat) (hn : n < UInt32.size) (c : Char) :
    UInt32.ofNat n ≤ c.val ↔ n ≤ c.toNat := by
  rw [UInt32.le_def, BitVec.le_def]
  rw [UInt32.toBitVec_eq_of_lt hn]
  rfl

theorem char_val_le_iff (n : Nat) (hn : n < UInt32.size) (c : Char) :
    c.val ≤ UInt32.ofNat n ↔ c.toNat ≤ n := by
  rw [UInt32.le_def, BitVec.le_def]
  rw [UInt32.toBitVec_eq_of_lt hn]
  rfl

theorem isDigit_iff (c : Char) : c.isDigit = true ↔ 48 ≤ c.toNat ∧ c.toNat ≤ 57 := by
  simp only [Char.isDigit, Bool.and_eq_true, decide_eq_true_eq, ge_iff_le]
  exact and_congr (char_le_val_iff 48 (by decide) c) (char_val_le_iff 57 (by decide) c)

theorem isAlpha_iff (c : Char) :
    c.isAlpha = true ↔ (65 ≤ c.toNat ∧ c.toNat ≤ 90) ∨ (97 ≤ c.toNat ∧ c.toNat ≤ 122) := by
  simp only [Char.isAlpha, Char.isUpper, Char.isLower, Bool.or_eq_true, Bool.and_eq_true,
    decide_eq_true_eq, ge_iff_le]
  exact or_congr (and_congr (char_le_val_iff 65 (by decide) c) (char_val_le_iff 90 (by decide) c))
    (and_congr (char_le_val_iff 97 (by decide) c) (char_val_le_iff 122 (by decide) c))

theorem char_eq_iff (c d : Char) : c = d ↔ c.toNat = d.toNat := by
  constructor
  · rintro rfl; rfl
  · intro h
    apply Char.ext
    apply UInt32.ext  
    exact h

theorem isWhiteSpace_iff (c : Char) : isWhiteSpace c = true ↔
    c.toNat = 0x09 ∨ c.toNat = 0x0A ∨ c.toNat = 0x0B ∨ c.toNat = 0x0C ∨ c.toNat = 0x0D ∨
    c.toNat = 0x20 ∨ c.toNat = 0xA0 ∨ c.toNat = 0x1680 ∨ (0x2000 ≤ c.toNat ∧ c.toNat ≤ 0x200A) ∨
    c.toNat = 0x2028 ∨ c.toNat = 0x2029 ∨ c.toNat = 0x202F ∨ c.toNat = 0x205F ∨
    c.toNat = 0x3000 ∨ c.toNat = 0xFEFF := by
  simp only [isWhiteSpace, Bool.or_eq_true, Bool.and_eq_true, beq_iff_eq, decide_eq_true_eq]
  tauto

theorem isAlpha_not_isDigit (c : Char) (h : c.isAlpha = true) : c.isDigit = false := by
  rw [isAlpha_iff] at h
  cases hd : c.isDigit with
  | false => rfl
  | true => rw [isDigit_iff] at hd; omega

/-! ## One token -/

theorem head?_dropWhile_any (s : List Char) :
    (s.dropWhile isWordChar).head?.any isWordChar = false := by
  cases h : (s.dropWhile isWordChar).head? with
  | none => rfl
  | some c => simpa using head?_dropWhile_false isWordChar s c h

/-- Whatever `tokenizeOneToken` returns is a well-formed token, its text is the
start of the buffer, the new buffer is what follows, and a word token is not
followed by a word character. -/
theorem tokenizeOneToken_ok {s rest : List Char} {tok : Token}
    (h : Tokenizer.tokenizeOneToken s = .ok (tok, rest)) :
    s = tok.value ++ rest ∧ tok.WellFormed ∧
      (tok.type = .oparen ∨ tok.type = .cparen ∨ tok.type = .comma ∨
        rest.head?.any isWordChar = false) := by
  rw [tokenizeOneToken_eq_nextToken] at h
  unfold nextToken at h
  have hs := (List.takeWhile_append_dropWhile isWordChar s).symm
  have hb := head?_dropWhile_any s
  simp only at h
  split at h
  · next h1 =>
    simp only [Except.ok.injEq, Prod.mk.injEq] at h
    obtain ⟨rfl, rfl⟩ := h
    exact ⟨hs, h1, Or.inr (Or.inr (Or.inr hb))⟩
  split at h
  · next h1 h2 =>
    simp only [Except.ok.injEq, Prod.mk.injEq] at h
    obtain ⟨rfl, rfl⟩ := h
    exact ⟨hs, h2, Or.inr (Or.inr (Or.inr hb))⟩
  split at h
  · next h1 h2 h3 =>
    simp only [Except.ok.injEq, Prod.mk.injEq] at h
    obtain ⟨rfl, rfl⟩ := h
    exact ⟨hs, ⟨h3.1, h3.2, h1, h2⟩, Or.inr (Or.inr (Or.inr hb))⟩
  split at h
  · next h1 h2 h3 h4 =>
    simp only [Except.ok.injEq, Prod.mk.injEq] at h
    obtain ⟨rfl, rfl⟩ := h
    exact ⟨hs, h4, Or.inr (Or.inr (Or.inr hb))⟩
  split at h
  · simp at h
  · next c cs =>
    split at h
    · next hc =>
      simp only [Except.ok.injEq, Prod.mk.injEq] at h
      obtain ⟨rfl, rfl⟩ := h
      subst hc
      exact ⟨rfl, rfl, Or.inl rfl⟩
    split at h
    · next hc =>
      simp only [Except.ok.injEq, Prod.mk.injEq] at h
      obtain ⟨rfl, rfl⟩ := h
      subst hc
      exact ⟨rfl, rfl, Or.inr (Or.inl rfl)⟩
    split at h
    · next hc =>
      simp only [Except.ok.injEq, Prod.mk.injEq] at h
      obtain ⟨rfl, rfl⟩ := h
      subst hc
      exact ⟨rfl, rfl, Or.inr (Or.inr (Or.inl rfl))⟩
    · simp at h

/-- The only error of `tokenizeOneToken` is the one that carries the buffer. -/
theorem tokenizeOneToken_error {s : List Char} {e : LexError}
    (h : Tokenizer.tokenizeOneToken s = .error e) : e = .noMatch s := by
  rw [tokenizeOneToken_eq_nextToken] at h
  unfold nextToken at h
  simp only at h
  repeat' split at h
  all_goals first
    | (simp only [Except.error.injEq] at h; exact h.symm)
    | simp at h

theorem wellFormed_value_ne_nil {tok : Token} (h : tok.WellFormed) : tok.value ≠ [] := by
  unfold Token.WellFormed at h
  split at h
  all_goals first
    | exact h.1
    | (rw [h]; decide)

/-- A well-formed token at the start of the buffer, followed by no word
character, is the token `tokenizeOneToken` returns. -/
theorem tokenizeOneToken_append (tok : Token) (hwf : tok.WellFormed) (rest : List Char)
    (hrest : rest.head?.any isWordChar = false) :
    Tokenizer.tokenizeOneToken (tok.value ++ rest) = .ok (tok, rest) := by
  have hstop : ∀ c, rest.head? = some c → isWordChar c = false := by
    intro c hc; rw [hc] at hrest; simpa using hrest
  rw [tokenizeOneToken_eq_nextToken]
  obtain ⟨type, value⟩ := tok
  unfold Token.WellFormed at hwf
  cases type <;> simp only at hwf
  · subst hwf
    have := takeWhile_append_stop isWordChar "def".toList rest (by decide) hstop
    simp only [nextToken, this.1, this.2]
    simp
  · subst hwf
    have := takeWhile_append_stop isWordChar "end".toList rest (by decide) hstop
    simp only [nextToken, this.1, this.2]
    simp
  · obtain ⟨h1, h2, h3, h4⟩ := hwf
    have := takeWhile_append_stop isWordChar value rest
      (fun c hc => isWordChar_of_isAlpha c (by simpa using (List.all_eq_true.mp h2) c hc)) hstop
    simp only [nextToken, this.1, this.2]
    rw [if_neg h3, if_neg h4, if_pos ⟨h1, h2⟩]
  · obtain ⟨h1, h2⟩ := hwf
    have hw := takeWhile_append_stop isWordChar value rest
      (fun c hc => isWordChar_of_isDigit c (by simpa using (List.all_eq_true.mp h2) c hc)) hstop
    have hnd : value ≠ "def".toList := by
      rintro rfl; revert h2; decide
    have hne : value ≠ "end".toList := by
      rintro rfl; revert h2; decide
    have hna : ¬ (value.all Char.isAlpha = true) := by
      intro ha
      cases value with
      | nil => exact h1 rfl
      | cons c cs =>
        simp only [List.all_cons, Bool.and_eq_true] at ha h2
        have := isAlpha_not_isDigit c ha.1
        rw [h2.1] at this
        exact absurd this (by simp)
    simp only [nextToken, hw.1, hw.2]
    rw [if_neg hnd, if_neg hne, if_neg (fun h => hna h.2), if_pos ⟨h1, h2⟩]
  · subst hwf
    have hw : isWordChar '(' = false := by decide
    simp [nextToken, List.takeWhile_cons, hw]
  · subst hwf
    have hw : isWordChar ')' = false := by decide
    simp [nextToken, List.takeWhile_cons, hw]
  · subst hwf
    have hw : isWordChar ',' = false := by decide
    simp [nextToken, List.takeWhile_cons, hw]

/-! ## The loop of the tokenizer -/

theorem trim_length_le (s : List Char) : (trim s).length ≤ s.length := by
  unfold trim
  rw [List.length_reverse]
  calc ((s.dropWhile isWhiteSpace).reverse.dropWhile isWhiteSpace).length
      ≤ (s.dropWhile isWhiteSpace).reverse.length := (List.dropWhile_sublist _).length_le
    _ = (s.dropWhile isWhiteSpace).length := List.length_reverse _
    _ ≤ s.length := (List.dropWhile_sublist _).length_le

theorem mem_dropWhile_of_false (p : Char → Bool) (s : List Char) (c : Char) (hc : c ∈ s)
    (hp : p c = false) : c ∈ s.dropWhile p := by
  induction s with
  | nil => exact hc
  | cons a as ih =>
    by_cases ha : p a = true
    · rw [List.dropWhile_cons_of_pos ha]
      rcases List.mem_cons.mp hc with rfl | h
      · rw [hp] at ha; exact absurd ha (by simp)
      · exact ih h
    · rw [List.dropWhile_cons_of_neg ha]; exact hc

theorem mem_trim (s : List Char) (c : Char) (hc : c ∈ s) (hw : isWhiteSpace c = false) :
    c ∈ trim s := by
  unfold trim
  rw [List.mem_reverse]
  apply mem_dropWhile_of_false _ _ _ _ hw
  rw [List.mem_reverse]
  exact mem_dropWhile_of_false _ _ _ hc hw

theorem dropWhile_eq_self_of_head (p : Char → Bool) (s : List Char)
    (h : ∀ c, s.head? = some c → p c = false) : s.dropWhile p = s := by
  cases s with
  | nil => rfl
  | cons a as => simp [List.dropWhile_cons, h a rfl]

theorem trim_eq_self (s : List Char) (hh : ∀ c, s.head? = some c → isWhiteSpace c = false)
    (hl : ∀ c, s.getLast? = some c → isWhiteSpace c = false) : trim s = s := by
  unfold trim
  rw [dropWhile_eq_self_of_head _ s hh, dropWhile_eq_self_of_head _ s.reverse, List.reverse_reverse]
  intro c hc
  rw [List.head?_reverse] at hc
  exact hl c hc

theorem trim_cons_of_ws (a : Char) (s : List Char) (ha : isWhiteSpace a = true) :
    trim (a :: s) = trim s := by
  unfold trim
  rw [List.dropWhile_cons_of_pos ha]

theorem loopBody_ok {acc : List Token} {buf : List Char} {st : List Token × List Char}
    (h : Tokenizer.loopBody (acc, buf) = .ok st) :
    ∃ tok rest, Tokenizer.tokenizeOneToken buf = .ok (tok, rest) ∧
      st = (acc ++ [tok], trim rest) := by
  unfold Tokenizer.loopBody at h
  simp only at h
  split at h
  · simp at h
  · next tok rest heq =>
    simp only [Except.ok.injEq] at h
    exact ⟨tok, rest, heq, h.symm⟩

theorem loopBody_error {acc : List Token} {buf : List Char} {e : LexError}
    (h : Tokenizer.loopBody (acc, buf) = .error e) : e = .noMatch buf := by
  unfold Tokenizer.loopBody at h
  simp only at h
  split at h
  · next e' heq =>
    simp only [Except.error.injEq] at h
    subst h
    exact tokenizeOneToken_error heq
  · simp at h

/-- The counter of the loop never runs out when it starts at the length of the buffer. -/
theorem tokenizeLoop_ne_outOfFuel (fuel : Nat) :
    ∀ (acc : List Token) (buf : List Char), buf.length ≤ fuel →
      Tokenizer.tokenizeLoop fuel (acc, buf) ≠ .error .outOfFuel := by
  induction fuel with
  | zero =>
    intro acc buf h
    cases buf with
    | nil => simp [Tokenizer.tokenizeLoop]
    | cons c cs => simp at h
  | succ n ih =>
    intro acc buf h
    cases buf with
    | nil => simp [Tokenizer.tokenizeLoop]
    | cons c cs =>
      rw [Tokenizer.tokenizeLoop]
      cases hb : Tokenizer.loopBody (acc, c :: cs) with
      | error e =>
        have := loopBody_error hb
        subst this
        simp
      | ok st =>
        obtain ⟨tok, rest, h1, rfl⟩ := loopBody_ok hb
        obtain ⟨h2, h3, _⟩ := tokenizeOneToken_ok h1
        have h4 := wellFormed_value_ne_nil h3
        have h5 : rest.length < (c :: cs).length := by
          rw [h2, List.length_append]
          have : 0 < tok.value.length := List.length_pos.mpr h4
          omega
        have h6 := trim_length_le rest
        simp only
        apply ih
        simp only [List.length_cons] at h5 h
        omega

/-- Every error of the loop other than the counter is a `noMatch`. -/
theorem tokenizeLoop_error (fuel : Nat) :
    ∀ (acc : List Token) (buf : List Char) (e : LexError),
      Tokenizer.tokenizeLoop fuel (acc, buf) = .error e →
      e = .outOfFuel ∨ ∃ b, e = .noMatch b := by
  induction fuel with
  | zero =>
    intro acc buf e h
    cases buf with
    | nil => simp [Tokenizer.tokenizeLoop] at h
    | cons c cs => simp [Tokenizer.tokenizeLoop] at h; exact Or.inl h.symm
  | succ n ih =>
    intro acc buf e h
    cases buf with
    | nil => simp [Tokenizer.tokenizeLoop] at h
    | cons c cs =>
      rw [Tokenizer.tokenizeLoop] at h
      cases hb : Tokenizer.loopBody (acc, c :: cs) with
      | error e' =>
        rw [hb] at h
        simp only [Except.error.injEq] at h
        subst h
        exact Or.inr ⟨_, loopBody_error hb⟩
      | ok st =>
        rw [hb] at h
        exact ih _ _ _ h

/-- The tokens already collected stay at the front of the result. -/
theorem tokenizeLoop_prefix (fuel : Nat) :
    ∀ (acc : List Token) (buf : List Char) (toks : List Token),
      Tokenizer.tokenizeLoop fuel (acc, buf) = .ok toks → acc <+: toks := by
  induction fuel with
  | zero =>
    intro acc buf toks h
    cases buf with
    | nil => simp [Tokenizer.tokenizeLoop] at h; subst h; exact List.prefix_refl _
    | cons c cs => simp [Tokenizer.tokenizeLoop] at h
  | succ n ih =>
    intro acc buf toks h
    cases buf with
    | nil => simp [Tokenizer.tokenizeLoop] at h; subst h; exact List.prefix_refl _
    | cons c cs =>
      rw [Tokenizer.tokenizeLoop] at h
      cases hb : Tokenizer.loopBody (acc, c :: cs) with
      | error e' => rw [hb] at h; simp at h
      | ok st =>
        rw [hb] at h
        obtain ⟨tok, rest, h1, rfl⟩ := loopBody_ok hb
        exact (List.prefix_append acc [tok]).trans (ih _ _ _ h)

theorem wellFormed_value_chars {tok : Token} (h : tok.WellFormed) :
    ∀ c ∈ tok.value, c.isAlpha = true ∨ c.isDigit = true ∨ c = '(' ∨ c = ')' ∨ c = ',' := by
  unfold Token.WellFormed at h
  split at h
  · rw [h]; decide
  · rw [h]; decide
  · intro c hc; exact Or.inl (List.all_eq_true.mp h.2.1 c hc)
  · intro c hc; exact Or.inr (Or.inl (List.all_eq_true.mp h.2 c hc))
  · rw [h]; decide
  · rw [h]; decide
  · rw [h]; decide

theorem tokenizeLoop_not_ok_of_mem (fuel : Nat) :
    ∀ (acc : List Token) (buf : List Char) (c : Char), c ∈ buf → isSourceChar c = false →
      ∀ toks, Tokenizer.tokenizeLoop fuel (acc, buf) ≠ .ok toks := by
  induction fuel with
  | zero =>
    intro acc buf c hc _ toks
    cases buf with
    | nil => simp at hc
    | cons a as => simp [Tokenizer.tokenizeLoop]
  | succ n ih =>
    intro acc buf c hc hbad toks
    cases buf with
    | nil => simp at hc
    | cons a as =>
      rw [Tokenizer.tokenizeLoop]
      cases hb : Tokenizer.loopBody (acc, a :: as) with
      | error e' => simp
      | ok st =>
        obtain ⟨tok, rest, h1, rfl⟩ := loopBody_ok hb
        obtain ⟨h2, h3, _⟩ := tokenizeOneToken_ok h1
        simp only [isSourceChar, Bool.or_eq_false_iff, beq_eq_false_iff_ne, ne_eq] at hbad
        have hrest : c ∈ rest := by
          rw [h2] at hc
          rcases List.mem_append.mp hc with h | h
          · have := wellFormed_value_chars h3 c h
            simp [hbad] at this
          · exact h
        exact ih _ _ c (mem_trim rest c hrest hbad.2) (by
          simp only [isSourceChar, Bool.or_eq_false_iff, beq_eq_false_iff_ne, ne_eq]
          exact hbad) toks

theorem tokenizeLoop_nil (fuel : Nat) (acc : List Token) :
    Tokenizer.tokenizeLoop fuel (acc, []) = .ok acc := by
  cases fuel <;> simp [Tokenizer.tokenizeLoop]

theorem tokenizeLoop_step (fuel : Nat) (acc : List Token) (buf : List Char) (hne : buf ≠ [])
    (st : List Token × List Char) (hb : Tokenizer.loopBody (acc, buf) = .ok st) :
    Tokenizer.tokenizeLoop (fuel + 1) (acc, buf) = Tokenizer.tokenizeLoop fuel st := by
  cases buf with
  | nil => exact absurd rfl hne
  | cons c cs => rw [Tokenizer.tokenizeLoop, hb]

theorem tokenizeLoop_fail (fuel : Nat) (acc : List Token) (buf : List Char) (hne : buf ≠ [])
    (e : LexError) (hb : Tokenizer.loopBody (acc, buf) = .error e) :
    Tokenizer.tokenizeLoop (fuel + 1) (acc, buf) = .error e := by
  cases buf with
  | nil => exact absurd rfl hne
  | cons c cs => rw [Tokenizer.tokenizeLoop, hb]

theorem join_nil (sep : List Char) : join [] sep = [] := rfl

theorem join_singleton (v sep : List Char) : join [v] sep = v := by
  simp [join, List.intercalate]

theorem join_cons_cons (v w : List Char) (vs : List (List Char)) (sep : List Char) :
    join (v :: w :: vs) sep = v ++ sep ++ join (w :: vs) sep := by
  simp [join, List.intercalate]

theorem tokenChar_not_whiteSpace (c : Char)
    (h : c.isAlpha = true ∨ c.isDigit = true ∨ c = '(' ∨ c = ')' ∨ c = ',') :
    isWhiteSpace c = false := by
  cases hw : isWhiteSpace c with
  | false => rfl
  | true =>
    rw [isWhiteSpace_iff] at hw
    rcases h with h | h | h | h | h
    · rw [isAlpha_iff] at h; omega
    · rw [isDigit_iff] at h; omega
    · subst h; revert hw; decide
    · subst h; revert hw; decide
    · subst h; revert hw; decide

/-- The ends of a text joined from non-empty parts are ends of parts. -/
theorem join_ends (P : Char → Prop) (sep : List Char) :
    ∀ (vs : List (List Char)), vs ≠ [] → (∀ v ∈ vs, v ≠ [] ∧ ∀ c ∈ v, P c) →
      join vs sep ≠ [] ∧ (∀ c, (join vs sep).head? = some c → P c) ∧
        (∀ c, (join vs sep).getLast? = some c → P c) := by
  intro vs
  induction vs with
  | nil => intro h; exact absurd rfl h
  | cons v vs ih =>
    intro _ hall
    obtain ⟨hv, hP⟩ := hall v (List.mem_cons_self _ _)
    cases vs with
    | nil =>
      rw [join_singleton]
      exact ⟨hv, fun c hc => hP c (List.mem_of_mem_head? hc),
        fun c hc => hP c (List.mem_of_getLast?_eq_some hc)⟩
    | cons w ws =>
      obtain ⟨h1, _, h3⟩ := ih (by simp) (fun u hu => hall u (List.mem_cons_of_mem _ hu))
      rw [join_cons_cons]
      refine ⟨by simp [hv], ?_, ?_⟩
      · intro c hc
        rw [List.append_assoc, List.head?_append_of_ne_nil _ hv] at hc
        exact hP c (List.mem_of_mem_head? hc)
      · intro c hc
        rw [List.getLast?_append_of_ne_nil _ h1] at hc
        exact h3 c hc

theorem tokenizeLoop_join :
    ∀ (ts : List Token) (acc : List Token) (fuel : Nat), (∀ t ∈ ts, t.WellFormed) →
      (join (ts.map Token.value) [' ']).length ≤ fuel →
      Tokenizer.tokenizeLoop fuel (acc, join (ts.map Token.value) [' ']) = .ok (acc ++ ts) := by
  intro ts
  induction ts with
  | nil => intro acc fuel _ _; simp [join_nil, tokenizeLoop_nil]
  | cons t ts ih =>
    intro acc fuel hwf hfuel
    have ht := hwf t (List.mem_cons_self _ _)
    have hne := wellFormed_value_ne_nil ht
    cases ts with
    | nil =>
      simp only [List.map_cons, List.map_nil, join_singleton] at hfuel ⊢
      cases fuel with
      | zero => exact absurd (List.length_eq_zero.mp (Nat.le_zero.mp hfuel)) hne
      | succ n =>
        have h1 := tokenizeOneToken_append t ht [] rfl
        rw [List.append_nil] at h1
        rw [tokenizeLoop_step n acc t.value hne (acc ++ [t], trim [])
          (by simp [Tokenizer.loopBody, h1])]
        exact tokenizeLoop_nil _ _
    | cons t2 ts2 =>
      simp only [List.map_cons, join_cons_cons] at hfuel ⊢
      have hJ := join_ends (fun c => isWhiteSpace c = false) [' ']
        ((t2 :: ts2).map Token.value) (by simp) (by
          intro v hv
          obtain ⟨u, hu, rfl⟩ := List.mem_map.mp hv
          have hu' := hwf u (List.mem_cons_of_mem _ hu)
          exact ⟨wellFormed_value_ne_nil hu', fun c hc =>
            tokenChar_not_whiteSpace c (wellFormed_value_chars hu' c hc)⟩)
      simp only [List.map_cons] at hJ
      cases fuel with
      | zero =>
        simp only [List.length_append] at hfuel
        have : 0 < t.value.length := List.length_pos.mpr hne
        omega
      | succ n =>
        have h1 := tokenizeOneToken_append t ht
          ([' '] ++ join (t2.value :: ts2.map Token.value) [' ']) (by
            rw [List.singleton_append, List.head?_cons]; decide)
        rw [← List.append_assoc] at h1
        have htrim : trim ([' '] ++ join (t2.value :: ts2.map Token.value) [' ']) =
            join (t2.value :: ts2.map Token.value) [' '] := by
          rw [List.singleton_append, trim_cons_of_ws _ _ (by decide)]
          exact trim_eq_self _ hJ.2.1 hJ.2.2
        rw [tokenizeLoop_step n acc _ (by simp [hne])
          (acc ++ [t], join (t2.value :: ts2.map Token.value) [' '])
          (by simp only [Tokenizer.loopBody, h1, htrim])]
        have := ih (acc ++ [t]) n (fun u hu => hwf u (List.mem_cons_of_mem _ hu)) (by
          simp only [List.length_append, List.map_cons, List.length_singleton] at hfuel ⊢
          omega)
        simp only [List.map_cons] at this
        rw [this, List.append_assoc, List.singleton_append]

theorem tokenize_ne_outOfFuel (code : List Char) :
    Tokenizer.tokenize code ≠ .error .outOfFuel :=
  tokenizeLoop_ne_outOfFuel _ _ _ (Nat.le_refl _)

/-- The buffer an error of the loop reports still holds every character that is in no
token and is not whitespace. -/
theorem tokenizeLoop_error_mem (fuel : Nat) :
    ∀ (acc : List Token) (buf : List Char) (c : Char) (b : List Char), c ∈ buf →
      isSourceChar c = false → Tokenizer.tokenizeLoop fuel (acc, buf) = .error (.noMatch b) →
      c ∈ b := by
  induction fuel with
  | zero =>
    intro acc buf c b hc _ h
    cases buf with
    | nil => simp at hc
    | cons a as => simp [Tokenizer.tokenizeLoop] at h
  | succ n ih =>
    intro acc buf c b hc hbad h
    have hne : buf ≠ [] := List.ne_nil_of_mem hc
    cases hb : Tokenizer.loopBody (acc, buf) with
    | error e' =>
      rw [tokenizeLoop_fail n acc buf hne e' hb] at h
      have := loopBody_error hb
      simp only [Except.error.injEq] at h
      rw [h] at this
      simp only [LexError.noMatch.injEq] at this
      rw [this]; exact hc
    | ok st =>
      rw [tokenizeLoop_step n acc buf hne st hb] at h
      obtain ⟨tok, rest, h1, rfl⟩ := loopBody_ok hb
      obtain ⟨h2, h3, _⟩ := tokenizeOneToken_ok h1
      have hbad' := hbad
      simp only [isSourceChar, Bool.or_eq_false_iff, beq_eq_false_iff_ne, ne_eq] at hbad'
      have hrest : c ∈ rest := by
        rw [h2] at hc
        rcases List.mem_append.mp hc with h | h
        · have := wellFormed_value_chars h3 c h
          simp [hbad'] at this
        · exact h
      exact ih _ _ c b (mem_trim rest c hrest hbad'.2) hbad h

/-- C4. Keywords are whole words.  A source that begins with a run of one or more
ASCII letters, not exactly `def` or `end`, followed by the end of the text or by a
character that is no letter, digit or underscore: `tokenizeOneToken` returns the
identifier token of the whole run, the loop of `tokenize` has pushed exactly that token
after its first round, and every token sequence `tokenize` returns starts with it.
The source `definitely(x) x end` gives identifier `definitely`, oparen, identifier `x`,
cparen, identifier `x`, end. -/
theorem tokenize_identifier_whole_word :
    (∀ run rest : List Char, run ≠ [] → run.all Char.isAlpha = true →
      run ≠ "def".toList → run ≠ "end".toList → rest.head?.any isWordChar = false →
      Tokenizer.tokenizeOneToken (run ++ rest) = .ok (⟨.identifier, run⟩, rest) ∧
      Tokenizer.rounds 1 ([], run ++ rest) = .ok ([⟨.identifier, run⟩], trim rest) ∧
      ∀ toks, Tokenizer.tokenize (run ++ rest) = .ok toks →
        toks.head? = some ⟨.identifier, run⟩) ∧
    Tokenizer.tokenize "definitely(x) x end".toList =
      .ok [⟨.identifier, "definitely".toList⟩, ⟨.oparen, "(".toList⟩,
        ⟨.identifier, "x".toList⟩, ⟨.cparen, ")".toList⟩, ⟨.identifier, "x".toList⟩,
        ⟨.end_, "end".toList⟩] := by
  refine ⟨?_, by decide⟩
  intro run rest h1 h2 h3 h4 h5
  have hone := tokenizeOneToken_append ⟨.identifier, run⟩ ⟨h1, h2, h3, h4⟩ rest h5
  have hbody : Tokenizer.loopBody ([], run ++ rest) = .ok ([⟨.identifier, run⟩], trim rest) := by
    simp only [Tokenizer.loopBody]
    rw [hone]
    rfl
  refine ⟨hone, ?_, ?_⟩
  · simp only [Tokenizer.rounds, hbody]
  · intro toks htoks
    unfold Tokenizer.tokenize at htoks
    have hne : run ++ rest ≠ [] := by simp [h1]
    obtain ⟨n, hn⟩ : ∃ n, (run ++ rest).length = n + 1 :=
      Nat.exists_eq_succ_of_ne_zero (fun h => hne (List.length_eq_zero.mp h))
    rw [hn, tokenizeLoop_step n [] _ hne _ hbody] at htoks
    obtain ⟨tl, rfl⟩ := tokenizeLoop_prefix _ _ _ _ htoks
    rfl

theorem tokenize_identifier_whole_word_witness :
    ("abc".toList ≠ [] ∧ "abc".toList.all Char.isAlpha = true ∧ "abc".toList ≠ "def".toList ∧
      "abc".toList ≠ "end".toList ∧ "(x)".toList.head?.any isWordChar = false) ∧
    Tokenizer.tokenizeOneToken ("abc".toList ++ "(x)".toList) =
      .ok (⟨.identifier, "abc".toList⟩, "(x)".toList) :=
  ⟨by decide, (tokenize_identifier_whole_word.1 "abc".toList "(x)".toList (by decide) (by decide)
    (by decide) (by decide) (by decide)).1⟩

/-- C6. A source that contains a character which is no ASCII letter, no ASCII digit,
none of `(`, `)`, `,` and no whitespace makes `tokenize` throw: it returns no tokens,
and the buffer the error carries still contains that character.  On
`def f(x) x+1 end` the loop pushes def, f, (, x, ), x in six rounds, the buffer is then
`+1 end`, `tokenizeOneToken` fails on it and the error carries `+1 end`. -/
theorem tokenize_rejects_foreign_char :
    (∀ (s : List Char) (c : Char), c ∈ s → isSourceChar c = false →
      ∃ buffer, c ∈ buffer ∧ Tokenizer.tokenize s = .error (.noMatch buffer)) ∧
    (Tokenizer.rounds 6 ([], "def f(x) x+1 end".toList) =
        .ok ([⟨.def_, "def".toList⟩, ⟨.identifier, "f".toList⟩, ⟨.oparen, "(".toList⟩,
          ⟨.identifier, "x".toList⟩, ⟨.cparen, ")".toList⟩, ⟨.identifier, "x".toList⟩],
          "+1 end".toList) ∧
      Tokenizer.tokenizeOneToken "+1 end".toList = .error (.noMatch "+1 end".toList) ∧
      Tokenizer.tokenize "def f(x) x+1 end".toList = .error (.noMatch "+1 end".toList) ∧
      (LexError.noMatch "+1 end".toList).message = "Couldn't match token on\n+1 end".toList) := by
  refine ⟨?_, by decide, by decide, by decide, by decide⟩
  intro s c hc hbad
  cases h : Tokenizer.tokenize s with
  | ok toks => exact absurd h (tokenizeLoop_not_ok_of_mem _ _ _ c hc hbad toks)
  | error e =>
    rcases tokenizeLoop_error _ _ _ e h with rfl | ⟨b, rfl⟩
    · exact absurd h (tokenize_ne_outOfFuel s)
    · exact ⟨b, tokenizeLoop_error_mem _ _ _ c b hc hbad h, rfl⟩

theorem tokenize_rejects_foreign_char_witness :
    ('+' ∈ "x+1".toList ∧ isSourceChar '+' = false) ∧
    ∃ buffer, '+' ∈ buffer ∧ Tokenizer.tokenize "x+1".toList = .error (.noMatch buffer) :=
  ⟨by decide, tokenize_rejects_foreign_char.1 "x+1".toList '+' (by decide) (by decide)⟩

/-- C9. Whitespace before the first token is not discarded: `tokenize` trims the
buffer only after a token has been matched.  With one space in front, the source
`def f() 1 end` is rejected at its very start, although without the space it yields
six tokens; a source of one space, or of one newline, is rejected too and does not
yield the empty token sequence. -/
theorem tokenize_leading_whitespace :
    Tokenizer.tokenize " def f() 1 end".toList = .error (.noMatch " def f() 1 end".toList) ∧
    Tokenizer.tokenize "def f() 1 end".toList =
      .ok [⟨.def_, "def".toList⟩, ⟨.identifier, "f".toList⟩, ⟨.oparen, "(".toList⟩,
        ⟨.cparen, ")".toList⟩, ⟨.integer, "1".toList⟩, ⟨.end_, "end".toList⟩] ∧
    Tokenizer.tokenize " ".toList = .error (.noMatch " ".toList) ∧
    Tokenizer.tokenize "\n".toList = .error (.noMatch "\n".toList) ∧
    Tokenizer.tokenize "def f() 1 end \n".toList = Tokenizer.tokenize "def f() 1 end".toList := by
  decide

/-- C10. Round trip of the lexer on single-space-separated input: for every sequence
`ts` of well-formed tokens, `tokenize` applied to the texts of `ts` joined by single
spaces returns exactly `ts`, and joining the texts of the returned tokens by single
spaces gives the source back. -/
theorem tokenize_join_round_trip (ts : List Token) (h : ∀ t ∈ ts, t.WellFormed) :
    Tokenizer.tokenize (join (ts.map Token.value) " ".toList) = .ok ts ∧
    ∃ result, Tokenizer.tokenize (join (ts.map Token.value) " ".toList) = .ok result ∧
      join (result.map Token.value) " ".toList = join (ts.map Token.value) " ".toList := by
  have key : Tokenizer.tokenize (join (ts.map Token.value) " ".toList) = .ok ts := by
    have := tokenizeLoop_join ts [] _ h (Nat.le_refl _)
    simpa [Tokenizer.tokenize] using this
  exact ⟨key, ts, key, rfl⟩

theorem tokenize_join_round_trip_witness :
    (∀ t ∈ [(⟨.def_, "def".toList⟩ : Token), ⟨.identifier, "f".toList⟩, ⟨.oparen, "(".toList⟩,
        ⟨.cparen, ")".toList⟩, ⟨.integer, "42".toList⟩, ⟨.end_, "end".toList⟩],
      t.WellFormed) ∧
    Tokenizer.tokenize (join ([(⟨.def_, "def".toList⟩ : Token), ⟨.identifier, "f".toList⟩,
        ⟨.oparen, "(".toList⟩, ⟨.cparen, ")".toList⟩, ⟨.integer, "42".toList⟩,
        ⟨.end_, "end".toList⟩].map Token.value) " ".toList) =
      .ok [⟨.def_, "def".toList⟩, ⟨.identifier, "f".toList⟩, ⟨.oparen, "(".toList⟩,
        ⟨.cparen, ")".toList⟩, ⟨.integer, "42".toList⟩, ⟨.end_, "end".toList⟩] :=
  ⟨by decide, (tokenize_join_round_trip [(⟨.def_, "def".toList⟩ : Token),
    ⟨.identifier, "f".toList⟩, ⟨.oparen, "(".toList⟩, ⟨.cparen, ")".toList⟩,
    ⟨.integer, "42".toList⟩, ⟨.end_, "end".toList⟩] (by decide)).1⟩

open Parser

/-! ## The parser: basic facts -/

@[simp] theorem peek_nil (t : TokenType) (k : Nat) : peek [] t k = .error .readPastEnd := by
  simp [peek]

@[simp] theorem peek_cons_zero (tok : Token) (ts : List Token) (t : TokenType) :
    peek (tok :: ts) t 0 = .ok (tok.type == t) := by
  simp [peek]

@[simp] theorem peek_cons_succ (tok : Token) (ts : List Token) (t : TokenType) (k : Nat) :
    peek (tok :: ts) t (k + 1) = peek ts t k := by
  simp [peek]

@[simp] theorem consume_nil (t : TokenType) : consume [] t = .error .readPastEnd := rfl

theorem consume_cons (tok : Token) (ts : List Token) (t : TokenType) :
    consume (tok :: ts) t =
      if tok.type = t then .ok (tok, ts) else .error (.unexpected t tok.type) := rfl

@[simp] theorem except_bind_ok {ε α β : Type} (a : α) (f : α → Except ε β) :
    (Except.ok a >>= f) = f a := rfl

@[simp] theorem except_bind_error {ε α β : Type} (e : ε) (f : α → Except ε β) :
    ((Except.error e : Except ε α) >>= f) = .error e := rfl

@[simp] theorem except_pure {ε α : Type} (a : α) : (pure a : Except ε α) = .ok a := rfl

theorem except_bind_eq_ok {ε α β : Type} {x : Except ε α} {f : α → Except ε β} {b : β} :
    (x >>= f) = .ok b ↔ ∃ a, x = .ok a ∧ f a = .ok b := by
  cases x with
  | error e => simp
  | ok a => simp

theorem consume_eq_ok {ts : List Token} {t : TokenType} {tok : Token} {r : List Token} :
    consume ts t = .ok (tok, r) ↔ ts = tok :: r ∧ tok.type = t := by
  cases ts with
  | nil => simp
  | cons a as =>
    rw [consume_cons]
    by_cases h : a.type = t
    · simp only [h, if_true, Except.ok.injEq, Prod.mk.injEq, List.cons.injEq]
      constructor
      · rintro ⟨rfl, rfl⟩; exact ⟨⟨rfl, rfl⟩, h⟩
      · rintro ⟨⟨rfl, rfl⟩, _⟩; exact ⟨rfl, rfl⟩
    · simp only [h, if_false]
      constructor
      · intro h'; cases h'
      · rintro ⟨⟨rfl, rfl⟩, h'⟩; exact absurd h' h

/-! ## Fuel: a larger counter changes nothing -/

theorem fuelLe_refl {α : Type} (x : Except ParseError α) : FuelLe x x := Or.inr rfl

theorem fuelLe_bind {α β : Type} {x y : Except ParseError α} {f g : α → Except ParseError β}
    (h : FuelLe x y) (hfg : ∀ a, FuelLe (f a) (g a)) : FuelLe (x >>= f) (y >>= g) := by
  rcases h with rfl | rfl
  · exact Or.inl rfl
  · cases x with
    | error e => exact Or.inr rfl
    | ok a => exact hfg a

theorem fuelLe_ite {α : Type} (c : Prop) [Decidable c] {a a' b b' : Except ParseError α}
    (h1 : FuelLe a a') (h2 : FuelLe b b') :
    FuelLe (if c then a else b) (if c then a' else b') := by
  by_cases h : c <;> simp [h, h1, h2]

theorem parseArgNamesLoop_mono : ∀ n n', n ≤ n' → ∀ acc ts,
    FuelLe (parseArgNamesLoop n acc ts) (parseArgNamesLoop n' acc ts) := by
  intro n
  induction n with
  | zero => intro n' _ acc ts; exact Or.inl rfl
  | succ n ih =>
    intro n' hn acc ts
    obtain ⟨m, rfl⟩ : ∃ m, n' = m + 1 := ⟨n' - 1, by omega⟩
    rw [parseArgNamesLoop, parseArgNamesLoop]
    refine fuelLe_bind (fuelLe_refl _) fun b => fuelLe_ite _ ?_ (fuelLe_refl _)
    refine fuelLe_bind (fuelLe_refl _) fun p1 => fuelLe_bind (fuelLe_refl _) fun p2 => ?_
    exact ih m (by omega) _ _

theorem parseArgNames_mono (n n' : Nat) (hn : n ≤ n') (ts : List Token) :
    FuelLe (parseArgNames n ts) (parseArgNames n' ts) := by
  unfold parseArgNames
  refine fuelLe_bind (fuelLe_refl _) fun p1 => fuelLe_bind (fuelLe_refl _) fun b => ?_
  refine fuelLe_ite _ ?_ (fuelLe_refl _)
  refine fuelLe_bind (fuelLe_refl _) fun p2 => fuelLe_bind ?_ fun p3 => fuelLe_refl _
  exact parseArgNamesLoop_mono n n' hn _ _

theorem parseArgExprsLoop_mono {pe pe' : List Token → Except ParseError (Node × List Token)}
    (hpe : ∀ ts, FuelLe (pe ts) (pe' ts)) : ∀ n n', n ≤ n' → ∀ acc ts,
    FuelLe (parseArgExprsLoop pe n acc ts) (parseArgExprsLoop pe' n' acc ts) := by
  intro n
  induction n with
  | zero => intro n' _ acc ts; exact Or.inl rfl
  | succ n ih =>
    intro n' hn acc ts
    obtain ⟨m, rfl⟩ : ∃ m, n' = m + 1 := ⟨n' - 1, by omega⟩
    rw [parseArgExprsLoop, parseArgExprsLoop]
    refine fuelLe_bind (fuelLe_refl _) fun b => fuelLe_ite _ ?_ (fuelLe_refl _)
    refine fuelLe_bind (fuelLe_refl _) fun p1 => fuelLe_bind (hpe _) fun p2 => ?_
    exact ih m (by omega) _ _

theorem parseArgExprs_mono {pe pe' : List Token → Except ParseError (Node × List Token)}
    (hpe : ∀ ts, FuelLe (pe ts) (pe' ts)) (n n' : Nat) (hn : n ≤ n') (ts : List Token) :
    FuelLe (parseArgExprs pe n ts) (parseArgExprs pe' n' ts) := by
  unfold parseArgExprs
  refine fuelLe_bind (fuelLe_refl _) fun p1 => fuelLe_bind (fuelLe_refl _) fun b => ?_
  refine fuelLe_ite _ ?_ (fuelLe_refl _)
  refine fuelLe_bind (hpe _) fun p2 => fuelLe_bind ?_ fun p3 => fuelLe_refl _
  exact parseArgExprsLoop_mono hpe n n' hn _ _

theorem parseCall_mono {pe pe' : List Token → Except ParseError (Node × List Token)}
    (hpe : ∀ ts, FuelLe (pe ts) (pe' ts)) (n n' : Nat) (hn : n ≤ n') (ts : List Token) :
    FuelLe (parseCall pe n ts) (parseCall pe' n' ts) := by
  unfold parseCall
  refine fuelLe_bind (fuelLe_refl _) fun p1 => fuelLe_bind ?_ fun p2 => fuelLe_refl _
  exact parseArgExprs_mono hpe n n' hn _

theorem parseExpr_mono : ∀ n n', n ≤ n' → ∀ ts, FuelLe (parseExpr n ts) (parseExpr n' ts) := by
  intro n
  induction n with
  | zero => intro n' _ ts; exact Or.inl rfl
  | succ n ih =>
    intro n' hn ts
    obtain ⟨m, rfl⟩ : ∃ m, n' = m + 1 := ⟨n' - 1, by omega⟩
    rw [parseExpr, parseExpr]
    refine fuelLe_bind (fuelLe_refl _) fun b => fuelLe_ite _ (fuelLe_refl _) ?_
    refine fuelLe_bind (fuelLe_refl _) fun b2 => fuelLe_ite _ ?_ (fuelLe_refl _)
    exact parseCall_mono (ih m (by omega)) _ _ (by omega) _

theorem parseDef_mono (n n' : Nat) (hn : n ≤ n') (ts : List Token) :
    FuelLe (parseDef n ts) (parseDef n' ts) := by
  unfold parseDef
  refine fuelLe_bind (fuelLe_refl _) fun p1 => fuelLe_bind (fuelLe_refl _) fun p2 => ?_
  refine fuelLe_bind (parseArgNames_mono n n' hn _) fun p3 => ?_
  exact fuelLe_bind (parseExpr_mono n n' hn _) fun p4 => fuelLe_refl _

/-! ## Fuel: the counter of `parse` never runs out -/

theorem within_mono {α : Type} {L L' : Nat} {x : Except ParseError (α × List Token)}
    (h : Within L x) (hL : L ≤ L') : Within L' x :=
  ⟨h.1, fun v r hx => Nat.le_trans (h.2 v r hx) hL⟩

theorem within_bind {α β : Type} {L : Nat} {x : Except ParseError α}
    {f : α → Except ParseError (β × List Token)} (hx : x ≠ .error .outOfFuel)
    (hf : ∀ a, x = .ok a → Within L (f a)) : Within L (x >>= f) := by
  cases x with
  | error e =>
    refine ⟨?_, fun v r h => by simp at h⟩
    simpa using hx
  | ok a => exact hf a rfl

theorem within_pure {α : Type} {L : Nat} (v : α) (r : List Token) (h : r.length ≤ L) :
    Within L (pure (v, r) : Except ParseError (α × List Token)) :=
  ⟨by simp, fun v' r' h' => by simp at h'; rw [← h'.2]; exact h⟩

theorem consume_ne_outOfFuel (ts : List Token) (t : TokenType) :
    consume ts t ≠ .error .outOfFuel := by
  cases ts with
  | nil => simp
  | cons a as => rw [consume_cons]; split <;> simp

theorem peek_ne_outOfFuel (ts : List Token) (t : TokenType) (k : Nat) :
    peek ts t k ≠ .error .outOfFuel := by
  unfold peek; split <;> simp

theorem parseArgNamesLoop_within : ∀ n acc ts, ts.length < n →
    Within ts.length (parseArgNamesLoop n acc ts) := by
  intro n
  induction n with
  | zero => intro acc ts h; omega
  | succ n ih =>
    intro acc ts hlen
    rw [parseArgNamesLoop]
    refine within_bind (peek_ne_outOfFuel _ _ _) fun b _ => ?_
    split
    · refine within_bind (consume_ne_outOfFuel _ _) fun p1 h1 => ?_
      obtain ⟨tok1, r1⟩ := p1
      obtain ⟨rfl, _⟩ := consume_eq_ok.mp h1
      dsimp only
      refine within_bind (consume_ne_outOfFuel _ _) fun p2 h2 => ?_
      obtain ⟨tok2, r2⟩ := p2
      obtain ⟨rfl, _⟩ := consume_eq_ok.mp h2
      dsimp only
      simp only [List.length_cons] at hlen ⊢
      exact within_mono (ih _ r2 (by omega)) (by omega)
    · exact within_pure _ _ (Nat.le_refl _)

theorem parseArgNames_within (n : Nat) (ts : List Token) (hlen : ts.length < n) :
    Within (ts.length - 1) (parseArgNames n ts) := by
  unfold parseArgNames
  refine within_bind (consume_ne_outOfFuel _ _) fun p1 h1 => ?_
  obtain ⟨tok1, r1⟩ := p1
  obtain ⟨rfl, _⟩ := consume_eq_ok.mp h1
  dsimp only
  simp only [List.length_cons] at hlen
  refine within_bind (peek_ne_outOfFuel _ _ _) fun b _ => ?_
  simp only [List.length_cons, Nat.add_sub_cancel]
  split
  · refine within_bind (consume_ne_outOfFuel _ _) fun p2 h2 => ?_
    obtain ⟨tok2, r2⟩ := p2
    obtain ⟨rfl, _⟩ := consume_eq_ok.mp h2
    dsimp only
    simp only [List.length_cons] at hlen ⊢
    have hloop := parseArgNamesLoop_within n [tok2.value] r2 (by omega)
    refine within_bind hloop.1 fun p3 h3 => ?_
    obtain ⟨names, r3⟩ := p3
    have := hloop.2 _ _ h3
    refine within_bind (consume_ne_outOfFuel _ _) fun p4 h4 => ?_
    obtain ⟨tok4, r4⟩ := p4
    obtain ⟨rfl, _⟩ := consume_eq_ok.mp h4
    dsimp only
    simp only [List.length_cons] at this
    exact within_pure _ _ (by omega)
  · simp only [except_pure, except_bind_ok]
    refine within_bind (consume_ne_outOfFuel _ _) fun p4 h4 => ?_
    obtain ⟨tok4, r4⟩ := p4
    obtain ⟨rfl, _⟩ := consume_eq_ok.mp h4
    dsimp only
    simp only [List.length_cons]
    exact within_pure _ _ (by omega)

theorem parseArgExprsLoop_within {pe : List Token → Except ParseError (Node × List Token)}
    (L : Nat) (hpe : ∀ ts, ts.length < L → Within (ts.length - 1) (pe ts)) :
    ∀ n acc ts, ts.length < n → ts.length ≤ L →
      Within ts.length (parseArgExprsLoop pe n acc ts) := by
  intro n
  induction n with
  | zero => intro acc ts h; omega
  | succ n ih =>
    intro acc ts hlen hL
    rw [parseArgExprsLoop]
    refine within_bind (peek_ne_outOfFuel _ _ _) fun b _ => ?_
    split
    · refine within_bind (consume_ne_outOfFuel _ _) fun p1 h1 => ?_
      obtain ⟨tok1, r1⟩ := p1
      obtain ⟨rfl, _⟩ := consume_eq_ok.mp h1
      dsimp only
      simp only [List.length_cons] at hlen hL ⊢
      have h2 := hpe r1 (by omega)
      refine within_bind h2.1 fun p2 hp2 => ?_
      obtain ⟨e, r2⟩ := p2
      have := h2.2 _ _ hp2
      exact within_mono (ih _ r2 (by omega) (by omega)) (by omega)
    · exact within_pure _ _ (Nat.le_refl _)

theorem parseArgExprs_within {pe : List Token → Except ParseError (Node × List Token)}
    (L : Nat) (hpe : ∀ ts, ts.length < L → Within (ts.length - 1) (pe ts))
    (n : Nat) (ts : List Token) (hlen : ts.length < n) (hL : ts.length ≤ L) :
    Within (ts.length - 1) (parseArgExprs pe n ts) := by
  unfold parseArgExprs
  refine within_bind (consume_ne_outOfFuel _ _) fun p1 h1 => ?_
  obtain ⟨tok1, r1⟩ := p1
  obtain ⟨rfl, _⟩ := consume_eq_ok.mp h1
  dsimp only
  simp only [List.length_cons] at hlen hL
  refine within_bind (peek_ne_outOfFuel _ _ _) fun b _ => ?_
  simp only [List.length_cons, Nat.add_sub_cancel]
  split
  · have h2 := hpe r1 (by omega)
    refine within_bind h2.1 fun p2 hp2 => ?_
    obtain ⟨e, r2⟩ := p2
    have hr2 := h2.2 _ _ hp2
    have hloop := parseArgExprsLoop_within L hpe n [e] r2 (by omega) (by omega)
    refine within_bind hloop.1 fun p3 h3 => ?_
    obtain ⟨args, r3⟩ := p3
    have := hloop.2 _ _ h3
    refine within_bind (consume_ne_outOfFuel _ _) fun p4 h4 => ?_
    obtain ⟨tok4, r4⟩ := p4
    obtain ⟨rfl, _⟩ := consume_eq_ok.mp h4
    dsimp only
    simp only [List.length_cons] at this
    exact within_pure _ _ (by omega)
  · simp only [except_pure, except_bind_ok]
    refine within_bind (consume_ne_outOfFuel _ _) fun p4 h4 => ?_
    obtain ⟨tok4, r4⟩ := p4
    obtain ⟨rfl, _⟩ := consume_eq_ok.mp h4
    dsimp only
    simp only [List.length_cons]
    exact within_pure _ _ (by omega)

theorem parseCall_within {pe : List Token → Except ParseError (Node × List Token)}
    (L : Nat) (hpe : ∀ ts, ts.length < L → Within (ts.length - 1) (pe ts))
    (n : Nat) (ts : List Token) (hlen : ts.length ≤ n) (hL : ts.length ≤ L) :
    Within (ts.length - 1) (parseCall pe n ts) := by
  unfold parseCall
  refine within_bind (consume_ne_outOfFuel _ _) fun p1 h1 => ?_
  obtain ⟨tok1, r1⟩ := p1
  obtain ⟨rfl, _⟩ := consume_eq_ok.mp h1
  dsimp only
  simp only [List.length_cons, Nat.add_sub_cancel] at hlen hL ⊢
  have h2 := parseArgExprs_within L hpe n r1 (by omega) (by omega)
  refine within_bind h2.1 fun p2 hp2 => ?_
  obtain ⟨args, r2⟩ := p2
  have := h2.2 _ _ hp2
  dsimp only
  exact within_pure _ _ (by omega)

theorem consume_within (ts : List Token) (t : TokenType) :
    Within (ts.length - 1) (consume ts t) := by
  refine ⟨consume_ne_outOfFuel _ _, fun v r h => ?_⟩
  obtain ⟨rfl, _⟩ := consume_eq_ok.mp h
  simp

theorem parseExpr_within : ∀ n ts, ts.length < n → Within (ts.length - 1) (parseExpr n ts) := by
  intro n
  induction n with
  | zero => intro ts h; omega
  | succ n ih =>
    intro ts hlen
    rw [parseExpr]
    refine within_bind (peek_ne_outOfFuel _ _ _) fun b _ => ?_
    split
    · unfold parseInteger
      refine within_bind (consume_ne_outOfFuel _ _) fun p1 h1 => ?_
      exact within_pure _ _ ((consume_within _ _).2 _ _ (by rw [h1]))
    · refine within_bind ?_ fun b2 _ => ?_
      · cases h : peek ts TokenType.identifier 0 with
        | error e =>
          have := peek_ne_outOfFuel ts TokenType.identifier 0
          rw [h] at this
          simpa using this
        | ok b =>
          simp only [except_bind_ok]
          split
          · exact peek_ne_outOfFuel _ _ _
          · simp
      · split
        · exact parseCall_within n ih (n + 1) ts (by omega) (by omega)
        · unfold parseVarRef
          refine within_bind (consume_ne_outOfFuel _ _) fun p1 h1 => ?_
          exact within_pure _ _ ((consume_within _ _).2 _ _ (by rw [h1]))

theorem parseDef_within (n : Nat) (ts : List Token) (hlen : ts.length < n) :
    Within (ts.length - 1) (parseDef n ts) := by
  unfold parseDef
  refine within_bind (consume_ne_outOfFuel _ _) fun p1 h1 => ?_
  obtain ⟨tok1, r1⟩ := p1
  obtain ⟨rfl, _⟩ := consume_eq_ok.mp h1
  dsimp only
  refine within_bind (consume_ne_outOfFuel _ _) fun p2 h2 => ?_
  obtain ⟨tok2, r2⟩ := p2
  obtain ⟨rfl, _⟩ := consume_eq_ok.mp h2
  dsimp only
  simp only [List.length_cons] at hlen ⊢
  have h3 := parseArgNames_within n r2 (by omega)
  refine within_bind h3.1 fun p3 hp3 => ?_
  obtain ⟨names, r3⟩ := p3
  have hr3 := h3.2 _ _ hp3
  have h4 := parseExpr_within n r3 (by omega)
  refine within_bind h4.1 fun p4 hp4 => ?_
  obtain ⟨body, r4⟩ := p4
  have hr4 := h4.2 _ _ hp4
  refine within_bind (consume_ne_outOfFuel _ _) fun p5 h5 => ?_
  obtain ⟨tok5, r5⟩ := p5
  obtain ⟨rfl, _⟩ := consume_eq_ok.mp h5
  dsimp only
  simp only [List.length_cons] at hr4
  exact within_pure _ _ (by omega)

/-- The method `parse` never runs out of fuel. -/
theorem parse_ne_outOfFuel (ts : List Token) : parse ts ≠ .error .outOfFuel :=
  (parseDef_within _ ts (Nat.lt_succ_self _)).1

/-- With enough fuel for its input, `parseDef` gives what `parse` gives. -/
theorem parseDef_eq_parse (n : Nat) (ts : List Token) (hn : ts.length < n) :
    parseDef n ts = parse ts := by
  rcases parseDef_mono (ts.length + 1) n (by omega) ts with h | h
  · exact absurd h (parse_ne_outOfFuel ts)
  · exact h.symm

/-- A result of `parseDef` other than running out of fuel is the result of `parse`. -/
theorem parse_eq_of_parseDef {n : Nat} {ts : List Token}
    {x : Except ParseError (Node × List Token)} (h : parseDef n ts = x)
    (hx : x ≠ .error .outOfFuel) : parse ts = x := by
  by_cases hn : ts.length < n
  · rw [← parseDef_eq_parse n ts hn, h]
  · rcases parseDef_mono n (ts.length + 1) (by omega) ts with h' | h'
    · rw [h] at h'; exact absurd h' hx
    · unfold parse; rw [← h', h]

/-! ## Truncated input -/

theorem trunc_bind {α β : Type} {ts p : List Token}
    {x y : Except ParseError (α × List Token)}
    {f g : α × List Token → Except ParseError (β × List Token)}
    (hxy : Trunc ts p x y)
    (hfg : ∀ v r r', x = .ok (v, r) → r' <+: r → Trunc r r' (f (v, r)) (g (v, r'))) :
    Trunc ts p (x >>= f) (y >>= g) := by
  intro w s h
  obtain ⟨⟨v, r⟩, hx, hf⟩ := except_bind_eq_ok.mp h
  rcases hxy v r hx with hy | ⟨r', hy, hpre, hlen⟩
  · left; rw [hy]; rfl
  · rw [hy, except_bind_ok]
    rcases hfg v r r' hx hpre w s hf with hg | ⟨s', hg, hpre', hlen'⟩
    · left; exact hg
    · right; exact ⟨s', hg, hpre', by omega⟩

theorem trunc_bindB {β : Type} {ts p : List Token} {x y : Except ParseError Bool}
    {f g : Bool → Except ParseError (β × List Token)}
    (hxy : TruncB x y) (hfg : ∀ b, x = .ok b → Trunc ts p (f b) (g b)) :
    Trunc ts p (x >>= f) (y >>= g) := by
  intro w s h
  obtain ⟨b, hx, hf⟩ := except_bind_eq_ok.mp h
  rcases hxy b hx with hy | hy
  · left; rw [hy]; rfl
  · rw [hy, except_bind_ok]
    exact hfg b hx w s hf

theorem trunc_pure {α : Type} {ts p : List Token} (v : α) (hp : p <+: ts) :
    Trunc ts p (pure (v, ts)) (pure (v, p)) := by
  intro w s h
  simp only [except_pure, Except.ok.injEq, Prod.mk.injEq] at h
  obtain ⟨rfl, rfl⟩ := h
  exact Or.inr ⟨p, rfl, hp, by omega⟩

theorem trunc_consume {ts p : List Token} (t : TokenType) (hp : p <+: ts) :
    Trunc ts p (consume ts t) (consume p t) := by
  intro tok r h
  obtain ⟨rfl, ht⟩ := consume_eq_ok.mp h
  cases p with
  | nil => left; rfl
  | cons a as =>
    obtain ⟨rfl, has⟩ := List.cons_prefix_cons.mp hp
    right
    refine ⟨as, ?_, has, by simp only [List.length_cons]; omega⟩
    rw [consume_cons, if_pos ht]

theorem truncB_peek {ts p : List Token} (t : TokenType) (k : Nat) (hp : p <+: ts) :
    TruncB (peek ts t k) (peek p t k) := by
  intro b h
  unfold Parser.peek at h ⊢
  cases hpk : p.get? k with
  | none => left; rfl
  | some tok =>
    right
    obtain ⟨s, rfl⟩ := hp
    have : (p ++ s).get? k = some tok := by
      rw [List.get?_eq_getElem?] at hpk ⊢
      have hk : k < p.length := by
        by_contra hk
        rw [List.getElem?_eq_none (by omega)] at hpk
        cases hpk
      rw [List.getElem?_append_left hk]
      exact hpk
    rw [this] at h
    exact h

theorem trunc_ite {α : Type} {ts p : List Token} (c : Prop) [Decidable c]
    {a a' b b' : Except ParseError (α × List Token)}
    (h1 : Trunc ts p a a') (h2 : Trunc ts p b b') :
    Trunc ts p (if c then a else b) (if c then a' else b') := by
  by_cases h : c <;> simp [h, h1, h2]

theorem parseArgNamesLoop_trunc : ∀ n acc ts p, p <+: ts →
    Trunc ts p (parseArgNamesLoop n acc ts) (parseArgNamesLoop n acc p) := by
  intro n
  induction n with
  | zero => intro acc ts p _ v r h; simp [parseArgNamesLoop] at h
  | succ n ih =>
    intro acc ts p hp
    rw [parseArgNamesLoop, parseArgNamesLoop]
    refine trunc_bindB (truncB_peek _ _ hp) fun b _ => trunc_ite _ ?_ (trunc_pure _ hp)
    refine trunc_bind (trunc_consume _ hp) fun tok1 r1 r1' _ hp1 => ?_
    refine trunc_bind (trunc_consume _ hp1) fun tok2 r2 r2' _ hp2 => ?_
    exact ih _ _ _ hp2

theorem parseArgNames_trunc (n : Nat) (ts p : List Token) (hp : p <+: ts) :
    Trunc ts p (parseArgNames n ts) (parseArgNames n p) := by
  unfold parseArgNames
  refine trunc_bind (trunc_consume _ hp) fun tok1 r1 r1' _ hp1 => ?_
  refine trunc_bindB (truncB_peek _ _ hp1) fun b _ => ?_
  dsimp only
  refine trunc_ite _ ?_ ?_
  · refine trunc_bind (trunc_consume _ hp1) fun tok2 r2 r2' _ hp2 => ?_
    refine trunc_bind (parseArgNamesLoop_trunc n _ _ _ hp2) fun names r3 r3' _ hp3 => ?_
    refine trunc_bind (trunc_consume _ hp3) fun tok4 r4 r4' _ hp4 => ?_
    exact trunc_pure _ hp4
  · refine trunc_bind (trunc_pure _ hp1) fun names r3 r3' _ hp3 => ?_
    refine trunc_bind (trunc_consume _ hp3) fun tok4 r4 r4' _ hp4 => ?_
    exact trunc_pure _ hp4

theorem parseArgExprsLoop_trunc {pe : List Token → Except ParseError (Node × List Token)}
    (hpe : ∀ ts p, p <+: ts → Trunc ts p (pe ts) (pe p)) : ∀ n acc ts p, p <+: ts →
    Trunc ts p (parseArgExprsLoop pe n acc ts) (parseArgExprsLoop pe n acc p) := by
  intro n
  induction n with
  | zero => intro acc ts p _ v r h; simp [parseArgExprsLoop] at h
  | succ n ih =>
    intro acc ts p hp
    rw [parseArgExprsLoop, parseArgExprsLoop]
    refine trunc_bindB (truncB_peek _ _ hp) fun b _ => trunc_ite _ ?_ (trunc_pure _ hp)
    refine trunc_bind (trunc_consume _ hp) fun tok1 r1 r1' _ hp1 => ?_
    refine trunc_bind (hpe _ _ hp1) fun e r2 r2' _ hp2 => ?_
    exact ih _ _ _ hp2

theorem parseArgExprs_trunc {pe : List Token → Except ParseError (Node × List Token)}
    (hpe : ∀ ts p, p <+: ts → Trunc ts p (pe ts) (pe p)) (n : Nat) (ts p : List Token)
    (hp : p <+: ts) : Trunc ts p (parseArgExprs pe n ts) (parseArgExprs pe n p) := by
  unfold parseArgExprs
  refine trunc_bind (trunc_consume _ hp) fun tok1 r1 r1' _ hp1 => ?_
  refine trunc_bindB (truncB_peek _ _ hp1) fun b _ => ?_
  dsimp only
  refine trunc_ite _ ?_ ?_
  · refine trunc_bind (hpe _ _ hp1) fun e r2 r2' _ hp2 => ?_
    refine trunc_bind (parseArgExprsLoop_trunc hpe n _ _ _ hp2) fun args r3 r3' _ hp3 => ?_
    refine trunc_bind (trunc_consume _ hp3) fun tok4 r4 r4' _ hp4 => ?_
    exact trunc_pure _ hp4
  · refine trunc_bind (trunc_pure _ hp1) fun names r3 r3' _ hp3 => ?_
    refine trunc_bind (trunc_consume _ hp3) fun tok4 r4 r4' _ hp4 => ?_
    exact trunc_pure _ hp4

theorem parseCall_trunc {pe : List Token → Except ParseError (Node × List Token)}
    (hpe : ∀ ts p, p <+: ts → Trunc ts p (pe ts) (pe p)) (n : Nat) (ts p : List Token)
    (hp : p <+: ts) : Trunc ts p (parseCall pe n ts) (parseCall pe n p) := by
  unfold parseCall
  refine trunc_bind (trunc_consume _ hp) fun tok1 r1 r1' _ hp1 => ?_
  refine trunc_bind (parseArgExprs_trunc hpe n _ _ hp1) fun args r2 r2' _ hp2 => ?_
  exact trunc_pure _ hp2

theorem parseExpr_trunc : ∀ n ts p, p <+: ts →
    Trunc ts p (parseExpr n ts) (parseExpr n p) := by
  intro n
  induction n with
  | zero => intro ts p _ v r h; simp [parseExpr] at h
  | succ n ih =>
    intro ts p hp
    rw [parseExpr, parseExpr]
    refine trunc_bindB (truncB_peek _ _ hp) fun b _ => trunc_ite _ ?_ ?_
    · unfold parseInteger
      refine trunc_bind (trunc_consume _ hp) fun tok1 r1 r1' _ hp1 => trunc_pure _ hp1
    · refine trunc_bindB ?_ fun b2 _ => trunc_ite _ ?_ ?_
      · intro b2 h2
        obtain ⟨b1, h1, h3⟩ := except_bind_eq_ok.mp h2
        rcases truncB_peek TokenType.identifier 0 hp b1 h1 with hy | hy
        · left; rw [hy]; rfl
        · rw [hy, except_bind_ok]
          by_cases hb1 : b1 = true
          · simp only [hb1, if_true] at h3 ⊢
            exact truncB_peek TokenType.oparen 1 hp b2 h3
          · simp only [hb1] at h3 ⊢
            right; exact h3
      · exact parseCall_trunc (ih) _ _ _ hp
      · unfold parseVarRef
        refine trunc_bind (trunc_consume _ hp) fun tok1 r1 r1' _ hp1 => trunc_pure _ hp1

theorem parseDef_trunc (n : Nat) (ts p : List Token) (hp : p <+: ts) :
    Trunc ts p (parseDef n ts) (parseDef n p) := by
  unfold parseDef
  refine trunc_bind (trunc_consume _ hp) fun tok1 r1 r1' _ hp1 => ?_
  refine trunc_bind (trunc_consume _ hp1) fun tok2 r2 r2' _ hp2 => ?_
  refine trunc_bind (parseArgNames_trunc n _ _ hp2) fun names r3 r3' _ hp3 => ?_
  refine trunc_bind (parseExpr_trunc n _ _ hp3) fun body r4 r4' _ hp4 => ?_
  refine trunc_bind (trunc_consume _ hp4) fun tok5 r5 r5' _ hp5 => ?_
  exact trunc_pure _ hp5

/-- C8. Truncated input is rejected with an end-of-input error: when `parse` succeeds on
`ts` and leaves no token, on every proper prefix `p` of `ts` (the empty one included)
it fails, and the failure is the one of a `peek` or a `consume` that reads past the
last token, not a mismatch of token types. -/
theorem parse_proper_prefix_readPastEnd (ts : List Token) (tree : Node)
    (h : parse ts = .ok (tree, [])) (p : List Token) (hp : p <+: ts) (hne : p ≠ ts) :
    parse p = .error .readPastEnd := by
  have hlen : p.length ≤ ts.length := hp.length_le
  have h1 := parseDef_trunc (ts.length + 1) ts p hp tree [] h
  rw [parseDef_eq_parse _ p (by omega)] at h1
  rcases h1 with h1 | ⟨r', _, hpre, hl⟩
  · exact h1
  · exfalso
    have hr' : r' = [] := List.prefix_nil.mp hpre
    subst hr'
    simp only [List.length_nil, Nat.add_zero] at hl
    exact hne (List.IsPrefix.eq_of_length hp hl)

/-! ## Numbers -/

theorem digitChar_isDigit : ∀ d, d < 10 → (Nat.digitChar d).isDigit = true ∧
    (Nat.digitChar d).toNat - '0'.toNat = d := by
  decide

theorem decimalValue_step (acc : Nat) (ds : List Char) :
    List.foldl (fun acc c => 10 * acc + (c.toNat - '0'.toNat)) acc ds =
      acc * 10 ^ ds.length + decimalValue ds := by
  unfold decimalValue
  induction ds generalizing acc with
  | nil => simp
  | cons d ds ih =>
    simp only [List.foldl_cons, List.length_cons]
    rw [ih, ih (10 * 0 + _)]
    ring

theorem toDigitsCore_spec : ∀ fuel n ds, n < fuel → ds.all Char.isDigit = true →
    (Nat.toDigitsCore 10 fuel n ds).all Char.isDigit = true ∧
    decimalValue (Nat.toDigitsCore 10 fuel n ds) = n * 10 ^ ds.length + decimalValue ds := by
  intro fuel
  induction fuel with
  | zero => intro n ds h; omega
  | succ fuel ih =>
    intro n ds hn hds
    obtain ⟨hd1, hd2⟩ := digitChar_isDigit (n % 10) (Nat.mod_lt _ (by decide))
    have hcons : decimalValue (Nat.digitChar (n % 10) :: ds) =
        (n % 10) * 10 ^ ds.length + decimalValue ds := by
      conv_lhs => unfold decimalValue
      rw [List.foldl_cons, decimalValue_step, hd2]
      ring
    rw [Nat.toDigitsCore]
    by_cases h0 : n / 10 = 0
    · simp only [h0, if_true]
      refine ⟨by simp [hd1, hds], ?_⟩
      rw [hcons]
      have : n % 10 = n := Nat.mod_eq_of_lt (by omega)
      rw [this]
    · simp only [h0, if_false]
      have hlt : n / 10 < fuel := by omega
      obtain ⟨h1, h2⟩ := ih (n / 10) (Nat.digitChar (n % 10) :: ds) hlt (by simp [hd1, hds])
      refine ⟨h1, ?_⟩
      rw [h2, hcons, List.length_cons]
      have := Nat.div_add_mod n 10
      calc n / 10 * 10 ^ (ds.length + 1) + (n % 10 * 10 ^ ds.length + decimalValue ds)
          = (10 * (n / 10) + n % 10) * 10 ^ ds.length + decimalValue ds := by ring
        _ = n * 10 ^ ds.length + decimalValue ds := by rw [this]

/-- The decimal digits of `n` are digits and denote `n`. -/
theorem toDigits_spec (n : Nat) :
    (Nat.toDigits 10 n).all Char.isDigit = true ∧ decimalValue (Nat.toDigits 10 n) = n := by
  have := toDigitsCore_spec (n + 1) n [] (Nat.lt_succ_self n) rfl
  simpa [Nat.toDigits, decimalValue] using this

/-- Rounding leaves a double as it is. -/
theorem roundToDouble_of_isDouble (n : Nat) (h : isDouble n) : roundToDouble n = .nat n := by
  obtain ⟨h1, h2⟩ := h
  unfold roundToDouble
  have hr : n % 2 ^ excessBits n n = 0 := Nat.mod_eq_zero_of_dvd h2
  have hq : n / 2 ^ excessBits n n * 2 ^ excessBits n n = n := Nat.div_mul_cancel h2
  have hpos : 0 < 2 ^ excessBits n n := Nat.pow_pos (by decide)
  have hc : ¬ (2 ^ excessBits n n < 2 * 0 ∨
      (2 * 0 = 2 ^ excessBits n n ∧ n / 2 ^ excessBits n n % 2 = 1)) := by omega
  simp only [hr]
  rw [if_neg hc, hq, if_neg (by omega)]

/-- The function `Number` reads the decimal digits of a double back. -/
theorem Number_toDigits (n : Nat) (h : isDouble n) : Number (Nat.toDigits 10 n) = .nat n := by
  unfold Number
  rw [if_pos (toDigits_spec n).1, (toDigits_spec n).2, roundToDouble_of_isDouble n h]

/-! ## The parser rebuilds the tree of a derived token sequence -/

theorem parseExpr_ok_of_le {n n' : Nat} {ts : List Token} {R : Node × List Token}
    (h : parseExpr n ts = .ok R) (hn : n ≤ n') : parseExpr n' ts = .ok R := by
  rcases parseExpr_mono n n' hn ts with h' | h'
  · rw [h] at h'; cases h'
  · rw [← h', h]

theorem parseArgExprsLoop_ok_of_le {n n' m m' : Nat} {acc : List Node} {ts : List Token}
    {R : List Node × List Token}
    (h : parseArgExprsLoop (parseExpr n) m acc ts = .ok R) (hn : n ≤ n') (hm : m ≤ m') :
    parseArgExprsLoop (parseExpr n') m' acc ts = .ok R := by
  rcases parseArgExprsLoop_mono (fun ts => parseExpr_mono n n' hn ts) m m' hm acc ts with h' | h'
  · rw [h] at h'; cases h'
  · rw [← h', h]

theorem parseArgNamesLoop_ok_of_le {m m' : Nat} {acc : List (List Char)} {ts : List Token}
    {R : List (List Char) × List Token}
    (h : parseArgNamesLoop m acc ts = .ok R) (hm : m ≤ m') :
    parseArgNamesLoop m' acc ts = .ok R := by
  rcases parseArgNamesLoop_mono m m' hm acc ts with h' | h'
  · rw [h] at h'; cases h'
  · rw [← h', h]

theorem parseArgNamesLoop_commaNameTokens : ∀ (names acc : List (List Char)) (t : Token)
    (rest : List Token), t.type ≠ .comma →
    parseArgNamesLoop (names.length + 1) acc (commaNameTokens names ++ t :: rest) =
      .ok (acc ++ names, t :: rest) := by
  intro names
  induction names with
  | nil =>
    intro acc t rest ht
    simp [parseArgNamesLoop, commaNameTokens, ht]
  | cons x xs ih =>
    intro acc t rest ht
    rw [List.length_cons, parseArgNamesLoop]
    simp only [commaNameTokens, List.cons_append, peek_cons_zero, except_bind_ok, beq_self_eq_true,
      if_true, consume_cons]
    rw [ih (acc ++ [x]) t rest ht]
    simp

theorem parseArgNames_nameTokens (names : List (List Char)) (rest : List Token) (n : Nat)
    (hn : names.length < n) :
    parseArgNames n (⟨.oparen, "(".toList⟩ :: (nameTokens names ++ ⟨.cparen, ")".toList⟩ :: rest)) =
      .ok (names, rest) := by
  unfold parseArgNames
  cases names with
  | nil => simp [nameTokens, consume_cons]
  | cons x xs =>
    have hloop := parseArgNamesLoop_ok_of_le
      (parseArgNamesLoop_commaNameTokens xs [x] ⟨.cparen, ")".toList⟩ rest (by decide))
      (show xs.length + 1 ≤ n by simp only [List.length_cons] at hn; omega)
    simp only [nameTokens, List.cons_append, consume_cons, if_true, except_bind_ok, peek_cons_zero,
      beq_self_eq_true]
    rw [hloop]
    simp [consume_cons]

theorem tokensOf_head (e : Node) (h : e.isExpr = true) :
    ∃ tok tl, tokensOf e = tok :: tl ∧ (tok.type = .integer ∨ tok.type = .identifier) := by
  cases e with
  | DefNode n a b => simp [Node.isExpr] at h
  | IntegerNode v => exact ⟨_, _, by rw [tokensOf], Or.inl rfl⟩
  | CallNode n a => exact ⟨_, _, by rw [tokensOf], Or.inr rfl⟩
  | VarRefNode v => exact ⟨_, _, by rw [tokensOf], Or.inr rfl⟩

theorem commaArgTokens_head (es : List Node) (rest : List Token) :
    ∃ tok tl, commaArgTokens es ++ ⟨.cparen, ")".toList⟩ :: rest = tok :: tl ∧
      tok.type ≠ .oparen := by
  cases es with
  | nil => exact ⟨_, _, by rw [commaArgTokens]; rfl, by decide⟩
  | cons e es => exact ⟨_, _, by rw [commaArgTokens]; rfl, by decide⟩

mutual
theorem parseExpr_tokensOf : ∀ (e : Node), e.isExpr = true →
    ∃ n, ∀ (t : Token) (rest : List Token), t.type ≠ .oparen →
      parseExpr n (tokensOf e ++ t :: rest) = .ok (e, t :: rest)
  | .DefNode _ _ _, h => by simp [Node.isExpr] at h
  | .IntegerNode v, h => by
    refine ⟨1, fun t rest _ => ?_⟩
    cases v with
    | nat k =>
      simp only [Node.isExpr, decide_eq_true_eq] at h
      simp [tokensOf, decimalDigits, parseExpr, parseInteger, consume_cons, Number_toDigits k h]
    | infinity => simp [Node.isExpr] at h
    | nan => simp [Node.isExpr] at h
  | .VarRefNode v, _ => by
    refine ⟨1, fun t rest ht => ?_⟩
    simp [tokensOf, parseExpr, parseVarRef, consume_cons, ht]
  | .CallNode name [], _ => by
    refine ⟨1, fun t rest _ => ?_⟩
    simp [tokensOf, argTokens, parseExpr, parseCall, parseArgExprs, consume_cons]
  | .CallNode name (a :: as), h => by
    simp only [Node.isExpr, Node.allExpr, Bool.and_eq_true] at h
    obtain ⟨na, ha⟩ := parseExpr_tokensOf a h.1
    obtain ⟨nas, has⟩ := parseLoop_commaArgTokens as h.2
    refine ⟨max na nas + 1, fun t rest _ => ?_⟩
    obtain ⟨tok, tl, htok, htype⟩ := tokensOf_head a h.1
    obtain ⟨tok2, tl2, htok2, htype2⟩ := commaArgTokens_head as (t :: rest)
    have h1 : parseExpr (max na nas)
        (tokensOf a ++ (commaArgTokens as ++ ⟨.cparen, ")".toList⟩ :: t :: rest)) =
        .ok (a, commaArgTokens as ++ ⟨.cparen, ")".toList⟩ :: t :: rest) := by
      rw [htok2]
      apply parseExpr_ok_of_le (ha tok2 tl2 htype2) (Nat.le_max_left _ _)
    have h2 := parseArgExprsLoop_ok_of_le (has [a] (t :: rest)) (Nat.le_max_right na nas)
      (Nat.le_succ_of_le (Nat.le_max_right na nas))
    have hpk : (tok.type == TokenType.cparen) = false := by
      rcases htype with h' | h' <;> rw [h'] <;> decide
    have hlist : tokensOf (.CallNode name (a :: as)) ++ t :: rest =
        ⟨.identifier, name⟩ :: ⟨.oparen, "(".toList⟩ ::
          (tokensOf a ++ (commaArgTokens as ++ ⟨.cparen, ")".toList⟩ :: t :: rest)) := by
      simp [tokensOf, argTokens]
    rw [hlist, parseExpr]
    simp only [peek_cons_zero, peek_cons_succ, except_bind_ok, parseCall, parseArgExprs,
      consume_cons, if_true]
    have hpeek : peek (tokensOf a ++ (commaArgTokens as ++ ⟨.cparen, ")".toList⟩ :: t :: rest))
        TokenType.cparen 0 = .ok false := by
      rw [htok, List.cons_append, peek_cons_zero, hpk]
    simp only [hpeek, h1, h2, except_bind_ok]
    simp [consume_cons]
theorem parseLoop_commaArgTokens : ∀ (es : List Node), Node.allExpr es = true →
    ∃ n, ∀ (acc : List Node) (rest : List Token),
      parseArgExprsLoop (parseExpr n) n acc (commaArgTokens es ++ ⟨.cparen, ")".toList⟩ :: rest) =
        .ok (acc ++ es, ⟨.cparen, ")".toList⟩ :: rest)
  | [], _ => by
    refine ⟨1, fun acc rest => ?_⟩
    simp [commaArgTokens, parseArgExprsLoop]
  | a :: as, h => by
    simp only [Node.allExpr, Bool.and_eq_true] at h
    obtain ⟨na, ha⟩ := parseExpr_tokensOf a h.1
    obtain ⟨nas, has⟩ := parseLoop_commaArgTokens as h.2
    refine ⟨max na nas + 1, fun acc rest => ?_⟩
    obtain ⟨tok2, tl2, htok2, htype2⟩ := commaArgTokens_head as rest
    have h1 : parseExpr (max na nas + 1)
        (tokensOf a ++ (commaArgTokens as ++ ⟨.cparen, ")".toList⟩ :: rest)) =
        .ok (a, commaArgTokens as ++ ⟨.cparen, ")".toList⟩ :: rest) := by
      rw [htok2]
      apply parseExpr_ok_of_le (ha tok2 tl2 htype2)
      exact Nat.le_succ_of_le (Nat.le_max_left _ _)
    have h2 := parseArgExprsLoop_ok_of_le (has (acc ++ [a]) rest)
      (Nat.le_succ_of_le (Nat.le_max_right na nas)) (Nat.le_max_right na nas)
    rw [parseArgExprsLoop]
    simp only [commaArgTokens, List.cons_append, List.append_assoc, peek_cons_zero,
      except_bind_ok, consume_cons, if_true, beq_self_eq_true]
    rw [h1]
    simp only [except_bind_ok]
    rw [h2]
    simp
end

/-- The token sequence that the grammar derives for the definition of `f` with the body
`9007199254740993` parses to the definition with the body `9007199254740992`: the
integer `2 ^ 53 + 1` is not an IEEE double, and `Number` rounds it. -/
theorem parse_tokensOf_rounds :
    tokensOf (.DefNode "f".toList [] (.IntegerNode (.nat 9007199254740993))) =
      [⟨.def_, "def".toList⟩, ⟨.identifier, "f".toList⟩, ⟨.oparen, "(".toList⟩,
        ⟨.cparen, ")".toList⟩, ⟨.integer, "9007199254740993".toList⟩,
        ⟨.end_, "end".toList⟩] ∧
    parse (tokensOf (.DefNode "f".toList [] (.IntegerNode (.nat 9007199254740993)))) =
      .ok (.DefNode "f".toList [] (.IntegerNode (.nat 9007199254740992)), []) ∧
    parse (tokensOf (.DefNode "f".toList [] (.IntegerNode (.nat 9007199254740993)))) ≠
      .ok (.DefNode "f".toList [] (.IntegerNode (.nat 9007199254740993)), []) := by
  refine ⟨by decide, by decide, by decide⟩

/-- C1 (amended). The parser accepts the programs of the grammar whose integers are
IEEE doubles and rebuilds their trees: for every definition tree whose body is an
expression tree in which every integer value is a natural number that is an IEEE double
(every natural number below `2 ^ 53` is one), `parse` applied to the token sequence the
grammar derives for the tree succeeds, returns exactly that tree with parameters and
arguments in their order, and leaves no token.  The names may be any texts: the claim's
conditions on them are not needed. -/
theorem parse_tokensOf (name : List Char) (argNames : List (List Char)) (body : Node)
    (h : body.isExpr = true) :
    parse (tokensOf (.DefNode name argNames body)) = .ok (.DefNode name argNames body, []) := by
  obtain ⟨n, hn⟩ := parseExpr_tokensOf body h
  have hbody := parseExpr_ok_of_le (hn ⟨.end_, "end".toList⟩ [] (by decide))
    (Nat.le_max_left n (argNames.length + 1))
  have hnames := parseArgNames_nameTokens argNames (tokensOf body ++ [⟨.end_, "end".toList⟩])
    (max n (argNames.length + 1)) (by have := Nat.le_max_right n (argNames.length + 1); omega)
  apply parse_eq_of_parseDef (n := max n (argNames.length + 1)) _ (by simp)
  unfold parseDef
  rw [tokensOf]
  simp only [consume_cons, if_true, except_bind_ok, hnames, hbody]
  simp [consume_cons]

theorem parse_tokensOf_witness :
    (Node.CallNode "add".toList [.VarRefNode "x".toList,
        .CallNode "g".toList [.IntegerNode (.nat 18446744073709551616), .CallNode "h".toList []],
        .IntegerNode (.nat 7)]).isExpr = true ∧
    tokensOf (.DefNode "f".toList ["x".toList, "y".toList]
        (.CallNode "add".toList [.VarRefNode "x".toList,
          .CallNode "g".toList [.IntegerNode (.nat 18446744073709551616),
            .CallNode "h".toList []],
          .IntegerNode (.nat 7)])) =
      [⟨.def_, "def".toList⟩, ⟨.identifier, "f".toList⟩, ⟨.oparen, "(".toList⟩,
        ⟨.identifier, "x".toList⟩, ⟨.comma, ",".toList⟩, ⟨.identifier, "y".toList⟩,
        ⟨.cparen, ")".toList⟩, ⟨.identifier, "add".toList⟩, ⟨.oparen, "(".toList⟩,
        ⟨.identifier, "x".toList⟩, ⟨.comma, ",".toList⟩, ⟨.identifier, "g".toList⟩,
        ⟨.oparen, "(".toList⟩, ⟨.integer, "18446744073709551616".toList⟩, ⟨.comma, ",".toList⟩,
        ⟨.identifier, "h".toList⟩, ⟨.oparen, "(".toList⟩, ⟨.cparen, ")".toList⟩,
        ⟨.cparen, ")".toList⟩, ⟨.comma, ",".toList⟩, ⟨.integer, "7".toList⟩,
        ⟨.cparen, ")".toList⟩, ⟨.end_, "end".toList⟩] ∧
    parse (tokensOf (.DefNode "f".toList ["x".toList, "y".toList]
        (.CallNode "add".toList [.VarRefNode "x".toList,
          .CallNode "g".toList [.IntegerNode (.nat 18446744073709551616),
            .CallNode "h".toList []],
          .IntegerNode (.nat 7)]))) =
      .ok (.DefNode "f".toList ["x".toList, "y".toList]
        (.CallNode "add".toList [.VarRefNode "x".toList,
          .CallNode "g".toList [.IntegerNode (.nat 18446744073709551616),
            .CallNode "h".toList []],
          .IntegerNode (.nat 7)]), []) :=
  ⟨by decide, by decide, parse_tokensOf "f".toList ["x".toList, "y".toList] _ (by decide)⟩

/-! ## The generator -/

theorem generateEach_eq_map (nodes : List Node) : generateEach nodes = nodes.map generate := by
  induction nodes with
  | nil => rw [generateEach]; rfl
  | cons n ns ih => rw [generateEach, ih]; rfl

/-- C2. For every definition node `generate` returns `function `, the name, `(`, the
parameter names joined by `, ` in their order, `) { return `, the text of the body and
` }`.  The source `def f() 1 end` tokenizes and parses to a definition with no
parameter and the body `IntegerNode 1`, and its generated text is
`function f() { return 1 }`. -/
theorem generate_DefNode :
    (∀ (name : List Char) (argNames : List (List Char)) (body : Node),
      generate (.DefNode name argNames body) =
        .str ("function ".toList ++ name ++ "(".toList ++ join argNames ", ".toList ++
          ") \x7b return ".toList ++ (generate body).toStr ++ " \x7d".toList)) ∧
    Tokenizer.tokenize "def f() 1 end".toList =
      .ok [⟨.def_, "def".toList⟩, ⟨.identifier, "f".toList⟩, ⟨.oparen, "(".toList⟩,
        ⟨.cparen, ")".toList⟩, ⟨.integer, "1".toList⟩, ⟨.end_, "end".toList⟩] ∧
    parse [⟨.def_, "def".toList⟩, ⟨.identifier, "f".toList⟩, ⟨.oparen, "(".toList⟩,
        ⟨.cparen, ")".toList⟩, ⟨.integer, "1".toList⟩, ⟨.end_, "end".toList⟩] =
      .ok (.DefNode "f".toList [] (.IntegerNode (.nat 1)), []) ∧
    generate (.DefNode "f".toList [] (.IntegerNode (.nat 1))) =
      .str "function f() \x7b return 1 \x7d".toList ∧
    compile "def f() 1 end".toList = .ok "function f() \x7b return 1 \x7d".toList := by
  refine ⟨fun name argNames body => ?_, by decide, by decide, by decide, by decide⟩
  rw [generate]

/-- C3. For every call node, at any depth, `generate` returns the name of the callee,
`(`, the texts of the arguments in their order joined by `, `, and `)`; for a variable
reference it returns the identifier as it is.  The source `def f(x,y) add(x, g(y)) end`
parses to a body that is a call of `add` whose second argument is a call of `g`, and
the generated text of that body is `add(x, g(y))`. -/
theorem generate_CallNode :
    (∀ (name : List Char) (argExprs : List Node),
      generate (.CallNode name argExprs) =
        .str (name ++ "(".toList ++
          join (argExprs.map fun e => (generate e).toStr) ", ".toList ++ ")".toList)) ∧
    (∀ value : List Char, generate (.VarRefNode value) = .str value) ∧
    Tokenizer.tokenize "def f(x,y) add(x, g(y)) end".toList =
      .ok [⟨.def_, "def".toList⟩, ⟨.identifier, "f".toList⟩, ⟨.oparen, "(".toList⟩,
        ⟨.identifier, "x".toList⟩, ⟨.comma, ",".toList⟩, ⟨.identifier, "y".toList⟩,
        ⟨.cparen, ")".toList⟩, ⟨.identifier, "add".toList⟩, ⟨.oparen, "(".toList⟩,
        ⟨.identifier, "x".toList⟩, ⟨.comma, ",".toList⟩, ⟨.identifier, "g".toList⟩,
        ⟨.oparen, "(".toList⟩, ⟨.identifier, "y".toList⟩, ⟨.cparen, ")".toList⟩,
        ⟨.cparen, ")".toList⟩, ⟨.end_, "end".toList⟩] ∧
    parse [⟨.def_, "def".toList⟩, ⟨.identifier, "f".toList⟩, ⟨.oparen, "(".toList⟩,
        ⟨.identifier, "x".toList⟩, ⟨.comma, ",".toList⟩, ⟨.identifier, "y".toList⟩,
        ⟨.cparen, ")".toList⟩, ⟨.identifier, "add".toList⟩, ⟨.oparen, "(".toList⟩,
        ⟨.identifier, "x".toList⟩, ⟨.comma, ",".toList⟩, ⟨.identifier, "g".toList⟩,
        ⟨.oparen, "(".toList⟩, ⟨.identifier, "y".toList⟩, ⟨.cparen, ")".toList⟩,
        ⟨.cparen, ")".toList⟩, ⟨.end_, "end".toList⟩] =
      .ok (.DefNode "f".toList ["x".toList, "y".toList]
        (.CallNode "add".toList
          [.VarRefNode "x".toList, .CallNode "g".toList [.VarRefNode "y".toList]]), []) ∧
    generate (.CallNode "add".toList
        [.VarRefNode "x".toList, .CallNode "g".toList [.VarRefNode "y".toList]]) =
      .str "add(x, g(y))".toList := by
  refine ⟨fun name argExprs => ?_, fun value => ?_, by decide, by decide, by decide⟩
  · rw [generate, generateEach_eq_map, List.map_map]
    rfl
  · rw [generate]

/-! ## The choices of the parser -/

/-- C5, as stated, fails: the two tokens identifier `g`, oparen are an identifier
followed by an oparen, yet `parseExpr` returns no call: it reads past the end.  With
an `end` token after them it fails on a mismatch instead. -/
theorem parseExpr_call_can_fail :
    parseExpr 3 [⟨.identifier, "g".toList⟩, ⟨.oparen, "(".toList⟩] = .error .readPastEnd ∧
    parseExpr 4 [⟨.identifier, "g".toList⟩, ⟨.oparen, "(".toList⟩, ⟨.end_, "end".toList⟩] =
      .error (.unexpected .identifier .end_) := by
  decide

/-- C5, amended.  In `parseExpr`: a first token of type integer gives an
`IntegerNode` and exactly that token is consumed; otherwise an identifier followed by
an oparen hands over to `parseCall`, so that the result is a call whenever the
argument list parses and the error of the argument list otherwise; otherwise an
identifier followed by any other token gives a `VarRefNode` and exactly the identifier
is consumed.  For all names, the tokens of `def f(x) g(x) end` give the body
`CallNode g [VarRefNode x]` and the tokens of `def f(x) x end` the body `VarRefNode x`. -/
theorem parseExpr_disambiguation :
    (∀ (fuel : Nat) (tok : Token) (rest : List Token), tok.type = .integer →
      parseExpr (fuel + 1) (tok :: rest) = .ok (.IntegerNode (Number tok.value), rest)) ∧
    (∀ (fuel : Nat) (tok tok2 : Token) (rest : List Token), tok.type = .identifier →
      tok2.type = .oparen →
      parseExpr (fuel + 1) (tok :: tok2 :: rest) =
        parseCall (parseExpr fuel) (fuel + 1) (tok :: tok2 :: rest) ∧
      ∀ v r, parseExpr (fuel + 1) (tok :: tok2 :: rest) = .ok (v, r) →
        ∃ argExprs, v = .CallNode tok.value argExprs) ∧
    (∀ (fuel : Nat) (tok tok2 : Token) (rest : List Token), tok.type = .identifier →
      tok2.type ≠ .oparen →
      parseExpr (fuel + 1) (tok :: tok2 :: rest) = .ok (.VarRefNode tok.value, tok2 :: rest)) ∧
    (∀ f x g : List Char,
      parse [⟨.def_, "def".toList⟩, ⟨.identifier, f⟩, ⟨.oparen, "(".toList⟩, ⟨.identifier, x⟩,
          ⟨.cparen, ")".toList⟩, ⟨.identifier, g⟩, ⟨.oparen, "(".toList⟩, ⟨.identifier, x⟩,
          ⟨.cparen, ")".toList⟩, ⟨.end_, "end".toList⟩] =
        .ok (.DefNode f [x] (.CallNode g [.VarRefNode x]), [])) ∧
    (∀ f x : List Char,
      parse [⟨.def_, "def".toList⟩, ⟨.identifier, f⟩, ⟨.oparen, "(".toList⟩, ⟨.identifier, x⟩,
          ⟨.cparen, ")".toList⟩, ⟨.identifier, x⟩, ⟨.end_, "end".toList⟩] =
        .ok (.DefNode f [x] (.VarRefNode x), [])) := by
  refine ⟨?_, ?_, ?_, ?_, ?_⟩
  · intro fuel tok rest h
    simp [parseExpr, parseInteger, consume_cons, h]
  · intro fuel tok tok2 rest h h2
    have hcall : parseExpr (fuel + 1) (tok :: tok2 :: rest) =
        parseCall (parseExpr fuel) (fuel + 1) (tok :: tok2 :: rest) := by
      simp [parseExpr, h, h2]
    refine ⟨hcall, fun v r hv => ?_⟩
    rw [hcall] at hv
    unfold parseCall at hv
    simp only [consume_cons, h, if_true, except_bind_ok] at hv
    obtain ⟨⟨args, r'⟩, _, h3⟩ := except_bind_eq_ok.mp hv
    simp only [except_pure, Except.ok.injEq, Prod.mk.injEq] at h3
    exact ⟨args, h3.1.symm⟩
  · intro fuel tok tok2 rest h h2
    simp [parseExpr, parseVarRef, consume_cons, h, h2]
  · intro f x g; rfl
  · intro f x; rfl

theorem parseExpr_disambiguation_witness :
    ((⟨.identifier, "x".toList⟩ : Token).type = .identifier ∧
      (⟨.end_, "end".toList⟩ : Token).type ≠ .oparen) ∧
    parseExpr 1 [⟨.identifier, "x".toList⟩, ⟨.end_, "end".toList⟩] =
      .ok (.VarRefNode "x".toList, [⟨.end_, "end".toList⟩]) :=
  ⟨by decide, parseExpr_disambiguation.2.2.1 0 ⟨.identifier, "x".toList⟩ ⟨.end_, "end".toList⟩ []
    (by decide) (by decide)⟩

/-- C7, as stated, fails: with no token left `consume` fails too, although no next
token exists. -/
theorem consume_fails_on_empty : consume [] .cparen = .error .readPastEnd := by
  decide

/-- C7, amended.  The method `consume` fails when no token is left (reading past the
end) and when the next token has another type than the expected one, and in no other
case; in the second case the error is "Expected token type ..., but got ...", which
names the expected and the actual type.  Every token sequence that starts def,
identifier, oparen, identifier, identifier makes `parse` fail with
"Expected token type cparen, but got identifier". -/
theorem consume_fails_iff :
    (∀ (tokens : List Token) (expectedType : TokenType),
      (∃ e, consume tokens expectedType = .error e) ↔
        (tokens = [] ∨ ∃ tok rest, tokens = tok :: rest ∧ tok.type ≠ expectedType)) ∧
    (∀ (expectedType : TokenType), consume [] expectedType = .error .readPastEnd) ∧
    (∀ (tok : Token) (rest : List Token) (expectedType : TokenType),
      tok.type ≠ expectedType →
      consume (tok :: rest) expectedType = .error (.unexpected expectedType tok.type) ∧
      (ParseError.unexpected expectedType tok.type).message =
        "Expected token type ".toList ++ expectedType.name ++ ", but got ".toList ++
          tok.type.name) ∧
    (∀ (t1 t2 t3 t4 t5 : Token) (rest : List Token), t1.type = .def_ →
      t2.type = .identifier → t3.type = .oparen → t4.type = .identifier →
      t5.type = .identifier →
      parse (t1 :: t2 :: t3 :: t4 :: t5 :: rest) = .error (.unexpected .cparen .identifier)) ∧
    (ParseError.unexpected .cparen .identifier).message =
      "Expected token type cparen, but got identifier".toList := by
  refine ⟨?_, fun _ => rfl, ?_, ?_, by decide⟩
  · intro tokens expectedType
    cases tokens with
    | nil => simp
    | cons tok rest =>
      rw [consume_cons]
      by_cases h : tok.type = expectedType <;> simp [h]
  · intro tok rest expectedType h
    exact ⟨by rw [consume_cons, if_neg h], rfl⟩
  · intro t1 t2 t3 t4 t5 rest h1 h2 h3 h4 h5
    unfold parse parseDef parseArgNames
    simp only [List.length_cons, consume_cons, h1, h2, h3, h4, if_true, except_bind_ok,
      peek_cons_zero, beq_self_eq_true]
    rw [parseArgNamesLoop]
    simp [consume_cons, h5]

theorem consume_fails_iff_witness :
    ((⟨.identifier, "x".toList⟩ : Token).type ≠ .cparen) ∧
    consume [⟨.identifier, "x".toList⟩, ⟨.end_, "end".toList⟩] .cparen =
      .error (.unexpected .cparen .identifier) :=
  ⟨by decide, (consume_fails_iff.2.2.1 ⟨.identifier, "x".toList⟩ [⟨.end_, "end".toList⟩] .cparen
    (by decide)).1⟩

theorem parse_proper_prefix_readPastEnd_witness :
    (parse [⟨.def_, "def".toList⟩, ⟨.identifier, "f".toList⟩, ⟨.oparen, "(".toList⟩,
        ⟨.cparen, ")".toList⟩, ⟨.identifier, "x".toList⟩, ⟨.end_, "end".toList⟩] =
        .ok (.DefNode "f".toList [] (.VarRefNode "x".toList), []) ∧
      [⟨.def_, "def".toList⟩, ⟨.identifier, "f".toList⟩, ⟨.oparen, "(".toList⟩,
        ⟨.cparen, ")".toList⟩, (⟨.identifier, "x".toList⟩ : Token)] <+:
      [⟨.def_, "def".toList⟩, ⟨.identifier, "f".toList⟩, ⟨.oparen, "(".toList⟩,
        ⟨.cparen, ")".toList⟩, ⟨.identifier, "x".toList⟩, ⟨.end_, "end".toList⟩]) ∧
    parse [⟨.def_, "def".toList⟩, ⟨.identifier, "f".toList⟩, ⟨.oparen, "(".toList⟩,
        ⟨.cparen, ")".toList⟩, ⟨.identifier, "x".toList⟩] = .error .readPastEnd :=
  ⟨by decide, parse_proper_prefix_readPastEnd
    [⟨.def_, "def".toList⟩, ⟨.identifier, "f".toList⟩, ⟨.oparen, "(".toList⟩,
      ⟨.cparen, ")".toList⟩, ⟨.identifier, "x".toList⟩, ⟨.end_, "end".toList⟩]
    (.DefNode "f".toList [] (.VarRefNode "x".toList)) (by decide)
    [⟨.def_, "def".toList⟩, ⟨.identifier, "f".toList⟩, ⟨.oparen, "(".toList⟩,
      ⟨.cparen, ")".toList⟩, ⟨.identifier, "x".toList⟩] (by decide) (by decide)⟩

/-! ## Whitespace at the start of the source -/

theorem isWordChar_iff (c : Char) : isWordChar c = true ↔
    (c.isAlpha = true ∨ c.isDigit = true ∨ c = '_') := by
  simp [isWordChar, or_assoc]

theorem whiteSpace_not_wordChar (c : Char) (h : isWhiteSpace c = true) :
    isWordChar c = false := by
  cases hw : isWordChar c with
  | false => rfl
  | true =>
    rw [isWhiteSpace_iff] at h
    rw [isWordChar_iff] at hw
    rcases hw with hw | hw | hw
    · rw [isAlpha_iff] at hw; omega
    · rw [isDigit_iff] at hw; omega
    · subst hw; revert h; decide

/-- A source that starts with a whitespace character is rejected at once: the buffer is
trimmed only after a token has been matched. -/
theorem tokenize_cons_whiteSpace (c : Char) (s : List Char) (h : isWhiteSpace c = true) :
    Tokenizer.tokenize (c :: s) = .error (.noMatch (c :: s)) := by
  have hw := whiteSpace_not_wordChar c h
  have h1 : c ≠ '(' := by rintro rfl; revert h; decide
  have h2 : c ≠ ')' := by rintro rfl; revert h; decide
  have h3 : c ≠ ',' := by rintro rfl; revert h; decide
  have hone : Tokenizer.tokenizeOneToken (c :: s) = .error (.noMatch (c :: s)) := by
    rw [tokenizeOneToken_eq_nextToken]
    simp [nextToken, List.takeWhile_cons, hw, h1, h2, h3]
  unfold Tokenizer.tokenize
  rw [List.length_cons, tokenizeLoop_fail _ [] (c :: s) (by simp) (.noMatch (c :: s))]
  simp only [Tokenizer.loopBody, hone]

/-! ## Doubles -/

/-- What `excessBits` counts: for `k ≥ 1`, it is at least `k` exactly when the number
has more than `52 + k` bits. -/
theorem le_excessBits_iff : ∀ (fuel n k : Nat), n ≤ fuel → 1 ≤ k →
    (k ≤ excessBits fuel n ↔ 2 ^ (52 + k) ≤ n) := by
  intro fuel
  induction fuel with
  | zero =>
    intro n k hn hk
    have h0 : n = 0 := by omega
    subst h0
    have : 0 < 2 ^ (52 + k) := Nat.pow_pos (by decide)
    simp only [excessBits]
    omega
  | succ f ih =>
    intro n k hn hk
    rw [excessBits]
    by_cases hlt : n < 2 ^ 53
    · rw [if_pos hlt]
      have : 2 ^ 53 ≤ 2 ^ (52 + k) := Nat.pow_le_pow_right (by decide) (by omega)
      omega
    · rw [if_neg hlt]
      have hn2 : n / 2 ≤ f := by omega
      by_cases hk1 : k = 1
      · subst hk1
        have : (2 : Nat) ^ (52 + 1) = 2 ^ 53 := rfl
        omega
      · have hk' : 1 ≤ k - 1 := by omega
        have := ih (n / 2) (k - 1) hn2 hk'
        have hpow : 2 ^ (52 + k) = 2 ^ (52 + (k - 1)) * 2 := by
          rw [← Nat.pow_succ]; congr 1; omega
        rw [hpow, ← Nat.le_div_iff_mul_le (by decide : 0 < 2)]
        omega

theorem excessBits_eq_zero_iff (n : Nat) : excessBits n n = 0 ↔ n < 2 ^ 53 := by
  have := le_excessBits_iff n n 1 (Nat.le_refl _) (Nat.le_refl _)
  have h53 : (2 : Nat) ^ (52 + 1) = 2 ^ 53 := rfl
  rw [h53] at this
  omega

/-- The test for `Infinity` in `roundToDouble` is the comparison with `2 ^ 1024`. -/
theorem excessBits_overflow_iff (n : Nat) : 972 ≤ excessBits n n ↔ 2 ^ 1024 ≤ n := by
  have h := le_excessBits_iff n n 972 (Nat.le_refl _) (by decide)
  rw [show 52 + 972 = 1024 from rfl] at h
  exact h

/-- Below `2 ^ 53` every natural number is a double. -/
theorem isDouble_of_lt (n : Nat) (h : n < 2 ^ 53) : isDouble n := by
  have h0 := (excessBits_eq_zero_iff n).mpr h
  unfold isDouble
  rw [h0]
  exact ⟨by decide, by simp⟩

theorem roundToDouble_of_lt (n : Nat) (h : n < 2 ^ 53) : roundToDouble n = .nat n :=
  roundToDouble_of_isDouble n (isDouble_of_lt n h)

/-- The leading 53 bits of a number of `2 ^ 53` or more. -/
theorem two_pow_le_div_excessBits (n : Nat) (h : 2 ^ 53 ≤ n) :
    1 ≤ excessBits n n ∧ 2 ^ 52 ≤ n / 2 ^ excessBits n n := by
  have h1 : 1 ≤ excessBits n n := by
    have := excessBits_eq_zero_iff n
    omega
  refine ⟨h1, ?_⟩
  have := (le_excessBits_iff n n (excessBits n n) (Nat.le_refl _) h1).mp (Nat.le_refl _)
  rw [Nat.pow_add] at this
  exact (Nat.le_div_iff_mul_le (Nat.pow_pos (by decide))).mpr this

/-- Rounding never goes below `2 ^ 53` from above it. -/
theorem roundToDouble_ge (n x : Nat) (h : 2 ^ 53 ≤ n) (hx : roundToDouble n = .nat x) :
    2 ^ 53 ≤ x := by
  obtain ⟨h1, h2⟩ := two_pow_le_div_excessBits n h
  unfold roundToDouble at hx
  simp only at hx
  generalize hq' : (if 2 ^ excessBits n n < 2 * (n % 2 ^ excessBits n n) ∨
      2 * (n % 2 ^ excessBits n n) = 2 ^ excessBits n n ∧ n / 2 ^ excessBits n n % 2 = 1
      then n / 2 ^ excessBits n n + 1 else n / 2 ^ excessBits n n) = q' at hx
  have hq : 2 ^ 52 ≤ q' := by
    rw [← hq']; split <;> omega
  have he : 2 ^ 1 ≤ 2 ^ excessBits n n := Nat.pow_le_pow_right (by decide) h1
  split at hx
  · cases hx
  · simp only [JSNumber.nat.injEq] at hx
    rw [← hx]
    calc 2 ^ 53 = 2 ^ 52 * 2 ^ 1 := by norm_num
      _ ≤ _ := Nat.mul_le_mul hq he

/-- A number that rounds to a double below `2 ^ 53` is that double. -/
theorem eq_of_roundToDouble_lt (n x : Nat) (hx : roundToDouble n = .nat x) (h : x < 2 ^ 53) :
    n = x := by
  by_cases hn : n < 2 ^ 53
  · rw [roundToDouble_of_lt n hn] at hx
    exact JSNumber.nat.inj hx
  · have := roundToDouble_ge n x (by omega) hx
    omega

/-! ## Decimal digits -/

theorem toDigitsCore_append : ∀ (fuel n : Nat) (ds : List Char),
    Nat.toDigitsCore 10 fuel n ds = Nat.toDigitsCore 10 fuel n [] ++ ds := by
  intro fuel
  induction fuel with
  | zero => intro n ds; simp [Nat.toDigitsCore]
  | succ f ih =>
    intro n ds
    rw [Nat.toDigitsCore, Nat.toDigitsCore]
    by_cases h0 : n / 10 = 0
    · simp only [h0, if_true]; rfl
    · simp only [h0, if_false]
      rw [ih (n / 10) (Nat.digitChar (n % 10) :: ds), ih (n / 10) [Nat.digitChar (n % 10)]]
      simp

theorem toDigitsCore_fuel : ∀ (fuel fuel' n : Nat), n < fuel → n < fuel' →
    Nat.toDigitsCore 10 fuel n [] = Nat.toDigitsCore 10 fuel' n [] := by
  intro fuel
  induction fuel with
  | zero => intro fuel' n h; omega
  | succ f ih =>
    intro fuel' n h h'
    obtain ⟨f', rfl⟩ : ∃ f', fuel' = f' + 1 := ⟨fuel' - 1, by omega⟩
    rw [Nat.toDigitsCore, Nat.toDigitsCore]
    by_cases h0 : n / 10 = 0
    · simp only [h0, if_true]
    · simp only [h0, if_false]
      rw [toDigitsCore_append f, toDigitsCore_append f', ih f' (n / 10) (by omega) (by omega)]

theorem toDigits_of_lt (n : Nat) (h : n < 10) : Nat.toDigits 10 n = [Nat.digitChar n] := by
  have h0 : n / 10 = 0 := Nat.div_eq_of_lt h
  rw [Nat.toDigits, Nat.toDigitsCore]
  simp only [h0, if_true, Nat.mod_eq_of_lt h]

theorem toDigits_of_ge (n : Nat) (h : 10 ≤ n) :
    Nat.toDigits 10 n = Nat.toDigits 10 (n / 10) ++ [Nat.digitChar (n % 10)] := by
  have h0 : n / 10 ≠ 0 := by omega
  rw [Nat.toDigits, Nat.toDigitsCore]
  simp only [h0, if_false]
  rw [toDigitsCore_append, Nat.toDigits,
    toDigitsCore_fuel n (n / 10 + 1) (n / 10) (by omega) (by omega)]

theorem toDigits_mul_ten (m : Nat) (h : 0 < m) :
    Nat.toDigits 10 (m * 10) = Nat.toDigits 10 m ++ ['0'] := by
  rw [toDigits_of_ge (m * 10) (by omega), Nat.mul_div_cancel m (by decide), Nat.mul_mod_left]
  rfl

theorem toDigits_mul_pow (s : Nat) (h : 0 < s) : ∀ j,
    Nat.toDigits 10 (s * 10 ^ j) = Nat.toDigits 10 s ++ List.replicate j '0' := by
  intro j
  induction j with
  | zero => simp
  | succ j ih =>
    rw [Nat.pow_succ, ← Nat.mul_assoc, toDigits_mul_ten _ (Nat.mul_pos h (Nat.pow_pos (by decide))),
      ih, List.append_assoc]
    congr 1
    exact (List.replicate_succ' ..).symm

/-- The number of decimal digits bounds the number. -/
theorem lt_pow_length_toDigits : ∀ (bound n : Nat), n ≤ bound →
    n < 10 ^ (Nat.toDigits 10 n).length ∧
      (0 < n → 10 ^ ((Nat.toDigits 10 n).length - 1) ≤ n) := by
  intro bound
  induction bound with
  | zero =>
    intro n h
    have : n = 0 := by omega
    subst this
    exact ⟨by decide, fun h => absurd h (by decide)⟩
  | succ b ih =>
    intro n h
    by_cases hlt : n < 10
    · rw [toDigits_of_lt n hlt]
      simp only [List.length_singleton, Nat.pow_one, Nat.sub_self, Nat.pow_zero]
      exact ⟨hlt, fun h => h⟩
    · have hge : 10 ≤ n := by omega
      obtain ⟨h1, h2⟩ := ih (n / 10) (by omega)
      have h2' := h2 (by omega)
      rw [toDigits_of_ge n hge, List.length_append, List.length_singleton, Nat.add_sub_cancel]
      have hlen : 1 ≤ (Nat.toDigits 10 (n / 10)).length := by
        by_contra hc
        have h0 : (Nat.toDigits 10 (n / 10)).length = 0 := by omega
        rw [h0] at h1
        simp at h1
        omega
      constructor
      · rw [Nat.pow_succ]
        omega
      · intro _
        have : 10 ^ (Nat.toDigits 10 (n / 10)).length =
            10 ^ ((Nat.toDigits 10 (n / 10)).length - 1) * 10 := by
          rw [← Nat.pow_succ]; congr 1; omega
        rw [this]
        omega

/-! ## The text of a number below `2 ^ 53` -/

/-- An integer double below `2 ^ 53`: its shortest decimal is an exact one. -/
theorem shortestDecimal_of_lt (x : Nat) (h0 : 0 < x) (h : x < 2 ^ 53) :
    ∃ k s, shortestDecimal x = ((Nat.toDigits 10 x).length, k, s) ∧
      k ≤ (Nat.toDigits 10 x).length ∧ s * 10 ^ ((Nat.toDigits 10 x).length - k) = x := by
  obtain ⟨hub, hlb⟩ := lt_pow_length_toDigits x x (Nat.le_refl _)
  have hlen : 1 ≤ (Nat.toDigits 10 x).length := by
    by_contra hc
    have h0' : (Nat.toDigits 10 x).length = 0 := by omega
    rw [h0'] at hub
    simp at hub
    omega
  unfold shortestDecimal
  simp only
  have hA : ¬ roundToDouble (10 ^ (Nat.toDigits 10 x).length) = .nat x := by
    intro hr
    have := eq_of_roundToDouble_lt _ _ hr h
    omega
  rw [if_neg hA]
  have hhi : ∀ p, 0 < p → ¬ roundToDouble ((x / p + 1) * p) = .nat x := by
    intro p hp hr
    have := eq_of_roundToDouble_lt _ _ hr h
    have h1 : x < (x / p + 1) * p := by
      rw [Nat.add_mul, Nat.one_mul]
      have := Nat.div_add_mod x p
      have := Nat.mod_lt x hp
      have : p * (x / p) = x / p * p := Nat.mul_comm _ _
      omega
    omega
  have hlo : ∀ p, 0 < p → (roundToDouble (x / p * p) = .nat x ↔ x / p * p = x) := by
    intro p hp
    have hle : x / p * p ≤ x := Nat.div_mul_le_self x p
    rw [roundToDouble_of_lt _ (by omega)]
    exact ⟨fun h => JSNumber.nat.inj h, fun h => by rw [h]⟩
  have hfi : ∀ i, decimalCandidate x (Nat.toDigits 10 x).length i = if x / 10 ^ ((Nat.toDigits 10 x).length - (i + 1)) *
      10 ^ ((Nat.toDigits 10 x).length - (i + 1)) = x
      then some (i + 1, x / 10 ^ ((Nat.toDigits 10 x).length - (i + 1))) else none := by
    intro i
    have hp : 0 < 10 ^ ((Nat.toDigits 10 x).length - (i + 1)) := Nat.pow_pos (by decide)
    unfold decimalCandidate
    simp only [hhi _ hp, hlo _ hp, and_false, decide_False, Bool.and_false, Bool.false_eq_true,
      if_false, decide_eq_true_eq]
  cases hfound : List.findSome? (decimalCandidate x (Nat.toDigits 10 x).length)
      (List.range (Nat.toDigits 10 x).length) with
  | none =>
    exfalso
    have hall := List.findSome?_eq_none_iff.mp hfound
    have := hall ((Nat.toDigits 10 x).length - 1) (List.mem_range.mpr (by omega))
    rw [hfi] at this
    have e : (Nat.toDigits 10 x).length - ((Nat.toDigits 10 x).length - 1 + 1) = 0 := by omega
    rw [e] at this
    simp at this
  | some ks =>
    obtain ⟨k, s⟩ := ks
    obtain ⟨i, hi, hfi'⟩ := List.exists_of_findSome?_eq_some hfound
    rw [hfi] at hfi'
    have hi' := List.mem_range.mp hi
    split at hfi'
    · next heq =>
      simp only [Option.some.injEq, Prod.mk.injEq] at hfi'
      obtain ⟨rfl, rfl⟩ := hfi'
      exact ⟨_, _, rfl, by omega, heq⟩
    · cases hfi'

/-- The text of a natural number below `2 ^ 53` is its decimal numeral. -/
theorem numberToString_of_lt (x : Nat) (h : x < 2 ^ 53) :
    numberToString (.nat x) = Nat.toDigits 10 x := by
  by_cases h0 : x = 0
  · subst h0; rfl
  · simp only [numberToString]
    rw [if_neg h0]
    obtain ⟨k, s, hsd, hk, hs⟩ := shortestDecimal_of_lt x (by omega) h
    obtain ⟨hub, hlb⟩ := lt_pow_length_toDigits x x (Nat.le_refl _)
    have hlb' := hlb (by omega)
    have hlen : (Nat.toDigits 10 x).length ≤ 21 := by
      by_contra hc
      have : 10 ^ 21 ≤ 10 ^ ((Nat.toDigits 10 x).length - 1) :=
        Nat.pow_le_pow_right (by decide) (by omega)
      have h53 : (2 : Nat) ^ 53 < 10 ^ 21 := by norm_num
      omega
    rw [hsd]
    simp only
    rw [if_pos hlen]
    have hspos : 0 < s := by
      rcases Nat.eq_zero_or_pos s with h' | h'
      · rw [h'] at hs; simp at hs; omega
      · exact h'
    rw [← toDigits_mul_pow s hspos, hs]

/-! ## Invariants of the loop of the tokenizer -/

/-- A property of the state (`tokens`, `this.buffer`) that every round of the loop keeps
holds of the final state, the returned tokens and the empty buffer. -/
theorem tokenizeLoop_invariant (Inv : List Token × List Char → Prop)
    (hstep : ∀ st st', Inv st → Tokenizer.loopBody st = .ok st' → Inv st') (fuel : Nat) :
    ∀ (st : List Token × List Char) (toks : List Token), Inv st →
      Tokenizer.tokenizeLoop fuel st = .ok toks → Inv (toks, []) := by
  induction fuel with
  | zero =>
    rintro ⟨acc, buf⟩ toks hinv h
    cases buf with
    | nil => rw [tokenizeLoop_nil] at h; cases h; exact hinv
    | cons c cs => simp [Tokenizer.tokenizeLoop] at h
  | succ n ih =>
    rintro ⟨acc, buf⟩ toks hinv h
    cases buf with
    | nil => rw [tokenizeLoop_nil] at h; cases h; exact hinv
    | cons c cs =>
      cases hb : Tokenizer.loopBody (acc, c :: cs) with
      | error e => rw [tokenizeLoop_fail n acc _ (by simp) e hb] at h; cases h
      | ok st' =>
        rw [tokenizeLoop_step n acc _ (by simp) st' hb] at h
        exact ih st' toks (hstep _ _ hinv hb) h

/-- The loop is the iteration of its body: a successful run is a number of rounds that
ends on the empty buffer. -/
theorem tokenizeLoop_rounds (fuel : Nat) :
    ∀ (st : List Token × List Char) (toks : List Token),
      Tokenizer.tokenizeLoop fuel st = .ok toks →
      ∃ n, toks.length = st.1.length + n ∧ Tokenizer.rounds n st = .ok (toks, []) := by
  induction fuel with
  | zero =>
    rintro ⟨acc, buf⟩ toks h
    cases buf with
    | nil => rw [tokenizeLoop_nil] at h; cases h; exact ⟨0, rfl, rfl⟩
    | cons c cs => simp [Tokenizer.tokenizeLoop] at h
  | succ n ih =>
    rintro ⟨acc, buf⟩ toks h
    cases buf with
    | nil => rw [tokenizeLoop_nil] at h; cases h; exact ⟨0, rfl, rfl⟩
    | cons c cs =>
      cases hb : Tokenizer.loopBody (acc, c :: cs) with
      | error e => rw [tokenizeLoop_fail n acc _ (by simp) e hb] at h; cases h
      | ok st' =>
        rw [tokenizeLoop_step n acc _ (by simp) st' hb] at h
        obtain ⟨m, hm, hr⟩ := ih st' toks h
        obtain ⟨tok, rest, _, rfl⟩ := loopBody_ok hb
        refine ⟨m + 1, ?_, ?_⟩
        · simp only [List.length_append, List.length_singleton] at hm
          simp only; omega
        · rw [Tokenizer.rounds, hb]; exact hr

theorem tokenizeOneToken_length_lt {s rest : List Char} {tok : Token}
    (h : Tokenizer.tokenizeOneToken s = .ok (tok, rest)) : rest.length < s.length := by
  obtain ⟨h2, h3, _⟩ := tokenizeOneToken_ok h
  have h4 := List.length_pos.mpr (wellFormed_value_ne_nil h3)
  rw [h2, List.length_append]
  omega

/-- C14. The method `tokenize` terminates on every source: a successful
`tokenizeOneToken` removes at least one character from the buffer, `trim` never
lengthens it, so the loop never needs more rounds than the source has characters (the
counter that starts at the length of the source never runs out), and a returned token
sequence is produced in as many rounds as it has tokens, which are at most as many as
the source has characters. -/
theorem tokenize_terminates :
    (∀ (s rest : List Char) (tok : Token),
      Tokenizer.tokenizeOneToken s = .ok (tok, rest) → rest.length < s.length) ∧
    (∀ s : List Char, (trim s).length ≤ s.length) ∧
    (∀ code : List Char, Tokenizer.tokenize code ≠ .error .outOfFuel) ∧
    (∀ (code : List Char) (toks : List Token), Tokenizer.tokenize code = .ok toks →
      toks.length ≤ code.length ∧ Tokenizer.rounds toks.length ([], code) = .ok (toks, [])) := by
  refine ⟨fun s rest tok h => tokenizeOneToken_length_lt h, trim_length_le,
    tokenize_ne_outOfFuel, ?_⟩
  intro code toks h
  constructor
  · have := tokenizeLoop_invariant
      (fun st => st.1.length + st.2.length ≤ code.length) (by
        rintro ⟨acc, buf⟩ st' hinv hb
        obtain ⟨tok, rest, h1, rfl⟩ := loopBody_ok hb
        have h2 := tokenizeOneToken_length_lt h1
        have h3 := trim_length_le rest
        simp only [List.length_append, List.length_singleton] at hinv ⊢
        omega) code.length ([], code) toks (by simp) h
    simpa using this
  · obtain ⟨n, hn, hr⟩ := tokenizeLoop_rounds _ _ _ h
    simp only [List.length_nil, Nat.zero_add] at hn
    rw [hn]; exact hr

theorem tokenize_terminates_witness :
    Tokenizer.tokenize "def f() 1 end".toList =
      .ok [⟨.def_, "def".toList⟩, ⟨.identifier, "f".toList⟩, ⟨.oparen, "(".toList⟩,
        ⟨.cparen, ")".toList⟩, ⟨.integer, "1".toList⟩, ⟨.end_, "end".toList⟩] ∧
    ([(⟨.def_, "def".toList⟩ : Token), ⟨.identifier, "f".toList⟩, ⟨.oparen, "(".toList⟩,
        ⟨.cparen, ")".toList⟩, ⟨.integer, "1".toList⟩, ⟨.end_, "end".toList⟩].length ≤
      "def f() 1 end".toList.length) :=
  ⟨by decide, (tokenize_terminates.2.2.2 "def f() 1 end".toList _ (by decide)).1⟩

/-- C16. Every token that `tokenize` returns is well formed for its type: a def token
has the text `def`, an end token `end`, an identifier token a non-empty text of ASCII
letters that is neither `def` nor `end`, an integer token a non-empty text of ASCII
digits, and oparen, cparen and comma tokens the texts `(`, `)` and `,`.  So the keyword
rules, tried first, are never shadowed by the identifier rule: on `def` and `end` the
tokens are the keywords. -/
theorem tokenize_wellFormed :
    (∀ (code : List Char) (toks : List Token), Tokenizer.tokenize code = .ok toks →
      ∀ t ∈ toks, t.WellFormed) ∧
    Tokenizer.tokenize "def".toList = .ok [⟨.def_, "def".toList⟩] ∧
    Tokenizer.tokenize "end".toList = .ok [⟨.end_, "end".toList⟩] := by
  refine ⟨?_, by decide, by decide⟩
  intro code toks h
  exact tokenizeLoop_invariant (fun st => ∀ t ∈ st.1, t.WellFormed) (by
    rintro ⟨acc, buf⟩ st' hinv hb
    obtain ⟨tok, rest, h1, rfl⟩ := loopBody_ok hb
    obtain ⟨_, h3, _⟩ := tokenizeOneToken_ok h1
    intro t ht
    rcases List.mem_append.mp ht with ht | ht
    · exact hinv t ht
    · rw [List.mem_singleton.mp ht]; exact h3) code.length ([], code) toks (by simp) h

theorem tokenize_wellFormed_witness :
    Tokenizer.tokenize "def define(x) 12 end".toList =
      .ok [⟨.def_, "def".toList⟩, ⟨.identifier, "define".toList⟩, ⟨.oparen, "(".toList⟩,
        ⟨.identifier, "x".toList⟩, ⟨.cparen, ")".toList⟩, ⟨.integer, "12".toList⟩,
        ⟨.end_, "end".toList⟩] ∧
    (⟨.identifier, "define".toList⟩ : Token).WellFormed :=
  ⟨by decide, tokenize_wellFormed.1 "def define(x) 12 end".toList
    [⟨.def_, "def".toList⟩, ⟨.identifier, "define".toList⟩, ⟨.oparen, "(".toList⟩,
      ⟨.identifier, "x".toList⟩, ⟨.cparen, ")".toList⟩, ⟨.integer, "12".toList⟩,
      ⟨.end_, "end".toList⟩] (by decide) ⟨.identifier, "define".toList⟩ (by decide)⟩

theorem filter_dropWhile_not (p : Char → Bool) (s : List Char) :
    (s.dropWhile p).filter (fun c => !p c) = s.filter (fun c => !p c) := by
  induction s with
  | nil => rfl
  | cons a as ih =>
    by_cases ha : p a = true
    · rw [List.dropWhile_cons_of_pos ha, ih, List.filter_cons_of_neg (by simp [ha])]
    · rw [List.dropWhile_cons_of_neg ha]

/-- Trimming deletes whitespace only. -/
theorem filter_trim (s : List Char) :
    (trim s).filter (fun c => !isWhiteSpace c) = s.filter (fun c => !isWhiteSpace c) := by
  unfold trim
  rw [List.filter_reverse, filter_dropWhile_not, List.filter_reverse, List.reverse_reverse,
    filter_dropWhile_not]

theorem filter_wellFormed_value {tok : Token} (h : tok.WellFormed) :
    tok.value.filter (fun c => !isWhiteSpace c) = tok.value := by
  rw [List.filter_eq_self]
  intro c hc
  simp [tokenChar_not_whiteSpace c (wellFormed_value_chars h c hc)]

/-- C17. The lexer loses and invents no text: when `tokenize` succeeds, the texts of the
returned tokens, concatenated in order with nothing between them, are the source with
its whitespace characters (those that `trim` removes) deleted. -/
theorem tokenize_text_conserved (code : List Char) (toks : List Token)
    (h : Tokenizer.tokenize code = .ok toks) :
    (toks.map Token.value).flatten = code.filter (fun c => !isWhiteSpace c) := by
  have := tokenizeLoop_invariant
    (fun st => (st.1.map Token.value).flatten ++ st.2.filter (fun c => !isWhiteSpace c) =
      code.filter (fun c => !isWhiteSpace c)) (by
      rintro ⟨acc, buf⟩ st' hinv hb
      obtain ⟨tok, rest, h1, rfl⟩ := loopBody_ok hb
      obtain ⟨h2, h3, _⟩ := tokenizeOneToken_ok h1
      simp only at hinv ⊢
      rw [← hinv, h2, List.filter_append, filter_wellFormed_value h3, filter_trim]
      simp) code.length ([], code) toks (by simp) h
  simpa using this

theorem tokenize_text_conserved_witness :
    Tokenizer.tokenize "def f(x,\n  y) add(x, y) end".toList =
      .ok [⟨.def_, "def".toList⟩, ⟨.identifier, "f".toList⟩, ⟨.oparen, "(".toList⟩,
        ⟨.identifier, "x".toList⟩, ⟨.comma, ",".toList⟩, ⟨.identifier, "y".toList⟩,
        ⟨.cparen, ")".toList⟩, ⟨.identifier, "add".toList⟩, ⟨.oparen, "(".toList⟩,
        ⟨.identifier, "x".toList⟩, ⟨.comma, ",".toList⟩, ⟨.identifier, "y".toList⟩,
        ⟨.cparen, ")".toList⟩, ⟨.end_, "end".toList⟩] ∧
    ([(⟨.def_, "def".toList⟩ : Token), ⟨.identifier, "f".toList⟩, ⟨.oparen, "(".toList⟩,
        ⟨.identifier, "x".toList⟩, ⟨.comma, ",".toList⟩, ⟨.identifier, "y".toList⟩,
        ⟨.cparen, ")".toList⟩, ⟨.identifier, "add".toList⟩, ⟨.oparen, "(".toList⟩,
        ⟨.identifier, "x".toList⟩, ⟨.comma, ",".toList⟩, ⟨.identifier, "y".toList⟩,
        ⟨.cparen, ")".toList⟩, ⟨.end_, "end".toList⟩].map Token.value).flatten =
      "def f(x,\n  y) add(x, y) end".toList.filter (fun c => !isWhiteSpace c) :=
  ⟨by decide, tokenize_text_conserved _ _ (by decide)⟩

/-! ## First match and longest match -/

theorem take_all_of_le_takeWhile (cls : Char → Bool) (s : List Char) (j : Nat)
    (hj : j ≤ (s.takeWhile cls).length) : (s.take j).all cls = true := by
  have hs := List.takeWhile_append_dropWhile cls s
  have : s.take j = (s.takeWhile cls).take j := by
    conv_lhs => rw [← hs]
    exact List.take_append_of_le_length hj
  rw [this, List.all_eq_true]
  intro c hc
  exact List.mem_takeWhile_imp (List.mem_of_mem_take hc)

/-- The match that the backtracking search finds is a match. -/
theorem rxAccepts_of_rxMatch : ∀ (ps : List Rx) (prev : Option Char) (s : List Char) (k : Nat),
    rxMatch ps prev s = some k → rxAccepts ps prev s k = true := by
  intro ps
  induction ps with
  | nil =>
    intro prev s k h
    simp only [rxMatch, Option.some.injEq] at h
    subst h; rfl
  | cons p ps ih =>
    intro prev s k h
    cases p with
    | wordBoundary =>
      simp only [rxMatch] at h
      split at h
      · next hb => simp only [rxAccepts, hb, Bool.true_and]; exact ih _ _ _ h
      · cases h
    | lit c =>
      cases s with
      | nil => simp [rxMatch] at h
      | cons x xs =>
        simp only [rxMatch] at h
        split at h
        · next hx =>
          subst hx
          obtain ⟨k', hk', rfl⟩ := Option.map_eq_some'.mp h
          simp only [rxAccepts, beq_self_eq_true, Bool.true_and]
          exact ih _ _ _ hk'
        · cases h
    | plus cls =>
      simp only [rxMatch] at h
      obtain ⟨j, hj, hm⟩ := List.exists_of_findSome?_eq_some h
      obtain ⟨hj1, hj2⟩ := mem_plus_candidates.mp hj
      obtain ⟨k', hk', rfl⟩ := Option.map_eq_some'.mp hm
      simp only [rxAccepts, List.any_eq_true, List.mem_range, Bool.and_eq_true,
        decide_eq_true_eq]
      have hlen : (s.takeWhile cls).length ≤ s.length :=
        (List.takeWhile_sublist cls).length_le
      refine ⟨j - 1, by omega, ⟨by omega, ?_⟩, ?_⟩
      · rw [show j - 1 + 1 = j by omega]
        exact take_all_of_le_takeWhile cls s j hj2
      · rw [show j - 1 + 1 = j by omega, show k' + j - j = k' by omega]
        exact ih _ _ _ hk'

theorem rxAccepts_keyword (a b c : Char) (ha : isWordChar a = true)
    (hb : isWordChar b = true) (hc : isWordChar c = true) (s : List Char) (k : Nat)
    (h : rxAccepts [.wordBoundary, .lit a, .lit b, .lit c, .wordBoundary] none s k = true) :
    s.takeWhile isWordChar = [a, b, c] ∧ k = 3 := by
  rcases s with _ | ⟨x, _ | ⟨y, _ | ⟨z, rest⟩⟩⟩ <;> rcases k with _ | _ | _ | _ | k <;>
    simp only [rxAccepts, Bool.and_eq_true, beq_iff_eq, Bool.false_eq_true, and_false,
      false_and, Nat.add_eq_zero, one_ne_zero] at h
  obtain ⟨_, rfl, rfl, rfl, hbd, _⟩ := h
  refine ⟨?_, rfl⟩
  have hstop : ∀ d, rest.head? = some d → isWordChar d = false := by
    intro d hd
    simp only [atWordBoundary, Option.any_some, hc, hd] at hbd
    simpa using hbd
  exact (takeWhile_append_stop isWordChar [x, y, z] rest (by
    intro d hd
    simp only [List.mem_cons, List.mem_singleton, List.not_mem_nil, or_false] at hd
    rcases hd with rfl | rfl | rfl <;> assumption) hstop).1

theorem rxAccepts_run (cls : Char → Bool) (hcls : ∀ c, cls c = true → isWordChar c = true)
    (s : List Char) (k : Nat)
    (h : rxAccepts [.wordBoundary, .plus cls, .wordBoundary] none s k = true) :
    s.takeWhile isWordChar ≠ [] ∧ (s.takeWhile isWordChar).all cls = true ∧
      k = (s.takeWhile isWordChar).length := by
  simp only [rxAccepts, List.any_eq_true, List.mem_range, Bool.and_eq_true,
    decide_eq_true_eq, beq_iff_eq] at h
  obtain ⟨_, i, hi, ⟨hlen, hall⟩, hbd, hk⟩ := h
  have hk' : k = i + 1 := by omega
  obtain ⟨c, hc, hlast⟩ := lastCharOr_take_append none (s.take (i + 1)) (s.drop (i + 1)) (i + 1)
    (by omega) (by rw [List.length_take]; omega)
  rw [List.take_append_drop] at hlast
  rw [hlast] at hbd
  have hrun : ∀ d ∈ s.take (i + 1), cls d = true := List.all_eq_true.mp hall
  have hcw : isWordChar c = true := hcls c (hrun c hc)
  have hstop : ∀ d, (s.drop (i + 1)).head? = some d → isWordChar d = false := by
    intro d hd
    simp only [atWordBoundary, Option.any_some, hcw, hd] at hbd
    simpa using hbd
  have hw := (takeWhile_append_stop isWordChar (s.take (i + 1)) (s.drop (i + 1))
    (fun d hd => hcls d (hrun d hd)) hstop).1
  rw [List.take_append_drop] at hw
  rw [hw]
  refine ⟨?_, hall, ?_⟩
  · intro h0
    have := congrArg List.length h0
    rw [List.length_take, List.length_nil] at this
    omega
  · rw [List.length_take]; omega

theorem rxAccepts_lit (a : Char) (s : List Char) (k : Nat)
    (h : rxAccepts [.lit a] none s k = true) : s.head? = some a ∧ k = 1 := by
  rcases s with _ | ⟨x, xs⟩ <;> rcases k with _ | _ | k <;> simp [rxAccepts] at h
  simp [h]

/-- For the rules of the table the match is unique: a rule matches a prefix of length
`k` exactly when the search returns `k`. -/
theorem rxMatch_of_rxAccepts (rule : TokenType × List Rx) (hr : rule ∈ TOKEN_TYPES)
    (s : List Char) (k : Nat) (h : rxAccepts rule.2 none s k = true) :
    rxMatch rule.2 none s = some k := by
  simp only [TOKEN_TYPES, List.mem_cons, List.mem_singleton, List.not_mem_nil, or_false] at hr
  rcases hr with rfl | rfl | rfl | rfl | rfl | rfl | rfl
  · obtain ⟨h1, rfl⟩ := rxAccepts_keyword _ _ _ (by decide) (by decide) (by decide) s k h
    rw [rxMatch_keyword_rule _ _ _ (by decide) (by decide) (by decide), if_pos h1]
  · obtain ⟨h1, rfl⟩ := rxAccepts_keyword _ _ _ (by decide) (by decide) (by decide) s k h
    rw [rxMatch_keyword_rule _ _ _ (by decide) (by decide) (by decide), if_pos h1]
  · obtain ⟨h1, h2, rfl⟩ := rxAccepts_run _ isWordChar_of_isAlpha s k h
    rw [rxMatch_run_rule _ isWordChar_of_isAlpha, if_pos ⟨h1, h2⟩]
  · obtain ⟨h1, h2, rfl⟩ := rxAccepts_run _ isWordChar_of_isDigit s k h
    rw [rxMatch_run_rule _ isWordChar_of_isDigit, if_pos ⟨h1, h2⟩]
  · obtain ⟨h1, rfl⟩ := rxAccepts_lit _ s k h
    rw [rxMatch_lit_rule, if_pos h1]
  · obtain ⟨h1, rfl⟩ := rxAccepts_lit _ s k h
    rw [rxMatch_lit_rule, if_pos h1]
  · obtain ⟨h1, rfl⟩ := rxAccepts_lit _ s k h
    rw [rxMatch_lit_rule, if_pos h1]

theorem takeWhile_wordChar_of_head (a : Char) (ha : isWordChar a = false) (s : List Char)
    (h : s.head? = some a) : s.takeWhile isWordChar = [] ∧ 1 ≤ s.length := by
  cases s with
  | nil => cases h
  | cons x xs =>
    simp only [List.head?_cons, Option.some.injEq] at h
    subst h
    simp [List.takeWhile_cons, ha]

/-- All rules of the table that match a text match a prefix of the same length: the
whole run of word characters at its start, or one character if there is none. -/
theorem rule_match_length (rule : TokenType × List Rx) (hr : rule ∈ TOKEN_TYPES)
    (s : List Char) (n : Nat) (h : rxMatch rule.2 none s = some n) :
    n = (if s.takeWhile isWordChar = [] then 1 else (s.takeWhile isWordChar).length) ∧
      n ≤ s.length := by
  have hlen : (s.takeWhile isWordChar).length ≤ s.length :=
    (List.takeWhile_sublist isWordChar).length_le
  simp only [TOKEN_TYPES, List.mem_cons, List.mem_singleton, List.not_mem_nil, or_false] at hr
  rcases hr with rfl | rfl | rfl | rfl | rfl | rfl | rfl
  · rw [rxMatch_keyword_rule _ _ _ (by decide) (by decide) (by decide)] at h
    split at h
    · next hw => cases h; rw [hw] at hlen ⊢; exact ⟨by simp, by simpa using hlen⟩
    · cases h
  · rw [rxMatch_keyword_rule _ _ _ (by decide) (by decide) (by decide)] at h
    split at h
    · next hw => cases h; rw [hw] at hlen ⊢; exact ⟨by simp, by simpa using hlen⟩
    · cases h
  · rw [rxMatch_run_rule _ isWordChar_of_isAlpha] at h
    split at h
    · next hw => cases h; rw [if_neg hw.1]; exact ⟨rfl, hlen⟩
    · cases h
  · rw [rxMatch_run_rule _ isWordChar_of_isDigit] at h
    split at h
    · next hw => cases h; rw [if_neg hw.1]; exact ⟨rfl, hlen⟩
    · cases h
  · rw [rxMatch_lit_rule] at h
    split at h
    · next hw =>
      cases h
      obtain ⟨h1, h2⟩ := takeWhile_wordChar_of_head _ (by decide) s hw
      rw [if_pos h1]; exact ⟨rfl, h2⟩
    · cases h
  · rw [rxMatch_lit_rule] at h
    split at h
    · next hw =>
      cases h
      obtain ⟨h1, h2⟩ := takeWhile_wordChar_of_head _ (by decide) s hw
      rw [if_pos h1]; exact ⟨rfl, h2⟩
    · cases h
  · rw [rxMatch_lit_rule] at h
    split at h
    · next hw =>
      cases h
      obtain ⟨h1, h2⟩ := takeWhile_wordChar_of_head _ (by decide) s hw
      rw [if_pos h1]; exact ⟨rfl, h2⟩
    · cases h

/-- A search from the longest length down finds the one length that can match. -/
theorem findSome?_range_single {α : Type} (f : Nat → Option α) (n0 : Nat)
    (h : ∀ k, k ≠ n0 → f k = none) :
    ∀ L, (List.range (L + 1)).reverse.findSome? f = if n0 ≤ L then f n0 else none := by
  intro L
  induction L with
  | zero =>
    simp only [List.range_succ, List.range_zero, List.nil_append, List.reverse_singleton,
      List.findSome?_cons, List.findSome?_nil, Nat.le_zero]
    by_cases h0 : n0 = 0
    · subst h0; cases f 0 <;> simp
    · rw [h 0 (fun e => h0 e.symm), if_neg h0]
  | succ L ih =>
    rw [List.range_succ, List.reverse_append, List.reverse_singleton, List.singleton_append,
      List.findSome?_cons, ih]
    by_cases h0 : n0 = L + 1
    · subst h0
      cases hf : f (L + 1) with
      | none => simp
      | some v => simp
    · rw [h (L + 1) (fun e => h0 e.symm)]
      simp only
      by_cases h1 : n0 ≤ L
      · rw [if_pos h1, if_pos (by omega)]
      · rw [if_neg h1, if_neg (by omega)]

/-- The first rule that matches, found by the length of its match. -/
theorem tryRules_eq_findSome (s : List Char) (n0 : Nat) :
    ∀ rules : List (TokenType × List Rx),
      (∀ rule ∈ rules, ∀ n, rxMatch rule.2 none s = some n → n = n0) →
      (∀ rule ∈ rules, ∀ k, rxAccepts rule.2 none s k = true ↔ rxMatch rule.2 none s = some k) →
      Tokenizer.tryRules rules s =
        match rules.findSome? (fun rule =>
          if rxAccepts rule.2 none s n0 then some (rule.1, n0) else none) with
        | some (type, n) => .ok (⟨type, s.take n⟩, s.drop n)
        | none => .error (.noMatch s) := by
  intro rules
  induction rules with
  | nil => intro _ _; rfl
  | cons rule rules ih =>
    intro h1 h2
    obtain ⟨type, re⟩ := rule
    rw [Tokenizer.tryRules, List.findSome?_cons]
    cases hm : rxMatch re none s with
    | some n =>
      have hn := h1 (type, re) (List.mem_cons_self _ _) n hm
      subst hn
      have := (h2 (type, re) (List.mem_cons_self _ _) n).mpr hm
      simp only [this, if_true]
    | none =>
      have : rxAccepts re none s n0 = false := by
        cases hacc : rxAccepts re none s n0 with
        | false => rfl
        | true =>
          have := (h2 (type, re) (List.mem_cons_self _ _) n0).mp hacc
          rw [hm] at this; cases this
      simp only [this, Bool.false_eq_true, if_false]
      exact ih (fun r hr => h1 r (List.mem_cons_of_mem _ hr))
        (fun r hr => h2 r (List.mem_cons_of_mem _ hr))

theorem rxAccepts_iff_rxMatch (rule : TokenType × List Rx) (hr : rule ∈ TOKEN_TYPES)
    (s : List Char) (k : Nat) :
    rxAccepts rule.2 none s k = true ↔ rxMatch rule.2 none s = some k :=
  ⟨rxMatch_of_rxAccepts rule hr s k, rxAccepts_of_rxMatch _ _ _ _⟩

/-- One step of the longest-match tokenizer is one step of the code. -/
theorem tokenizeOneTokenLongest_eq (s : List Char) :
    tokenizeOneTokenLongest s = Tokenizer.tokenizeOneToken s := by
  obtain ⟨n0, hn0⟩ : ∃ n0, n0 = (if s.takeWhile isWordChar = [] then 1
      else (s.takeWhile isWordChar).length) := ⟨_, rfl⟩
  have h1 : ∀ rule ∈ TOKEN_TYPES, ∀ n, rxMatch rule.2 none s = some n → n = n0 :=
    fun rule hr n h => hn0 ▸ (rule_match_length rule hr s n h).1
  have h2 : ∀ rule ∈ TOKEN_TYPES, ∀ n, rxMatch rule.2 none s = some n → n ≤ s.length :=
    fun rule hr n h => (rule_match_length rule hr s n h).2
  have hnone : ∀ k, k ≠ n0 →
      (TOKEN_TYPES.findSome? fun rule =>
        if rxAccepts rule.2 none s k then some (rule.1, k) else none) = none := by
    intro k hk
    rw [List.findSome?_eq_none_iff]
    intro rule hr
    split
    · next hacc =>
      exact absurd (h1 rule hr k (rxMatch_of_rxAccepts rule hr s k hacc)) hk
    · rfl
  have hF : longestMatch TOKEN_TYPES s = TOKEN_TYPES.findSome? fun rule =>
      if rxAccepts rule.2 none s n0 then some (rule.1, n0) else none := by
    unfold longestMatch
    rw [findSome?_range_single _ _ hnone]
    by_cases hle : n0 ≤ s.length
    · rw [if_pos hle]
    · rw [if_neg hle]
      symm
      rw [List.findSome?_eq_none_iff]
      intro rule hr
      split
      · next hacc =>
        exact absurd (h2 rule hr n0 (rxMatch_of_rxAccepts rule hr s _ hacc)) hle
      · rfl
  unfold tokenizeOneTokenLongest Tokenizer.tokenizeOneToken
  rw [hF, tryRules_eq_findSome s n0 TOKEN_TYPES h1
    (fun rule hr k => rxAccepts_iff_rxMatch rule hr s k)]

theorem tokenizeLongestLoop_eq (fuel : Nat) : ∀ st : List Token × List Char,
    tokenizeLongestLoop fuel st = Tokenizer.tokenizeLoop fuel st := by
  induction fuel with
  | zero =>
    rintro ⟨acc, buf⟩
    cases buf <;> rfl
  | succ n ih =>
    rintro ⟨acc, buf⟩
    cases buf with
    | nil => rfl
    | cons c cs =>
      rw [tokenizeLongestLoop, Tokenizer.tokenizeLoop, Tokenizer.loopBody,
        tokenizeOneTokenLongest_eq]
      cases Tokenizer.tokenizeOneToken (c :: cs) with
      | error e => rfl
      | ok p => obtain ⟨tok, rest⟩ := p; exact ih _

theorem tryRules_ok : ∀ (rules : List (TokenType × List Rx)) (s rest : List Char) (tok : Token),
    Tokenizer.tryRules rules s = .ok (tok, rest) →
    ∃ rule ∈ rules, ∃ n, rxMatch rule.2 none s = some n ∧ tok = ⟨rule.1, s.take n⟩ := by
  intro rules
  induction rules with
  | nil => intro s rest tok h; cases h
  | cons rule rules ih =>
    intro s rest tok h
    obtain ⟨type, re⟩ := rule
    rw [Tokenizer.tryRules] at h
    cases hm : rxMatch re none s with
    | some n =>
      rw [hm] at h
      simp only [Except.ok.injEq, Prod.mk.injEq] at h
      exact ⟨(type, re), List.mem_cons_self _ _, n, hm, h.1.symm⟩
    | none =>
      rw [hm] at h
      obtain ⟨rule, hr, n, h1, h2⟩ := ih s rest tok h
      exact ⟨rule, List.mem_cons_of_mem _ hr, n, h1, h2⟩

/-- C13. First match is longest match.  At every step the prefix that
`tokenizeOneToken` consumes (the match of the first rule in declaration order that
matches) is a match of the rule of its token and the longest prefix that any rule of the
table matches; so one step of a tokenizer that picks the longest match, breaking ties by
declaration order, is one step of the code, and such a tokenizer returns on every source
the tokens or the failure that `tokenize` returns. -/
theorem tokenize_refines_longest_match :
    (∀ (s rest : List Char) (tok : Token), Tokenizer.tokenizeOneToken s = .ok (tok, rest) →
      (∃ re, (tok.type, re) ∈ TOKEN_TYPES ∧ rxAccepts re none s tok.value.length = true) ∧
      ∀ rule ∈ TOKEN_TYPES, ∀ k, rxAccepts rule.2 none s k = true → k ≤ tok.value.length) ∧
    (∀ s : List Char, tokenizeOneTokenLongest s = Tokenizer.tokenizeOneToken s) ∧
    (∀ code : List Char, tokenizeLongest code = Tokenizer.tokenize code) := by
  refine ⟨?_, tokenizeOneTokenLongest_eq, fun code => tokenizeLongestLoop_eq _ _⟩
  intro s rest tok h
  obtain ⟨rule, hr, n, hm, rfl⟩ := tryRules_ok _ _ _ _ h
  obtain ⟨hn, hle⟩ := rule_match_length rule hr s n hm
  have hlen : (s.take n).length = n := by rw [List.length_take]; omega
  simp only [hlen]
  refine ⟨⟨rule.2, hr, rxAccepts_of_rxMatch _ _ _ _ hm⟩, ?_⟩
  intro rule' hr' k hk
  have := (rule_match_length rule' hr' s k (rxMatch_of_rxAccepts rule' hr' s k hk)).1
  omega

theorem tokenize_refines_longest_match_witness :
    Tokenizer.tokenizeOneToken "define x".toList =
      .ok (⟨.identifier, "define".toList⟩, " x".toList) ∧
    rxAccepts [.wordBoundary, .plus Char.isAlpha, .wordBoundary] none "define x".toList 6 = true ∧
    6 ≤ (⟨.identifier, "define".toList⟩ : Token).value.length :=
  ⟨by decide, by decide,
    (tokenize_refines_longest_match.1 "define x".toList " x".toList
      ⟨.identifier, "define".toList⟩ (by decide)).2
      (.identifier, [.wordBoundary, .plus Char.isAlpha, .wordBoundary])
      (by simp [TOKEN_TYPES]) 6
      (by decide)⟩


/-! ## The parser looks at the tokens it consumes and at most one more -/

theorem agree_append (c r r' : List Token) (h : c = [] → Agree r r') :
    Agree (c ++ r) (c ++ r') := by
  cases c with
  | nil => exact h rfl
  | cons a as => intro t ht; simpa using ht

theorem peek_agree {c r r' : List Token} (t : TokenType) (k : Nat) (hk : k ≤ c.length)
    (ha : Agree r r') (b : Bool) (h : peek (c ++ r) t k = .ok b) :
    peek (c ++ r') t k = .ok b := by
  unfold Parser.peek at h ⊢
  rw [List.get?_eq_getElem?] at h ⊢
  by_cases hlt : k < c.length
  · rw [List.getElem?_append_left hlt] at h ⊢
    exact h
  · have hk' : k = c.length := by omega
    subst hk'
    rw [List.getElem?_append_right (Nat.le_refl _), Nat.sub_self] at h ⊢
    cases r with
    | nil => simp at h
    | cons a as =>
      have := ha a rfl
      cases r' with
      | nil => cases this
      | cons a' as' =>
        simp only [List.head?_cons, Option.some.injEq] at this
        subst this
        simpa using h

theorem frame_pure {α : Type} (ts ts' : List Token) (v : α) :
    Frame ts ts' (pure (v, ts)) (pure (v, ts')) := by
  intro w r h
  simp only [except_pure, Except.ok.injEq, Prod.mk.injEq] at h
  obtain ⟨rfl, rfl⟩ := h
  refine ⟨[], rfl, fun r' hr' _ => ?_⟩
  rw [hr']; rfl

theorem frame_consume (ts ts' : List Token) (t : TokenType) :
    Frame ts ts' (consume ts t) (consume ts' t) := by
  intro tok r h
  obtain ⟨rfl, ht⟩ := consume_eq_ok.mp h
  refine ⟨[tok], rfl, fun r' hr' _ => ?_⟩
  rw [hr']
  exact consume_eq_ok.mpr ⟨rfl, ht⟩

theorem frame_bind {α β : Type} {ts ts' : List Token}
    {x y : Except ParseError (α × List Token)}
    {f g : α × List Token → Except ParseError (β × List Token)}
    (hxy : Frame ts ts' x y)
    (hfg : ∀ v r r', x = .ok (v, r) → Frame r r' (f (v, r)) (g (v, r'))) :
    Frame ts ts' (x >>= f) (y >>= g) := by
  intro w s h
  obtain ⟨⟨v, r⟩, hx, hf⟩ := except_bind_eq_ok.mp h
  obtain ⟨c1, hc1, hy⟩ := hxy v r hx
  obtain ⟨c2, hc2, _⟩ := hfg v r r hx w s hf
  refine ⟨c1 ++ c2, by rw [hc1, hc2, List.append_assoc], fun s' hs' ha => ?_⟩
  have hy' := hy (c2 ++ s') (by rw [hs', List.append_assoc]) (by
    rw [hc2]; exact agree_append _ _ _ fun _ => ha)
  rw [hy', except_bind_ok]
  obtain ⟨c2', hc2', hg⟩ := hfg v r (c2 ++ s') hx w s hf
  have : c2' = c2 := List.append_cancel_right (hc2'.symm.trans hc2)
  subst this
  exact hg s' rfl ha

theorem frame_bindB {β : Type} {ts ts' : List Token} {x y : Except ParseError Bool}
    {f g : Bool → Except ParseError (β × List Token)}
    (hfg : ∀ b, x = .ok b → Frame ts ts' (f b) (g b))
    (hxy : ∀ b v c r r', x = .ok b → f b = .ok (v, r) → ts = c ++ r → ts' = c ++ r' →
      Agree r r' → y = .ok b) :
    Frame ts ts' (x >>= f) (y >>= g) := by
  intro w s h
  obtain ⟨b, hx, hf⟩ := except_bind_eq_ok.mp h
  obtain ⟨c, hc, hg⟩ := hfg b hx w s hf
  refine ⟨c, hc, fun s' hs' ha => ?_⟩
  rw [hxy b w c s s' hx hf hc hs' ha, except_bind_ok]
  exact hg s' hs' ha

theorem frame_peek {β : Type} {ts ts' : List Token} (t : TokenType)
    {f g : Bool → Except ParseError (β × List Token)}
    (hfg : ∀ b, peek ts t 0 = .ok b → Frame ts ts' (f b) (g b)) :
    Frame ts ts' (peek ts t 0 >>= f) (peek ts' t 0 >>= g) := by
  refine frame_bindB hfg ?_
  intro b v c r r' hx _ hc hc' ha
  rw [hc] at hx
  rw [hc']
  exact peek_agree t 0 (Nat.zero_le _) ha b hx

theorem frame_ite {α : Type} {ts ts' : List Token} (c : Prop) [Decidable c]
    {a a' b b' : Except ParseError (α × List Token)}
    (h1 : Frame ts ts' a a') (h2 : Frame ts ts' b b') :
    Frame ts ts' (if c then a else b) (if c then a' else b') := by
  by_cases h : c <;> simp [h, h1, h2]

theorem parseArgNamesLoop_frame : ∀ n acc ts ts',
    Frame ts ts' (parseArgNamesLoop n acc ts) (parseArgNamesLoop n acc ts') := by
  intro n
  induction n with
  | zero => intro acc ts ts' v r h; simp [parseArgNamesLoop] at h
  | succ n ih =>
    intro acc ts ts'
    rw [parseArgNamesLoop, parseArgNamesLoop]
    refine frame_peek _ fun b _ => frame_ite _ ?_ (frame_pure _ _ _)
    refine frame_bind (frame_consume _ _ _) fun tok1 r1 r1' _ => ?_
    refine frame_bind (frame_consume _ _ _) fun tok2 r2 r2' _ => ?_
    exact ih _ _ _

theorem parseArgNames_frame (n : Nat) (ts ts' : List Token) :
    Frame ts ts' (parseArgNames n ts) (parseArgNames n ts') := by
  unfold parseArgNames
  refine frame_bind (frame_consume _ _ _) fun tok1 r1 r1' _ => ?_
  refine frame_peek _ fun b _ => ?_
  dsimp only
  refine frame_ite _ ?_ ?_
  · refine frame_bind (frame_consume _ _ _) fun tok2 r2 r2' _ => ?_
    refine frame_bind (parseArgNamesLoop_frame n _ _ _) fun names r3 r3' _ => ?_
    refine frame_bind (frame_consume _ _ _) fun tok4 r4 r4' _ => ?_
    exact frame_pure _ _ _
  · refine frame_bind (frame_pure _ _ _) fun names r3 r3' _ => ?_
    refine frame_bind (frame_consume _ _ _) fun tok4 r4 r4' _ => ?_
    exact frame_pure _ _ _

theorem parseArgExprsLoop_frame {pe : List Token → Except ParseError (Node × List Token)}
    (hpe : ∀ ts ts', Frame ts ts' (pe ts) (pe ts')) : ∀ n acc ts ts',
    Frame ts ts' (parseArgExprsLoop pe n acc ts) (parseArgExprsLoop pe n acc ts') := by
  intro n
  induction n with
  | zero => intro acc ts ts' v r h; simp [parseArgExprsLoop] at h
  | succ n ih =>
    intro acc ts ts'
    rw [parseArgExprsLoop, parseArgExprsLoop]
    refine frame_peek _ fun b _ => frame_ite _ ?_ (frame_pure _ _ _)
    refine frame_bind (frame_consume _ _ _) fun tok1 r1 r1' _ => ?_
    refine frame_bind (hpe _ _) fun e r2 r2' _ => ?_
    exact ih _ _ _

theorem parseArgExprs_frame {pe : List Token → Except ParseError (Node × List Token)}
    (hpe : ∀ ts ts', Frame ts ts' (pe ts) (pe ts')) (n : Nat) (ts ts' : List Token) :
    Frame ts ts' (parseArgExprs pe n ts) (parseArgExprs pe n ts') := by
  unfold parseArgExprs
  refine frame_bind (frame_consume _ _ _) fun tok1 r1 r1' _ => ?_
  refine frame_peek _ fun b _ => ?_
  dsimp only
  refine frame_ite _ ?_ ?_
  · refine frame_bind (hpe _ _) fun e r2 r2' _ => ?_
    refine frame_bind (parseArgExprsLoop_frame hpe n _ _ _) fun args r3 r3' _ => ?_
    refine frame_bind (frame_consume _ _ _) fun tok4 r4 r4' _ => ?_
    exact frame_pure _ _ _
  · refine frame_bind (frame_pure _ _ _) fun names r3 r3' _ => ?_
    refine frame_bind (frame_consume _ _ _) fun tok4 r4 r4' _ => ?_
    exact frame_pure _ _ _

theorem parseCall_frame {pe : List Token → Except ParseError (Node × List Token)}
    (hpe : ∀ ts ts', Frame ts ts' (pe ts) (pe ts')) (n : Nat) (ts ts' : List Token) :
    Frame ts ts' (parseCall pe n ts) (parseCall pe n ts') := by
  unfold parseCall
  refine frame_bind (frame_consume _ _ _) fun tok1 r1 r1' _ => ?_
  refine frame_bind (parseArgExprs_frame hpe n _ _) fun args r2 r2' _ => ?_
  exact frame_pure _ _ _

/-- A call or a variable reference consumes a token. -/
theorem parseCall_or_parseVarRef_consumes
    {pe : List Token → Except ParseError (Node × List Token)}
    (hpe : ∀ ts ts', Frame ts ts' (pe ts) (pe ts')) (n : Nat) (b : Bool) (ts r : List Token)
    (v : Node) (h : (if b = true then parseCall pe n ts else parseVarRef ts) = .ok (v, r)) :
    r.length < ts.length := by
  cases b with
  | true =>
    simp only [if_true] at h
    unfold parseCall at h
    obtain ⟨⟨tok, r1⟩, h1, h2⟩ := except_bind_eq_ok.mp h
    obtain ⟨rfl, _⟩ := consume_eq_ok.mp h1
    obtain ⟨⟨args, r2⟩, h3, h4⟩ := except_bind_eq_ok.mp h2
    simp only [except_pure, Except.ok.injEq, Prod.mk.injEq] at h4
    obtain ⟨c, hc, _⟩ := parseArgExprs_frame hpe n r1 r1 args r2 h3
    rw [hc, ← h4.2]
    simp only [List.length_cons, List.length_append]
    omega
  | false =>
    simp only [Bool.false_eq_true, if_false] at h
    unfold parseVarRef at h
    obtain ⟨⟨tok, r1⟩, h1, h2⟩ := except_bind_eq_ok.mp h
    obtain ⟨rfl, _⟩ := consume_eq_ok.mp h1
    simp only [except_pure, Except.ok.injEq, Prod.mk.injEq] at h2
    rw [← h2.2]
    simp

theorem parseExpr_frame : ∀ n ts ts', Frame ts ts' (parseExpr n ts) (parseExpr n ts') := by
  intro n
  induction n with
  | zero => intro ts ts' v r h; simp [parseExpr] at h
  | succ n ih =>
    intro ts ts'
    rw [parseExpr, parseExpr]
    refine frame_peek _ fun b _ => frame_ite _ ?_ ?_
    · unfold parseInteger
      exact frame_bind (frame_consume _ _ _) fun tok1 r1 r1' _ => frame_pure _ _ _
    · refine frame_bindB (fun b2 _ => frame_ite _ (parseCall_frame ih _ _ _) ?_) ?_
      · unfold parseVarRef
        exact frame_bind (frame_consume _ _ _) fun tok1 r1 r1' _ => frame_pure _ _ _
      · intro b2 v c r r' hx hf hc hc' ha
        have hlen := parseCall_or_parseVarRef_consumes ih _ b2 ts r v hf
        have hc1 : 1 ≤ c.length := by
          rw [hc, List.length_append] at hlen; omega
        obtain ⟨b1, h1, h3⟩ := except_bind_eq_ok.mp hx
        rw [hc] at h1 h3
        rw [hc', peek_agree _ 0 (Nat.zero_le _) ha b1 h1, except_bind_ok]
        by_cases hb1 : b1 = true
        · simp only [hb1, if_true] at h3 ⊢
          exact peek_agree _ 1 hc1 ha b2 h3
        · simp only [hb1] at h3 ⊢
          exact h3

/-- The frame of `parseDef`: a successful run consumed a prefix of the tokens that ends
with an end token, and on that prefix followed by any tokens it gives the same tree and
leaves those tokens. -/
theorem parseDef_frame (n : Nat) (ts rest : List Token) (tree : Node)
    (h : parseDef n ts = .ok (tree, rest)) :
    ∃ consumed tok, tok.type = .end_ ∧ ts = consumed ++ tok :: rest ∧
      ∀ rest', parseDef n (consumed ++ tok :: rest') = .ok (tree, rest') := by
  unfold parseDef at h
  obtain ⟨⟨t1, ts1⟩, h1, h⟩ := except_bind_eq_ok.mp h
  obtain ⟨⟨t2, ts2⟩, h2, h⟩ := except_bind_eq_ok.mp h
  obtain ⟨⟨names, ts3⟩, h3, h⟩ := except_bind_eq_ok.mp h
  obtain ⟨⟨body, ts4⟩, h4, h⟩ := except_bind_eq_ok.mp h
  obtain ⟨⟨t5, ts5⟩, h5, h⟩ := except_bind_eq_ok.mp h
  simp only [except_pure, Except.ok.injEq, Prod.mk.injEq] at h
  obtain ⟨rfl, rfl⟩ := h
  obtain ⟨rfl, ht1⟩ := consume_eq_ok.mp h1
  obtain ⟨rfl, ht2⟩ := consume_eq_ok.mp h2
  obtain ⟨rfl, ht5⟩ := consume_eq_ok.mp h5
  obtain ⟨c4, rfl, _⟩ := parseExpr_frame n ts3 ts3 body _ h4
  obtain ⟨c3, rfl, _⟩ := parseArgNames_frame n ts2 ts2 names _ h3
  refine ⟨t1 :: t2 :: (c3 ++ c4), t5, ht5, by simp, fun rest' => ?_⟩
  obtain ⟨c3', hc3', hy3⟩ := parseArgNames_frame n _ (c3 ++ (c4 ++ t5 :: rest')) names _ h3
  have e3 : c3' = c3 := List.append_cancel_right hc3'.symm
  subst e3
  have hy3' := hy3 _ rfl (agree_append _ _ _ fun _ => by intro t ht; simpa using ht)
  obtain ⟨c4', hc4', hy4⟩ := parseExpr_frame n _ (c4 ++ t5 :: rest') body _ h4
  have e4 : c4' = c4 := List.append_cancel_right hc4'.symm
  subst e4
  have hy4' := hy4 _ rfl (by intro t ht; simpa using ht)
  unfold parseDef
  simp only [List.cons_append, List.append_assoc, consume_cons, ht1, ht2, ht5, if_true,
    except_bind_ok, hy3', hy4', except_pure]

/-- A run of the parser that leaves tokens: `def f() x end x`. -/
theorem parse_leaves_trailing_tokens :
    parse [⟨.def_, "def".toList⟩, ⟨.identifier, "f".toList⟩, ⟨.oparen, "(".toList⟩,
      ⟨.cparen, ")".toList⟩, ⟨.identifier, "x".toList⟩, ⟨.end_, "end".toList⟩,
      ⟨.identifier, "x".toList⟩] =
    .ok (.DefNode "f".toList [] (.VarRefNode "x".toList), [⟨.identifier, "x".toList⟩]) := by
  decide

/-- C11 (amended). Whenever `parse` succeeds it has consumed the tokens of the
definition, up to and including its closing end token, and no more: the tokens it leaves
in `this.tokens` are those that follow that end token, and the consumed tokens alone
parse to the same tree and leave nothing.  So the token list is empty after a successful
parse exactly when nothing follows the definition. -/
theorem parse_consumes_through_end (ts rest : List Token) (tree : Node)
    (h : parse ts = .ok (tree, rest)) :
    ∃ consumed tok, tok.type = .end_ ∧ ts = consumed ++ tok :: rest ∧
      parse (consumed ++ [tok]) = .ok (tree, []) := by
  obtain ⟨consumed, tok, ht, hts, hf⟩ := parseDef_frame _ ts rest tree h
  exact ⟨consumed, tok, ht, hts, parse_eq_of_parseDef (hf []) (by simp)⟩

theorem parse_consumes_through_end_witness :
    ∃ consumed tok, tok.type = .end_ ∧
      [(⟨.def_, "def".toList⟩ : Token), ⟨.identifier, "f".toList⟩, ⟨.oparen, "(".toList⟩,
        ⟨.cparen, ")".toList⟩, ⟨.identifier, "x".toList⟩, ⟨.end_, "end".toList⟩,
        ⟨.identifier, "x".toList⟩] = consumed ++ tok :: [⟨.identifier, "x".toList⟩] ∧
      parse (consumed ++ [tok]) = .ok (.DefNode "f".toList [] (.VarRefNode "x".toList), []) :=
  parse_consumes_through_end
    [⟨.def_, "def".toList⟩, ⟨.identifier, "f".toList⟩, ⟨.oparen, "(".toList⟩,
      ⟨.cparen, ")".toList⟩, ⟨.identifier, "x".toList⟩, ⟨.end_, "end".toList⟩,
      ⟨.identifier, "x".toList⟩] [⟨.identifier, "x".toList⟩]
    (.DefNode "f".toList [] (.VarRefNode "x".toList)) (by decide)

/-- C12. Tokens after the top-level definition are never inspected: if `parse`
succeeds on the tokens `ts`, then on `ts` followed by any tokens `extra` it succeeds with
the same tree and leaves the tokens it left before, followed by `extra`. -/
theorem parse_append_extra (ts extra rest : List Token) (tree : Node)
    (h : parse ts = .ok (tree, rest)) :
    parse (ts ++ extra) = .ok (tree, rest ++ extra) := by
  obtain ⟨consumed, tok, _, hts, hf⟩ := parseDef_frame _ ts rest tree h
  have := hf (rest ++ extra)
  rw [hts, List.append_assoc, List.cons_append]
  exact parse_eq_of_parseDef this (by simp)

theorem parse_append_extra_witness :
    parse [⟨.def_, "def".toList⟩, ⟨.identifier, "f".toList⟩, ⟨.oparen, "(".toList⟩,
      ⟨.cparen, ")".toList⟩, ⟨.identifier, "x".toList⟩, ⟨.end_, "end".toList⟩] =
      .ok (.DefNode "f".toList [] (.VarRefNode "x".toList), []) ∧
    parse ([⟨.def_, "def".toList⟩, ⟨.identifier, "f".toList⟩, ⟨.oparen, "(".toList⟩,
      ⟨.cparen, ")".toList⟩, ⟨.identifier, "x".toList⟩, ⟨.end_, "end".toList⟩] ++
      [⟨.oparen, "(".toList⟩, ⟨.integer, "1".toList⟩]) =
      .ok (.DefNode "f".toList [] (.VarRefNode "x".toList),
        [] ++ [⟨.oparen, "(".toList⟩, ⟨.integer, "1".toList⟩]) :=
  ⟨by decide, parse_append_extra
    [⟨.def_, "def".toList⟩, ⟨.identifier, "f".toList⟩, ⟨.oparen, "(".toList⟩,
      ⟨.cparen, ")".toList⟩, ⟨.identifier, "x".toList⟩, ⟨.end_, "end".toList⟩]
    [⟨.oparen, "(".toList⟩, ⟨.integer, "1".toList⟩] []
    (.DefNode "f".toList [] (.VarRefNode "x".toList)) (by decide)⟩

/-! ## Word tokens and maximal runs of word characters -/

theorem wellFormed_word {tok : Token} (h : tok.WellFormed) (hw : tok.type.isWord = true) :
    tok.value ≠ [] ∧
      (tok.value.all Char.isAlpha = true ∨ tok.value.all Char.isDigit = true) := by
  obtain ⟨type, value⟩ := tok
  unfold Token.WellFormed at h
  cases type <;> simp only at h
  · subst h; exact ⟨by decide, Or.inl (by decide)⟩
  · subst h; exact ⟨by decide, Or.inl (by decide)⟩
  · exact ⟨h.1, Or.inl h.2.1⟩
  · exact ⟨h.1, Or.inr h.2⟩
  · cases hw
  · cases hw
  · cases hw

theorem wellFormed_word_chars {tok : Token} (h : tok.WellFormed)
    (hw : tok.type.isWord = true) : ∀ c ∈ tok.value, isWordChar c = true := by
  intro c hc
  rcases (wellFormed_word h hw).2 with h1 | h1
  · exact isWordChar_of_isAlpha c (List.all_eq_true.mp h1 c hc)
  · exact isWordChar_of_isDigit c (List.all_eq_true.mp h1 c hc)

theorem wellFormed_punct {tok : Token} (h : tok.WellFormed) (hw : tok.type.isWord = false) :
    ∃ c, tok.value = [c] ∧ isWordChar c = false := by
  obtain ⟨type, value⟩ := tok
  unfold Token.WellFormed at h
  cases type <;> simp only at h
  · cases hw
  · cases hw
  · cases hw
  · cases hw
  · exact ⟨'(', h, by decide⟩
  · exact ⟨')', h, by decide⟩
  · exact ⟨',', h, by decide⟩

theorem isWord_of_not_punct {t : TokenType} (h1 : t ≠ .oparen) (h2 : t ≠ .cparen)
    (h3 : t ≠ .comma) : t.isWord = true := by
  cases t <;> first | rfl | contradiction

/-- A word token is the whole run of word characters at the start of the text. -/
theorem tokenizeOneToken_word {s rest : List Char} {tok : Token}
    (h : Tokenizer.tokenizeOneToken s = .ok (tok, rest)) (hw : tok.type.isWord = true) :
    tok.value = s.takeWhile isWordChar ∧ rest.head?.any isWordChar = false := by
  obtain ⟨hs, hwf, hb⟩ := tokenizeOneToken_ok h
  have hrest : rest.head?.any isWordChar = false := by
    rcases hb with hb | hb | hb | hb
    · rw [hb] at hw; cases hw
    · rw [hb] at hw; cases hw
    · rw [hb] at hw; cases hw
    · exact hb
  refine ⟨?_, hrest⟩
  have := (takeWhile_append_stop isWordChar tok.value rest (wellFormed_word_chars hwf hw)
    (fun c hc => by rw [hc] at hrest; simpa using hrest)).1
  rw [hs, this]

/-- Trimming removes whitespace at the two ends. -/
theorem trim_decomp (s : List Char) :
    ∃ l r, s = l ++ trim s ++ r ∧ (∀ c ∈ l, isWhiteSpace c = true) ∧
      (∀ c ∈ r, isWhiteSpace c = true) := by
  refine ⟨s.takeWhile isWhiteSpace,
    ((s.dropWhile isWhiteSpace).reverse.takeWhile isWhiteSpace).reverse, ?_,
    fun c hc => List.mem_takeWhile_imp hc,
    fun c hc => List.mem_takeWhile_imp (List.mem_reverse.mp hc)⟩
  unfold trim
  rw [List.append_assoc, ← List.reverse_append, List.takeWhile_append_dropWhile,
    List.reverse_reverse, List.takeWhile_append_dropWhile]

theorem head?_any_of_all_whiteSpace (s : List Char) (h : ∀ c ∈ s, isWhiteSpace c = true) :
    s.head?.any isWordChar = false := by
  cases s with
  | nil => rfl
  | cons a as => simpa using whiteSpace_not_wordChar a (h a (List.mem_cons_self _ _))

theorem getLast?_any_append (p : Char → Bool) (a b : List Char) (hb : b ≠ [])
    (h : b.getLast?.any p = false) : (a ++ b).getLast?.any p = false := by
  rw [List.getLast?_append]
  cases hl : b.getLast? with
  | none => exact absurd (List.getLast?_eq_none_iff.mp hl) hb
  | some c => rw [hl] at h; simpa using h

theorem head?_any_append (p : Char → Bool) (a b : List Char)
    (ha : a.head?.any p = false) (hb : a = [] → b.head?.any p = false) :
    (a ++ b).head?.any p = false := by
  cases a with
  | nil => exact hb rfl
  | cons x xs => simpa using ha

theorem getLast?_any_of_all (p : Char → Bool) (s : List Char) (h : ∀ c ∈ s, p c = false) :
    s.getLast?.any p = false := by
  cases hl : s.getLast? with
  | none => rfl
  | some c =>
    obtain ⟨ys, rfl⟩ := List.getLast?_eq_some_iff.mp hl
    simpa using h c (by simp)

/-- The positions of the tokens: the state of the loop of `tokenize` on the source
`code`.  The buffer is a part of the source that is followed only by whitespace, the
text before it is the text of the tokens, up to whitespace, and does not end inside a
run of word characters that the buffer continues, and every word token pushed so far is
a whole maximal run of word characters of the source. -/
theorem tokenizeLoop_positions (code : List Char) (fuel : Nat) (toks : List Token)
    (h : Tokenizer.tokenizeLoop fuel ([], code) = .ok toks) :
    ∀ before tok after, toks = before ++ tok :: after → tok.type.isWord = true →
      ∃ pre suf, code = pre ++ tok.value ++ suf ∧
        pre.filter (fun c => !isWhiteSpace c) = (before.map Token.value).flatten ∧
        pre.getLast?.any isWordChar = false ∧ suf.head?.any isWordChar = false := by
  have key := tokenizeLoop_invariant (fun st =>
    (∃ pre tail, code = pre ++ st.2 ++ tail ∧ (∀ c ∈ tail, isWhiteSpace c = true) ∧
      (pre.getLast?.any isWordChar = false ∨ st.2.head?.any isWordChar = false) ∧
      pre.filter (fun c => !isWhiteSpace c) = (st.1.map Token.value).flatten) ∧
    ∀ before tok after, st.1 = before ++ tok :: after → tok.type.isWord = true →
      ∃ pre suf, code = pre ++ tok.value ++ suf ∧
        pre.filter (fun c => !isWhiteSpace c) = (before.map Token.value).flatten ∧
        pre.getLast?.any isWordChar = false ∧ suf.head?.any isWordChar = false) (by
    rintro ⟨acc, buf⟩ st' ⟨⟨pre, tail, hcode, htail, hbnd, hfil⟩, hP⟩ hb
    obtain ⟨tok, rest, h1, rfl⟩ := loopBody_ok hb
    obtain ⟨hs, hwf, hpun⟩ := tokenizeOneToken_ok h1
    obtain ⟨l, r, hlr, hl, hr⟩ := trim_decomp rest
    have hvne := wellFormed_value_ne_nil hwf
    simp only at hcode hbnd hfil hP ⊢
    refine ⟨⟨pre ++ tok.value ++ l, r ++ tail, ?_, ?_, ?_, ?_⟩, ?_⟩
    · rw [hcode, hs]
      conv_lhs => rw [hlr]
      simp only [List.append_assoc]
    · intro c hc
      rcases List.mem_append.mp hc with hc | hc
      · exact hr c hc
      · exact htail c hc
    · by_cases hl0 : l = []
      · subst hl0
        rw [List.append_nil]
        by_cases hw : tok.type.isWord = true
        · right
          have hrh := (tokenizeOneToken_word h1 hw).2
          rw [List.nil_append] at hlr
          cases ht : trim rest with
          | nil => rfl
          | cons a as =>
            rw [hlr, ht] at hrh
            simpa using hrh
        · left
          obtain ⟨c, hc, hcw⟩ := wellFormed_punct hwf (by simpa using hw)
          rw [hc]
          exact getLast?_any_append _ _ _ (by simp) (by simpa using hcw)
      · left
        exact getLast?_any_append _ _ _ hl0
          (getLast?_any_of_all _ _ fun c hc => whiteSpace_not_wordChar c (hl c hc))
    · rw [List.filter_append, List.filter_append, hfil, filter_wellFormed_value hwf,
        List.filter_eq_nil_iff.mpr (fun c hc => by simp [hl c hc])]
      simp
    · intro before t after hsplit hw
      rcases List.eq_nil_or_concat after with rfl | ⟨after', x, rfl⟩
      · obtain ⟨rfl, hx⟩ := List.append_inj' hsplit rfl
        simp only [List.cons.injEq, and_true] at hx
        subst hx
        refine ⟨pre, rest ++ tail, ?_, hfil, ?_, ?_⟩
        · rw [hcode, hs]; simp only [List.append_assoc]
        · rcases hbnd with hbnd | hbnd
          · exact hbnd
          · exfalso
            rw [hs] at hbnd
            cases hv : tok.value with
            | nil => exact hvne hv
            | cons a as =>
              have := wellFormed_word_chars hwf hw a (by rw [hv]; exact List.mem_cons_self _ _)
              rw [hv] at hbnd
              simp [this] at hbnd
        · exact head?_any_append _ _ _ (tokenizeOneToken_word h1 hw).2
            (fun _ => head?_any_of_all_whiteSpace _ htail)
      · rw [List.concat_eq_append, ← List.cons_append, ← List.append_assoc] at hsplit
        obtain ⟨hacc, _⟩ := List.append_inj' hsplit rfl
        exact hP before t after' hacc hw)
    fuel ([], code) toks ⟨⟨[], [], by simp, by simp, Or.inl rfl, rfl⟩, by
      intro before tok after h; simp at h⟩ h
  exact key.2

theorem dropWhile_append_stop (p : Char → Bool) (q rest : List Char)
    (h : ∀ c, rest.head? = some c → p c = false) (hne : rest ≠ []) :
    (q ++ rest).dropWhile p = q.dropWhile p ++ rest := by
  induction q with
  | nil =>
    cases rest with
    | nil => exact absurd rfl hne
    | cons a as => simp [List.dropWhile_cons, h a rfl]
  | cons x xs ih =>
    by_cases hx : p x = true
    · simp only [List.cons_append, List.dropWhile_cons, hx, if_true]; exact ih
    · simp only [List.cons_append, List.dropWhile_cons, hx, Bool.false_eq_true, if_false]

/-- Trimming around a text without whitespace. -/
theorem trim_middle (q run s : List Char) (hne : run ≠ [])
    (hrun : ∀ c ∈ run, isWhiteSpace c = false) :
    trim (q ++ run ++ s) =
      q.dropWhile isWhiteSpace ++ run ++ (s.reverse.dropWhile isWhiteSpace).reverse := by
  unfold trim
  rw [List.append_assoc, dropWhile_append_stop isWhiteSpace q (run ++ s) (by
      intro c hc
      cases run with
      | nil => exact absurd rfl hne
      | cons a as =>
        simp only [List.cons_append, List.head?_cons, Option.some.injEq] at hc
        subst hc; exact hrun _ (List.mem_cons_self _ _)) (by simp [hne]),
    ← List.append_assoc, List.reverse_append, List.reverse_append,
    dropWhile_append_stop isWhiteSpace s.reverse (run.reverse ++ (q.dropWhile isWhiteSpace).reverse)
      (by
        intro c hc
        have hr : run.reverse ≠ [] := by simpa using hne
        cases hrr : run.reverse with
        | nil => exact absurd hrr hr
        | cons a as =>
          rw [hrr] at hc
          simp only [List.cons_append, List.head?_cons, Option.some.injEq] at hc
          subst hc
          exact hrun _ (List.mem_reverse.mp (by rw [hrr]; exact List.mem_cons_self _ _)))
      (by simp [hne])]
  simp only [List.reverse_append, List.reverse_reverse, List.append_assoc]

theorem getLast?_any_dropWhile (p f : Char → Bool) (q : List Char)
    (h : q.getLast?.any f = false) : (q.dropWhile p).getLast?.any f = false := by
  cases hl : (q.dropWhile p).getLast? with
  | none => rfl
  | some z =>
    have := List.takeWhile_append_dropWhile p q
    rw [← this, List.getLast?_append, hl] at h
    simpa using h

theorem head?_any_dropLast (p f : Char → Bool) (s : List Char)
    (h : s.head?.any f = false) :
    ((s.reverse.dropWhile p).reverse).head?.any f = false := by
  rw [List.head?_reverse]
  have := getLast?_any_dropWhile p f s.reverse (by rw [List.getLast?_reverse]; exact h)
  exact this

/-- A maximal run of word characters that no single rule matches stays in the buffer:
the loop cannot get past it. -/
theorem tokenizeLoop_stuck_at_run (run : List Char) (hne : run ≠ [])
    (hword : ∀ c ∈ run, isWordChar c = true)
    (hbad : run.all Char.isAlpha = false ∧ run.all Char.isDigit = false)
    (fuel : Nat) (acc : List Token) (pre suf : List Char)
    (hpre : pre.getLast?.any isWordChar = false) (hsuf : suf.head?.any isWordChar = false)
    (toks : List Token) :
    Tokenizer.tokenizeLoop fuel (acc, pre ++ run ++ suf) ≠ .ok toks := by
  intro h
  have key := tokenizeLoop_invariant (fun st =>
    ∃ p s, st.2 = p ++ run ++ s ∧ p.getLast?.any isWordChar = false ∧
      s.head?.any isWordChar = false) (by
    rintro ⟨acc, buf⟩ st' ⟨p, s, hbuf, hp, hs⟩ hb
    obtain ⟨tok, rest, h1, rfl⟩ := loopBody_ok hb
    obtain ⟨hsplit, hwf, _⟩ := tokenizeOneToken_ok h1
    simp only at hbuf ⊢
    subst hbuf
    have hrun_ws : ∀ c ∈ run, isWhiteSpace c = false := by
      intro c hc
      cases hws : isWhiteSpace c with
      | false => rfl
      | true => have := whiteSpace_not_wordChar c hws; rw [hword c hc] at this; cases this
    -- the token lies within `p`
    have hin : ∃ q, p = tok.value ++ q := by
      by_cases hw : tok.type.isWord = true
      · have hv := (tokenizeOneToken_word h1 hw).1
        cases hlast : p.getLast? with
        | none =>
          exfalso
          have hp0 := List.getLast?_eq_none_iff.mp hlast
          subst hp0
          rw [List.nil_append, (takeWhile_append_stop isWordChar run s hword
            (fun c hc => by rw [hc] at hs; simpa using hs)).1] at hv
          rcases (wellFormed_word hwf hw).2 with h2 | h2
          · rw [hv, hbad.1] at h2; cases h2
          · rw [hv, hbad.2] at h2; cases h2
        | some z =>
          obtain ⟨p', rfl⟩ := List.getLast?_eq_some_iff.mp hlast
          have hz : isWordChar z = false := by
            rw [List.getLast?_concat] at hp; simpa using hp
          have hpref : tok.value <+: (p' ++ [z]) ++ (run ++ s) := by
            rw [hv, ← List.append_assoc]; exact List.takeWhile_prefix _
          have hlen : tok.value.length ≤ (p' ++ [z]).length := by
            by_contra hgt
            have hpp : (p' ++ [z]) <+: tok.value :=
              List.prefix_of_prefix_length_le (List.prefix_append _ _) hpref (by omega)
            have hzin : z ∈ tok.value := hpp.subset (by simp)
            rw [wellFormed_word_chars hwf hw z hzin] at hz
            cases hz
          obtain ⟨q, hq⟩ := List.prefix_of_prefix_length_le hpref (List.prefix_append _ _) hlen
          exact ⟨q, hq.symm⟩
      · obtain ⟨c, hc, hcw⟩ := wellFormed_punct hwf (by simpa using hw)
        cases p with
        | nil =>
          exfalso
          cases run with
          | nil => exact hne rfl
          | cons a as =>
            rw [hc] at hsplit
            simp only [List.nil_append, List.cons_append, List.singleton_append,
              List.cons.injEq] at hsplit
            rw [← hsplit.1, hword a (List.mem_cons_self _ _)] at hcw
            cases hcw
        | cons a p' =>
          rw [hc] at hsplit ⊢
          simp only [List.cons_append, List.singleton_append, List.cons.injEq] at hsplit
          exact ⟨p', by rw [hsplit.1]; rfl⟩
    obtain ⟨q, rfl⟩ := hin
    have hrest : rest = q ++ run ++ s := by
      simp only [List.append_assoc] at hsplit
      simpa [List.append_assoc] using (List.append_cancel_left hsplit).symm
    have hq : q.getLast?.any isWordChar = false := by
      cases hl : q.getLast? with
      | none => rfl
      | some z =>
        rw [List.getLast?_append, hl] at hp
        simpa using hp
    subst hrest
    exact ⟨_, _, trim_middle q run s hne hrun_ws, getLast?_any_dropWhile _ _ _ hq,
      head?_any_dropLast _ _ _ hs⟩) fuel (acc, pre ++ run ++ suf) toks ⟨pre, suf, rfl, hpre, hsuf⟩ h
  obtain ⟨p, s, hps, _⟩ := key
  cases p <;> cases run <;> simp at hps hne

/-- C18. Word tokens cover whole maximal runs of word characters.  In a successful
tokenization every `def`, `end`, identifier or integer token lies in the source at the
place that the texts of the tokens before it fix, consists of word characters, and has
no word character right before it or right after it.  Hence a source in which a maximal
run of word characters mixes letters with digits or contains an underscore makes
`tokenize` fail with the error of `tokenizeOneToken`; so do `x1`, `2x` and `add_two`. -/
theorem tokenize_word_tokens_maximal :
    (∀ (code : List Char) (toks : List Token), Tokenizer.tokenize code = .ok toks →
      ∀ before tok after, toks = before ++ tok :: after → tok.type.isWord = true →
        ∃ pre suf, code = pre ++ tok.value ++ suf ∧
          pre.filter (fun c => !isWhiteSpace c) = (before.map Token.value).flatten ∧
          tok.value ≠ [] ∧ (∀ c ∈ tok.value, isWordChar c = true) ∧
          pre.getLast?.any isWordChar = false ∧ suf.head?.any isWordChar = false) ∧
    (∀ (pre run suf : List Char), run ≠ [] → (∀ c ∈ run, isWordChar c = true) →
      pre.getLast?.any isWordChar = false → suf.head?.any isWordChar = false →
      ((∃ c ∈ run, c.isAlpha = true) ∧ (∃ c ∈ run, c.isDigit = true)) ∨ '_' ∈ run →
      ∃ buffer, Tokenizer.tokenize (pre ++ run ++ suf) = .error (.noMatch buffer)) ∧
    Tokenizer.tokenize "x1".toList = .error (.noMatch "x1".toList) ∧
    Tokenizer.tokenize "2x".toList = .error (.noMatch "2x".toList) ∧
    Tokenizer.tokenize "add_two".toList = .error (.noMatch "add_two".toList) := by
  refine ⟨?_, ?_, by decide, by decide, by decide⟩
  · intro code toks h before tok after hsplit hw
    obtain ⟨pre, suf, h1, h2, h3, h4⟩ :=
      tokenizeLoop_positions code _ toks h before tok after hsplit hw
    have hwf : tok.WellFormed := by
      have := tokenizeLoop_invariant (fun st => ∀ t ∈ st.1, t.WellFormed) (by
        rintro ⟨acc, buf⟩ st' hinv hb
        obtain ⟨tok, rest, h1, rfl⟩ := loopBody_ok hb
        obtain ⟨_, h3, _⟩ := tokenizeOneToken_ok h1
        intro t ht
        rcases List.mem_append.mp ht with ht | ht
        · exact hinv t ht
        · rw [List.mem_singleton.mp ht]; exact h3) code.length ([], code) toks (by simp) h
      exact this tok (by rw [hsplit]; simp)
    exact ⟨pre, suf, h1, h2, (wellFormed_word hwf hw).1, wellFormed_word_chars hwf hw, h3, h4⟩
  · intro pre run suf hne hword hpre hsuf hbad
    have hbad' : run.all Char.isAlpha = false ∧ run.all Char.isDigit = false := by
      rcases hbad with ⟨⟨a, ha, haa⟩, ⟨d, hd, hdd⟩⟩ | hu
      · constructor
        · cases hall : run.all Char.isAlpha with
          | false => rfl
          | true =>
            have := List.all_eq_true.mp hall d hd
            rw [isAlpha_not_isDigit d this] at hdd; cases hdd
        · cases hall : run.all Char.isDigit with
          | false => rfl
          | true =>
            have := List.all_eq_true.mp hall a ha
            rw [isAlpha_not_isDigit a haa] at this; cases this
      · constructor
        · cases hall : run.all Char.isAlpha with
          | false => rfl
          | true => exact absurd (List.all_eq_true.mp hall _ hu) (by decide)
        · cases hall : run.all Char.isDigit with
          | false => rfl
          | true => exact absurd (List.all_eq_true.mp hall _ hu) (by decide)
    cases hres : Tokenizer.tokenize (pre ++ run ++ suf) with
    | ok toks =>
      exact absurd hres (tokenizeLoop_stuck_at_run run hne hword hbad' _ [] pre suf hpre hsuf toks)
    | error e =>
      cases e with
      | noMatch b => exact ⟨b, rfl⟩
      | outOfFuel => exact absurd hres (tokenize_ne_outOfFuel _)

theorem tokenize_word_tokens_maximal_witness :
    Tokenizer.tokenize "def f() x end".toList =
      .ok ([⟨.def_, "def".toList⟩, ⟨.identifier, "f".toList⟩, ⟨.oparen, "(".toList⟩,
        ⟨.cparen, ")".toList⟩] ++ ⟨.identifier, "x".toList⟩ :: [⟨.end_, "end".toList⟩]) ∧
    (∃ pre suf, "def f() x end".toList = pre ++ "x".toList ++ suf ∧
      pre.filter (fun c => !isWhiteSpace c) = "deff()".toList ∧
      pre.getLast?.any isWordChar = false ∧ suf.head?.any isWordChar = false) ∧
    (∃ buffer, Tokenizer.tokenize ("def f() ".toList ++ "x1".toList ++ " end".toList) =
      .error (.noMatch buffer)) := by
  refine ⟨by decide, ?_, ?_⟩
  · obtain ⟨pre, suf, h1, h2, _, _, h3, h4⟩ :=
      tokenize_word_tokens_maximal.1 "def f() x end".toList
        ([⟨.def_, "def".toList⟩, ⟨.identifier, "f".toList⟩, ⟨.oparen, "(".toList⟩,
          ⟨.cparen, ")".toList⟩] ++ ⟨.identifier, "x".toList⟩ :: [⟨.end_, "end".toList⟩])
        (by decide)
        [⟨.def_, "def".toList⟩, ⟨.identifier, "f".toList⟩, ⟨.oparen, "(".toList⟩,
          ⟨.cparen, ")".toList⟩] ⟨.identifier, "x".toList⟩ [⟨.end_, "end".toList⟩] rfl rfl
    exact ⟨pre, suf, h1, h2, h3, h4⟩
  · exact tokenize_word_tokens_maximal.2.1 "def f() ".toList "x1".toList " end".toList
      (by decide) (by decide) (by decide) (by decide)
      (Or.inl ⟨⟨'x', by decide, by decide⟩, ⟨'1', by decide, by decide⟩⟩)

/-! ## The text of an integer double below `10 ^ 21` -/

theorem Number_toDigits_eq (m : Nat) : Number (Nat.toDigits 10 m) = roundToDouble m := by
  obtain ⟨h1, h2⟩ := toDigits_spec m
  unfold Number
  rw [if_pos h1, h2]

theorem toDigits_ne_nil (m : Nat) : Nat.toDigits 10 m ≠ [] := by
  intro h
  have := (lt_pow_length_toDigits m m (Nat.le_refl _)).1
  rw [h] at this
  by_cases h0 : m = 0
  · subst h0; revert h; decide
  · simp at this; omega

/-- The digits that `decimalCandidate` returns round to the number. -/
theorem decimalCandidate_spec (x n0 i k s : Nat) (h : decimalCandidate x n0 i = some (k, s)) :
    k = i + 1 ∧ roundToDouble (s * 10 ^ (n0 - k)) = .nat x := by
  unfold decimalCandidate at h
  simp only at h
  split at h
  · next hboth =>
    simp only [Bool.and_eq_true, decide_eq_true_eq] at hboth
    split at h
    · simp only [Option.some.injEq, Prod.mk.injEq] at h
      obtain ⟨rfl, rfl⟩ := h
      exact ⟨rfl, hboth.1⟩
    · simp only [Option.some.injEq, Prod.mk.injEq] at h
      obtain ⟨rfl, rfl⟩ := h
      exact ⟨rfl, hboth.2.2⟩
  · split at h
    · next hlo =>
      simp only [decide_eq_true_eq] at hlo
      simp only [Option.some.injEq, Prod.mk.injEq] at h
      obtain ⟨rfl, rfl⟩ := h
      exact ⟨rfl, hlo⟩
    · split at h
      · next hhi =>
        simp only [decide_eq_true_eq] at hhi
        simp only [Option.some.injEq, Prod.mk.injEq] at h
        obtain ⟨rfl, rfl⟩ := h
        exact ⟨rfl, hhi.2⟩
      · cases h

/-- The decimal that `Number::toString` chooses for an integer double rounds to it. -/
theorem shortestDecimal_spec (x : Nat) (hd : isDouble x) (h0 : 0 < x) :
    ∃ n k s, shortestDecimal x = (n, k, s) ∧ 0 < s ∧
      roundToDouble (s * 10 ^ (n - k)) = .nat x ∧
      (n = (Nat.toDigits 10 x).length ∨
        (n = (Nat.toDigits 10 x).length + 1 ∧
          roundToDouble (10 ^ (Nat.toDigits 10 x).length) = .nat x)) := by
  have hpos : ∀ s p, roundToDouble (s * p) = .nat x → 0 < s := by
    intro s p h
    rcases Nat.eq_zero_or_pos s with hs | hs
    · subst hs
      rw [Nat.zero_mul] at h
      have : roundToDouble 0 = .nat 0 := by decide
      rw [this] at h
      have := JSNumber.nat.inj h
      omega
    · exact hs
  unfold shortestDecimal
  simp only
  split
  · next hA =>
    refine ⟨_, _, _, rfl, by decide, ?_, Or.inr ⟨rfl, hA⟩⟩
    rw [Nat.one_mul, Nat.add_sub_cancel]
    exact hA
  · cases hfound : List.findSome? (decimalCandidate x (Nat.toDigits 10 x).length)
        (List.range (Nat.toDigits 10 x).length) with
    | none =>
      refine ⟨_, _, _, rfl, h0, ?_, Or.inl rfl⟩
      rw [Nat.sub_self, Nat.pow_zero, Nat.mul_one]
      exact roundToDouble_of_isDouble x hd
    | some ks =>
      obtain ⟨k, s⟩ := ks
      obtain ⟨i, _, hi⟩ := List.exists_of_findSome?_eq_some hfound
      obtain ⟨_, hr⟩ := decimalCandidate_spec _ _ _ _ _ hi
      exact ⟨_, _, _, rfl, hpos _ _ hr, hr, Or.inl rfl⟩

/-- The text of an integer double below `10 ^ 21` is a run of digits that `Number`
reads back as the double. -/
theorem numberToString_spec (x : Nat) (hd : isDouble x) (hlt : x < 10 ^ 21) :
    numberToString (.nat x) ≠ [] ∧ (numberToString (.nat x)).all Char.isDigit = true ∧
      Number (numberToString (.nat x)) = .nat x := by
  by_cases h0 : x = 0
  · subst h0; decide
  · obtain ⟨n, k, s, hsd, hs, hr, hn⟩ := shortestDecimal_spec x hd (by omega)
    obtain ⟨_, hlb⟩ := lt_pow_length_toDigits x x (Nat.le_refl _)
    have hlb' := hlb (by omega)
    have hn0 : (Nat.toDigits 10 x).length ≤ 21 := by
      by_contra hc
      have : 10 ^ 21 ≤ 10 ^ ((Nat.toDigits 10 x).length - 1) :=
        Nat.pow_le_pow_right (by decide) (by omega)
      omega
    have hn21 : n ≤ 21 := by
      rcases hn with hn | ⟨hn, hA⟩
      · omega
      · by_contra hc
        have h21 : (Nat.toDigits 10 x).length = 21 := by omega
        rw [h21] at hA
        have : roundToDouble (10 ^ 21) = .nat (10 ^ 21) := by decide
        rw [this] at hA
        have := JSNumber.nat.inj hA
        omega
    have htext : numberToString (.nat x) = Nat.toDigits 10 (s * 10 ^ (n - k)) := by
      simp only [numberToString]
      rw [if_neg h0, hsd]
      simp only
      rw [if_pos hn21, toDigits_mul_pow s hs]
    rw [htext]
    exact ⟨toDigits_ne_nil _, (toDigits_spec _).1, by rw [Number_toDigits_eq, hr]⟩

/-! ## Parsing the tokens of generated text -/

theorem generatedTokens_head (e : Node) (h : e.isSourceExpr = true) :
    ∃ tok tl, generatedTokens e = tok :: tl ∧
      (tok.type = .integer ∨ tok.type = .identifier) := by
  cases e with
  | DefNode n a b => simp [Node.isSourceExpr] at h
  | IntegerNode v => exact ⟨_, _, by rw [generatedTokens], Or.inl rfl⟩
  | CallNode n a => exact ⟨_, _, by rw [generatedTokens], Or.inr rfl⟩
  | VarRefNode v => exact ⟨_, _, by rw [generatedTokens], Or.inr rfl⟩

theorem generatedCommaArgTokens_head (es : List Node) (rest : List Token) :
    ∃ tok tl, generatedCommaArgTokens es ++ ⟨.cparen, ")".toList⟩ :: rest = tok :: tl ∧
      tok.type ≠ .oparen := by
  cases es with
  | nil => exact ⟨_, _, by rw [generatedCommaArgTokens]; rfl, by decide⟩
  | cons e es => exact ⟨_, _, by rw [generatedCommaArgTokens]; rfl, by decide⟩

mutual
theorem parseExpr_generatedTokens : ∀ (e : Node), e.isSourceExpr = true →
    ∃ n, ∀ (t : Token) (rest : List Token), t.type ≠ .oparen →
      parseExpr n (generatedTokens e ++ t :: rest) = .ok (e, t :: rest)
  | .DefNode _ _ _, h => by simp [Node.isSourceExpr] at h
  | .IntegerNode v, h => by
    refine ⟨1, fun t rest _ => ?_⟩
    cases v with
    | nat k =>
      simp only [Node.isSourceExpr, decide_eq_true_eq] at h
      have := (numberToString_spec k h.1 h.2).2.2
      simp [generatedTokens, parseExpr, parseInteger, consume_cons, this]
    | infinity => simp [Node.isSourceExpr] at h
    | nan => simp [Node.isSourceExpr] at h
  | .VarRefNode v, _ => by
    refine ⟨1, fun t rest ht => ?_⟩
    simp [generatedTokens, parseExpr, parseVarRef, consume_cons, ht]
  | .CallNode name [], _ => by
    refine ⟨1, fun t rest _ => ?_⟩
    simp [generatedTokens, generatedArgTokens, parseExpr, parseCall, parseArgExprs,
      consume_cons]
  | .CallNode name (a :: as), h => by
    simp only [Node.isSourceExpr, Node.allSourceExpr, Bool.and_eq_true] at h
    obtain ⟨na, ha⟩ := parseExpr_generatedTokens a h.2.1
    obtain ⟨nas, has⟩ := parseLoop_generatedTokens as h.2.2
    refine ⟨max na nas + 1, fun t rest _ => ?_⟩
    obtain ⟨tok, tl, htok, htype⟩ := generatedTokens_head a h.2.1
    obtain ⟨tok2, tl2, htok2, htype2⟩ := generatedCommaArgTokens_head as (t :: rest)
    have h1 : parseExpr (max na nas)
        (generatedTokens a ++
          (generatedCommaArgTokens as ++ ⟨.cparen, ")".toList⟩ :: t :: rest)) =
        .ok (a, generatedCommaArgTokens as ++ ⟨.cparen, ")".toList⟩ :: t :: rest) := by
      rw [htok2]
      apply parseExpr_ok_of_le (ha tok2 tl2 htype2) (Nat.le_max_left _ _)
    have h2 := parseArgExprsLoop_ok_of_le (has [a] (t :: rest)) (Nat.le_max_right na nas)
      (Nat.le_succ_of_le (Nat.le_max_right na nas))
    have hpk : (tok.type == TokenType.cparen) = false := by
      rcases htype with h' | h' <;> rw [h'] <;> decide
    have hlist : generatedTokens (.CallNode name (a :: as)) ++ t :: rest =
        ⟨.identifier, name⟩ :: ⟨.oparen, "(".toList⟩ ::
          (generatedTokens a ++
            (generatedCommaArgTokens as ++ ⟨.cparen, ")".toList⟩ :: t :: rest)) := by
      simp [generatedTokens, generatedArgTokens]
    rw [hlist, parseExpr]
    simp only [peek_cons_zero, peek_cons_succ, except_bind_ok, parseCall, parseArgExprs,
      consume_cons, if_true]
    have hpeek : peek (generatedTokens a ++
        (generatedCommaArgTokens as ++ ⟨.cparen, ")".toList⟩ :: t :: rest))
        TokenType.cparen 0 = .ok false := by
      rw [htok, List.cons_append, peek_cons_zero, hpk]
    simp only [hpeek, h1, h2, except_bind_ok]
    simp [consume_cons]
theorem parseLoop_generatedTokens : ∀ (es : List Node), Node.allSourceExpr es = true →
    ∃ n, ∀ (acc : List Node) (rest : List Token),
      parseArgExprsLoop (parseExpr n) n acc
          (generatedCommaArgTokens es ++ ⟨.cparen, ")".toList⟩ :: rest) =
        .ok (acc ++ es, ⟨.cparen, ")".toList⟩ :: rest)
  | [], _ => by
    refine ⟨1, fun acc rest => ?_⟩
    simp [generatedCommaArgTokens, parseArgExprsLoop]
  | a :: as, h => by
    simp only [Node.allSourceExpr, Bool.and_eq_true] at h
    obtain ⟨na, ha⟩ := parseExpr_generatedTokens a h.1
    obtain ⟨nas, has⟩ := parseLoop_generatedTokens as h.2
    refine ⟨max na nas + 1, fun acc rest => ?_⟩
    obtain ⟨tok2, tl2, htok2, htype2⟩ := generatedCommaArgTokens_head as rest
    have h1 : parseExpr (max na nas + 1)
        (generatedTokens a ++ (generatedCommaArgTokens as ++ ⟨.cparen, ")".toList⟩ :: rest)) =
        .ok (a, generatedCommaArgTokens as ++ ⟨.cparen, ")".toList⟩ :: rest) := by
      rw [htok2]
      apply parseExpr_ok_of_le (ha tok2 tl2 htype2)
      exact Nat.le_succ_of_le (Nat.le_max_left _ _)
    have h2 := parseArgExprsLoop_ok_of_le (has (acc ++ [a]) rest)
      (Nat.le_succ_of_le (Nat.le_max_right na nas)) (Nat.le_max_right na nas)
    rw [parseArgExprsLoop]
    simp only [generatedCommaArgTokens, List.cons_append, List.append_assoc, peek_cons_zero,
      except_bind_ok, consume_cons, if_true, beq_self_eq_true]
    rw [h1]
    simp only [except_bind_ok]
    rw [h2]
    simp
end

/-- The tokens `def f ( )`, the tokens of the generated text of an expression and `end`
parse to the definition of `f` with that expression as its body. -/
theorem parse_generatedTokens (body : Node) (h : body.isSourceExpr = true) :
    parse (⟨.def_, "def".toList⟩ :: ⟨.identifier, "f".toList⟩ :: ⟨.oparen, "(".toList⟩ ::
      ⟨.cparen, ")".toList⟩ :: (generatedTokens body ++ [⟨.end_, "end".toList⟩])) =
      .ok (.DefNode "f".toList [] body, []) := by
  obtain ⟨n, hn⟩ := parseExpr_generatedTokens body h
  have hbody : parseExpr (n + 1) (generatedTokens body ++ [⟨.end_, "end".toList⟩]) =
      .ok (body, [⟨.end_, "end".toList⟩]) :=
    parseExpr_ok_of_le (hn ⟨.end_, "end".toList⟩ [] (by decide)) (Nat.le_succ n)
  apply parse_eq_of_parseDef (n := n + 1) _ (by simp)
  unfold parseDef parseArgNames
  rw [consume_cons, if_pos rfl, except_bind_ok]
  dsimp only
  rw [consume_cons, if_pos rfl, except_bind_ok]
  dsimp only
  rw [consume_cons, if_pos rfl, except_bind_ok]
  dsimp only
  rw [peek_cons_zero, except_bind_ok]
  simp only [show (TokenType.cparen == TokenType.identifier) = false from rfl,
    Bool.false_eq_true, if_false, except_pure, except_bind_ok, consume_cons, if_true, hbody]

/-! ## Tokenizing generated text -/

theorem rounds_one (st st' : List Token × List Char)
    (h : Tokenizer.loopBody st = .ok st') : Tokenizer.rounds 1 st = .ok st' := by
  simp [Tokenizer.rounds, h]

theorem rounds_trans (m n : Nat) : ∀ (st st' st'' : List Token × List Char),
    Tokenizer.rounds m st = .ok st' → Tokenizer.rounds n st' = .ok st'' →
    Tokenizer.rounds (m + n) st = .ok st'' := by
  induction m with
  | zero =>
    intro st st' st'' h1 h2
    simp only [Tokenizer.rounds, Except.ok.injEq] at h1
    subst h1
    rw [Nat.zero_add]; exact h2
  | succ m ih =>
    intro st st' st'' h1 h2
    rw [Nat.succ_add, Tokenizer.rounds]
    rw [Tokenizer.rounds] at h1
    cases hb : Tokenizer.loopBody st with
    | error e => rw [hb] at h1; cases h1
    | ok s1 =>
      rw [hb] at h1
      exact ih s1 st' st'' h1 h2

/-- Rounds that empty the buffer are a run of `tokenize`. -/
theorem tokenizeLoop_of_rounds (n : Nat) : ∀ (fuel : Nat) (st : List Token × List Char)
    (toks : List Token), st.2.length ≤ fuel → Tokenizer.rounds n st = .ok (toks, []) →
    Tokenizer.tokenizeLoop fuel st = .ok toks := by
  induction n with
  | zero =>
    intro fuel st toks _ h
    simp only [Tokenizer.rounds, Except.ok.injEq] at h
    subst h
    exact tokenizeLoop_nil _ _
  | succ n ih =>
    rintro fuel ⟨acc, buf⟩ toks hfuel h
    rw [Tokenizer.rounds] at h
    cases hb : Tokenizer.loopBody (acc, buf) with
    | error e => rw [hb] at h; cases h
    | ok s1 =>
      rw [hb] at h
      obtain ⟨tok, rest, h1, rfl⟩ := loopBody_ok hb
      have hlt := tokenizeOneToken_length_lt h1
      have hne : buf ≠ [] := by intro h0; subst h0; simp at hlt
      obtain ⟨f, rfl⟩ : ∃ f, fuel = f + 1 := ⟨fuel - 1, by
        have := List.length_pos.mpr hne; simp only at hfuel; omega⟩
      rw [tokenizeLoop_step f acc buf hne _ hb]
      refine ih f _ toks ?_ h
      have := trim_length_le rest
      simp only at hfuel ⊢
      omega

/-- One step of the tokenizer on the text of a token followed by a text that does not
continue it. -/
theorem tokenizeOneToken_value_append (tok : Token) (hwf : tok.WellFormed) (rest : List Char)
    (hrest : tok.type.isWord = true → rest.head?.any isWordChar = false) :
    Tokenizer.tokenizeOneToken (tok.value ++ rest) = .ok (tok, rest) := by
  by_cases hw : tok.type.isWord = true
  · exact tokenizeOneToken_append tok hwf rest (hrest hw)
  · obtain ⟨type, value⟩ := tok
    rw [tokenizeOneToken_eq_nextToken]
    unfold Token.WellFormed at hwf
    cases type <;> simp only at hwf <;> first
      | exact absurd rfl hw
      | (subst hwf; simp [nextToken, List.takeWhile_cons, isWordChar])

theorem loopBody_value_append (acc : List Token) (tok : Token) (hwf : tok.WellFormed)
    (rest : List Char)
    (hrest : tok.type.isWord = true → rest.head?.any isWordChar = false) :
    Tokenizer.loopBody (acc, tok.value ++ rest) = .ok (acc ++ [tok], trim rest) := by
  simp only [Tokenizer.loopBody, tokenizeOneToken_value_append tok hwf rest hrest]

theorem goodTail_append (x tail : List Char)
    (hx : ∀ c, x.head? = some c → isWordChar c = false) (ht : GoodTail tail) :
    GoodTail (x ++ tail) := by
  obtain ⟨h1, h2, h3⟩ := ht
  refine ⟨by simp [h1], ?_, ?_⟩
  · cases x with
    | nil => exact h2
    | cons a as => simpa using hx a rfl
  · intro c hc
    rw [List.getLast?_append] at hc
    cases hl : tail.getLast? with
    | none => exact absurd (List.getLast?_eq_none_iff.mp hl) h1
    | some d =>
      rw [hl] at hc
      simp only [Option.or, Option.some.injEq] at hc
      subst hc; exact h3 d hl

theorem trim_append_tail (x tail : List Char) (ht : GoodTail tail)
    (hh : ∀ c, (x ++ tail).head? = some c → isWhiteSpace c = false) :
    trim (x ++ tail) = x ++ tail := by
  refine trim_eq_self _ hh ?_
  intro c hc
  obtain ⟨h1, _, h3⟩ := ht
  rw [List.getLast?_append] at hc
  cases hl : tail.getLast? with
  | none => exact absurd (List.getLast?_eq_none_iff.mp hl) h1
  | some d =>
    rw [hl] at hc
    simp only [Option.or, Option.some.injEq] at hc
    subst hc; exact h3 d hl

theorem head_value_append (tok : Token) (hwf : tok.WellFormed) (rest : List Char) :
    ∀ c, (tok.value ++ rest).head? = some c → isWhiteSpace c = false := by
  intro c hc
  cases hv : tok.value with
  | nil => exact absurd hv (wellFormed_value_ne_nil hwf)
  | cons a as =>
    rw [hv] at hc
    simp only [List.cons_append, List.head?_cons, Option.some.injEq] at hc
    subst hc
    exact tokenChar_not_whiteSpace _ (wellFormed_value_chars hwf _ (by rw [hv]; simp))

theorem integer_wellFormed (n : Nat) (hd : isDouble n) (hlt : n < 10 ^ 21) :
    Token.WellFormed ⟨.integer, numberToString (.nat n)⟩ := by
  obtain ⟨h1, h2, _⟩ := numberToString_spec n hd hlt
  exact ⟨h1, h2⟩

/-- The generated text of an expression starts with the text of a token. -/
theorem generate_head (e : Node) (h : e.isSourceExpr = true) :
    ∃ (tok : Token) (rest : List Char), tok.WellFormed ∧
      (generate e).toStr = tok.value ++ rest := by
  cases e with
  | DefNode n a b => simp [Node.isSourceExpr] at h
  | IntegerNode v =>
    cases v with
    | nat k =>
      simp only [Node.isSourceExpr, decide_eq_true_eq] at h
      exact ⟨⟨.integer, numberToString (.nat k)⟩, [], integer_wellFormed k h.1 h.2,
        by simp [generate, JSVal.toStr]⟩
    | infinity => simp [Node.isSourceExpr] at h
    | nan => simp [Node.isSourceExpr] at h
  | CallNode n a =>
    simp only [Node.isSourceExpr, Bool.and_eq_true, decide_eq_true_eq] at h
    exact ⟨⟨.identifier, n⟩,
      "(".toList ++ (join ((generateEach a).map JSVal.toStr) ", ".toList ++ ")".toList), h.1,
      by simp only [generate, JSVal.toStr, List.append_assoc]⟩
  | VarRefNode v =>
    simp only [Node.isSourceExpr, decide_eq_true_eq] at h
    exact ⟨⟨.identifier, v⟩, [], h, by simp [generate, JSVal.toStr]⟩

theorem generate_head_not_whiteSpace (e : Node) (h : e.isSourceExpr = true)
    (rest : List Char) :
    ∀ c, ((generate e).toStr ++ rest).head? = some c → isWhiteSpace c = false := by
  obtain ⟨tok, r, hwf, htext⟩ := generate_head e h
  rw [htext, List.append_assoc]
  exact head_value_append tok hwf _

theorem join_generate (a : Node) (as : List Node) :
    join ((generateEach (a :: as)).map JSVal.toStr) ", ".toList =
      (generate a).toStr ++ commaText as := by
  induction as generalizing a with
  | nil => simp [generateEach, join_singleton, commaText]
  | cons b bs ih =>
    have := ih b
    simp only [generateEach, List.map_cons] at this ⊢
    rw [join_cons_cons, this, commaText]
    simp only [List.append_assoc]

theorem commaText_head (es : List Node) (tail : List Char)
    (ht : ∀ c, tail.head? = some c → isWordChar c = false ∧ isWhiteSpace c = false) :
    ∀ c, (commaText es ++ tail).head? = some c →
      isWordChar c = false ∧ isWhiteSpace c = false := by
  cases es with
  | nil => simpa [commaText] using ht
  | cons b bs =>
    intro c hc
    have : c = ',' := by simpa [commaText] using hc.symm
    subst this
    exact ⟨by decide, by decide⟩

mutual
/-- The tokenizer reads the generated text of an expression, followed by a text that
does not continue it, as the tokens of the expression, one a round. -/
theorem rounds_generate : ∀ (e : Node), e.isSourceExpr = true →
    ∀ (acc : List Token) (tail : List Char), GoodTail tail →
      Tokenizer.rounds (generatedTokens e).length (acc, (generate e).toStr ++ tail) =
        .ok (acc ++ generatedTokens e, trim tail)
  | .DefNode _ _ _, h => by simp [Node.isSourceExpr] at h
  | .IntegerNode v, h => by
    intro acc tail ht
    cases v with
    | nat k =>
      simp only [Node.isSourceExpr, decide_eq_true_eq] at h
      simp only [generatedTokens, List.length_singleton]
      exact rounds_one _ _ (loopBody_value_append acc ⟨.integer, numberToString (.nat k)⟩
        (integer_wellFormed k h.1 h.2) tail (fun _ => ht.2.1))
    | infinity => simp [Node.isSourceExpr] at h
    | nan => simp [Node.isSourceExpr] at h
  | .VarRefNode v, h => by
    intro acc tail ht
    simp only [Node.isSourceExpr, decide_eq_true_eq] at h
    simp only [generatedTokens, List.length_singleton]
    exact rounds_one _ _ (loopBody_value_append acc ⟨.identifier, v⟩ h tail (fun _ => ht.2.1))
  | .CallNode name [], h => by
    intro acc tail ht
    simp only [Node.isSourceExpr, Bool.and_eq_true, decide_eq_true_eq] at h
    have htext : (generate (.CallNode name [])).toStr ++ tail =
        name ++ ("(".toList ++ (")".toList ++ tail)) := by
      simp [generate, generateEach, JSVal.toStr, join_nil]
    have htoks : generatedTokens (.CallNode name []) =
        [⟨.identifier, name⟩, ⟨.oparen, "(".toList⟩, ⟨.cparen, ")".toList⟩] := by
      simp [generatedTokens, generatedArgTokens]
    have hg4 : GoodTail (")".toList ++ tail) :=
      goodTail_append _ _ (fun c hc => by cases hc; decide) ht
    have hg1 : GoodTail ("(".toList ++ (")".toList ++ tail)) :=
      goodTail_append _ _ (fun c hc => by cases hc; decide) hg4
    have h1 := loopBody_value_append acc ⟨.identifier, name⟩ h.1
      ("(".toList ++ (")".toList ++ tail)) (fun _ => hg1.2.1)
    rw [trim_append_tail _ _ hg4 (fun c hc => by cases hc; decide)] at h1
    have h2 := loopBody_value_append (acc ++ [⟨.identifier, name⟩]) ⟨.oparen, "(".toList⟩
      (by decide) (")".toList ++ tail) (fun hw => by cases hw)
    rw [trim_append_tail _ _ ht (fun c hc => by cases hc; decide)] at h2
    have h5 := loopBody_value_append (acc ++ [⟨.identifier, name⟩] ++ [⟨.oparen, "(".toList⟩])
      ⟨.cparen, ")".toList⟩ (by decide) tail (fun hw => by cases hw)
    rw [htext, htoks]
    have := rounds_trans 1 2 _ _ _ (rounds_one _ _ h1)
      (rounds_trans 1 1 _ _ _ (rounds_one _ _ h2) (rounds_one _ _ h5))
    simpa [List.append_assoc] using this
  | .CallNode name (a :: as), h => by
    intro acc tail ht
    simp only [Node.isSourceExpr, Node.allSourceExpr, Bool.and_eq_true,
      decide_eq_true_eq] at h
    obtain ⟨hname, ha, has⟩ := h
    have htext : (generate (.CallNode name (a :: as))).toStr ++ tail =
        name ++ ("(".toList ++ ((generate a).toStr ++ (commaText as ++ (")".toList ++ tail)))) := by
      simp only [generate, JSVal.toStr, join_generate, List.append_assoc]
    have htoks : generatedTokens (.CallNode name (a :: as)) =
        [⟨.identifier, name⟩] ++ ([⟨.oparen, "(".toList⟩] ++ (generatedTokens a ++
          (generatedCommaArgTokens as ++ [⟨.cparen, ")".toList⟩]))) := by
      simp [generatedTokens, generatedArgTokens]
    have hlen : (generatedTokens (.CallNode name (a :: as))).length =
        1 + (1 + ((generatedTokens a).length + ((generatedCommaArgTokens as).length + 1))) := by
      rw [htoks]; simp only [List.length_append, List.length_singleton]
    have hg4 : GoodTail (")".toList ++ tail) :=
      goodTail_append _ _ (fun c hc => by cases hc; decide) ht
    have hh4 : ∀ c, (")".toList ++ tail).head? = some c →
        isWordChar c = false ∧ isWhiteSpace c = false :=
      fun c hc => by cases hc; exact ⟨by decide, by decide⟩
    have hh3 := commaText_head as _ hh4
    have hg3 : GoodTail (commaText as ++ (")".toList ++ tail)) := by
      refine ⟨by simp, ?_, ?_⟩
      · cases hhd : (commaText as ++ (")".toList ++ tail)).head? with
        | none => rfl
        | some c => simpa using (hh3 c hhd).1
      · have := (goodTail_append (commaText as) _ (fun c hc => ?_) hg4).2.2
        · exact this
        · cases as with
          | nil => cases hc
          | cons b bs =>
            have : c = ',' := by simpa [commaText] using hc.symm
            subst this; decide
    have hg1 : GoodTail ("(".toList ++ ((generate a).toStr ++
        (commaText as ++ (")".toList ++ tail)))) := by
      have := goodTail_append ("(".toList ++ (generate a).toStr) _
        (fun c hc => by cases hc; decide) hg3
      simpa [List.append_assoc] using this
    have h1 := loopBody_value_append acc ⟨.identifier, name⟩ hname _ (fun _ => hg1.2.1)
    rw [trim_eq_self _ (fun c hc => by cases hc; decide) hg1.2.2] at h1
    have h2 := loopBody_value_append (acc ++ [⟨.identifier, name⟩]) ⟨.oparen, "(".toList⟩
      (by decide) ((generate a).toStr ++ (commaText as ++ (")".toList ++ tail)))
      (fun hw => by cases hw)
    rw [trim_append_tail _ _ hg3 (generate_head_not_whiteSpace a ha _)] at h2
    have h3 := rounds_generate a ha (acc ++ [⟨.identifier, name⟩] ++ [⟨.oparen, "(".toList⟩])
      _ hg3
    rw [trim_eq_self _ (fun c hc => (hh3 c hc).2) hg3.2.2] at h3
    have h4 := rounds_commaText as has
      (acc ++ [⟨.identifier, name⟩] ++ [⟨.oparen, "(".toList⟩] ++ generatedTokens a)
      _ hg4 (fun c hc => (hh4 c hc).2)
    have h5 := loopBody_value_append
      (acc ++ [⟨.identifier, name⟩] ++ [⟨.oparen, "(".toList⟩] ++ generatedTokens a ++
        generatedCommaArgTokens as)
      ⟨.cparen, ")".toList⟩ (by decide) tail (fun hw => by cases hw)
    rw [htext, hlen, htoks]
    have := rounds_trans _ _ _ _ _ (rounds_one _ _ h1)
      (rounds_trans _ _ _ _ _ (rounds_one _ _ h2)
        (rounds_trans _ _ _ _ _ h3 (rounds_trans _ _ _ _ _ h4 (rounds_one _ _ h5))))
    simpa only [List.append_assoc] using this
/-- The tokenizer reads the text of further generated arguments as their tokens. -/
theorem rounds_commaText : ∀ (es : List Node), Node.allSourceExpr es = true →
    ∀ (acc : List Token) (tail : List Char), GoodTail tail →
      (∀ c, tail.head? = some c → isWhiteSpace c = false) →
      Tokenizer.rounds (generatedCommaArgTokens es).length (acc, commaText es ++ tail) =
        .ok (acc ++ generatedCommaArgTokens es, tail)
  | [], _ => by
    intro acc tail _ _
    simp [generatedCommaArgTokens, commaText, Tokenizer.rounds]
  | b :: bs, h => by
    intro acc tail ht hh
    simp only [Node.allSourceExpr, Bool.and_eq_true] at h
    obtain ⟨hb, hbs⟩ := h
    have htext : commaText (b :: bs) ++ tail =
        ",".toList ++ (' ' :: ((generate b).toStr ++ (commaText bs ++ tail))) := by
      simp [commaText, List.append_assoc]
    have htoks : generatedCommaArgTokens (b :: bs) =
        [⟨.comma, ",".toList⟩] ++ (generatedTokens b ++ generatedCommaArgTokens bs) := by
      simp [generatedCommaArgTokens]
    have hlen : (generatedCommaArgTokens (b :: bs)).length =
        1 + ((generatedTokens b).length + (generatedCommaArgTokens bs).length) := by
      rw [htoks]; simp only [List.length_append, List.length_singleton]
    have hh3 := commaText_head bs tail (fun c hc => ⟨by
      have := ht.2.1; rw [hc] at this; simpa using this, hh c hc⟩)
    have hg3 : GoodTail (commaText bs ++ tail) := by
      refine ⟨by simp [ht.1], ?_, ?_⟩
      · cases hhd : (commaText bs ++ tail).head? with
        | none => rfl
        | some c => simpa using (hh3 c hhd).1
      · have := (goodTail_append (commaText bs) _ (fun c hc => ?_) ht).2.2
        · exact this
        · cases bs with
          | nil => cases hc
          | cons b' bs' =>
            have : c = ',' := by simpa [commaText] using hc.symm
            subst this; decide
    have h1 := loopBody_value_append acc ⟨.comma, ",".toList⟩ (by decide)
      (' ' :: ((generate b).toStr ++ (commaText bs ++ tail))) (fun hw => by cases hw)
    rw [trim_cons_of_ws _ _ (by decide),
      trim_append_tail _ _ hg3 (generate_head_not_whiteSpace b hb _)] at h1
    have h2 := rounds_generate b hb (acc ++ [⟨.comma, ",".toList⟩]) _ hg3
    rw [trim_eq_self _ (fun c hc => (hh3 c hc).2) hg3.2.2] at h2
    have h3 := rounds_commaText bs hbs (acc ++ [⟨.comma, ",".toList⟩] ++ generatedTokens b)
      tail ht hh
    rw [htext, hlen, htoks]
    have := rounds_trans _ _ _ _ _ (rounds_one _ _ h1) (rounds_trans _ _ _ _ _ h2 h3)
    simpa only [List.append_assoc] using this
end

/-! ## Sources of the form `def f() … end` -/

theorem trim_append_of_last (x rest : List Char) (hne : rest ≠ [])
    (hl : ∀ c, rest.getLast? = some c → isWhiteSpace c = false)
    (hh : ∀ c, (x ++ rest).head? = some c → isWhiteSpace c = false) :
    trim (x ++ rest) = x ++ rest := by
  refine trim_eq_self _ hh ?_
  intro c hc
  rw [List.getLast?_append] at hc
  cases hlast : rest.getLast? with
  | none => exact absurd (List.getLast?_eq_none_iff.mp hlast) hne
  | some d =>
    rw [hlast] at hc
    simp only [Option.or, Option.some.injEq] at hc
    subst hc; exact hl d hlast

/-- The tokenizer reads `def f() ` in four rounds and leaves what follows, if that is a
text that neither starts nor ends with whitespace. -/
theorem rounds_def_header (rest : List Char) (hne : rest ≠ [])
    (hh : ∀ c, rest.head? = some c → isWhiteSpace c = false)
    (hl : ∀ c, rest.getLast? = some c → isWhiteSpace c = false) :
    Tokenizer.rounds 4 ([], "def f() ".toList ++ rest) =
      .ok ([⟨.def_, "def".toList⟩, ⟨.identifier, "f".toList⟩, ⟨.oparen, "(".toList⟩,
        ⟨.cparen, ")".toList⟩], rest) := by
  have hsrc : "def f() ".toList ++ rest =
      "def".toList ++ (' ' :: ("f".toList ++ ("(".toList ++ (")".toList ++ (' ' :: rest))))) :=
    rfl
  have h1 := loopBody_value_append [] ⟨.def_, "def".toList⟩ (by decide)
    (' ' :: ("f".toList ++ ("(".toList ++ (")".toList ++ (' ' :: rest))))) (fun _ => rfl)
  rw [trim_cons_of_ws _ _ (by decide)] at h1
  have e1 : "f".toList ++ ("(".toList ++ (")".toList ++ (' ' :: rest))) =
      "f() ".toList ++ rest := rfl
  rw [e1, trim_append_of_last _ _ hne hl (fun c hc => by cases hc; decide), ← e1] at h1
  have h2 := loopBody_value_append [⟨.def_, "def".toList⟩] ⟨.identifier, "f".toList⟩
    (by decide) ("(".toList ++ (")".toList ++ (' ' :: rest))) (fun _ => rfl)
  have e2 : "(".toList ++ (")".toList ++ (' ' :: rest)) = "() ".toList ++ rest := rfl
  rw [e2, trim_append_of_last _ _ hne hl (fun c hc => by cases hc; decide), ← e2] at h2
  have h3 := loopBody_value_append [⟨.def_, "def".toList⟩, ⟨.identifier, "f".toList⟩]
    ⟨.oparen, "(".toList⟩ (by decide) (")".toList ++ (' ' :: rest)) (fun hw => by cases hw)
  have e3 : ")".toList ++ (' ' :: rest) = ") ".toList ++ rest := rfl
  rw [e3, trim_append_of_last _ _ hne hl (fun c hc => by cases hc; decide), ← e3] at h3
  have h4 := loopBody_value_append
    [⟨.def_, "def".toList⟩, ⟨.identifier, "f".toList⟩, ⟨.oparen, "(".toList⟩]
    ⟨.cparen, ")".toList⟩ (by decide) (' ' :: rest) (fun hw => by cases hw)
  rw [trim_cons_of_ws _ _ (by decide), trim_eq_self _ hh hl] at h4
  rw [hsrc]
  exact rounds_trans 1 3 _ _ _ (rounds_one _ _ h1)
    (rounds_trans 1 2 _ _ _ (rounds_one _ _ h2)
      (rounds_trans 1 1 _ _ _ (rounds_one _ _ h3) (rounds_one _ _ h4)))

theorem goodTail_end : GoodTail " end".toList := by
  refine ⟨by decide, by decide, ?_⟩
  intro c hc
  have : c = 'd' := by
    have h : " end".toList.getLast? = some 'd' := by decide
    rw [h] at hc; exact (Option.some.inj hc).symm
  subst this; decide

/-- The tokens of `def f() ` followed by the text of tokens and ` end`. -/
theorem tokenize_def_f (body : List Char) (toks : List Token)
    (hh : ∀ c, (body ++ " end".toList).head? = some c → isWhiteSpace c = false)
    (hbody : Tokenizer.rounds toks.length
        ([⟨.def_, "def".toList⟩, ⟨.identifier, "f".toList⟩, ⟨.oparen, "(".toList⟩,
          ⟨.cparen, ")".toList⟩], body ++ " end".toList) =
      .ok ([⟨.def_, "def".toList⟩, ⟨.identifier, "f".toList⟩, ⟨.oparen, "(".toList⟩,
          ⟨.cparen, ")".toList⟩] ++ toks, "end".toList)) :
    Tokenizer.tokenize ("def f() ".toList ++ body ++ " end".toList) =
      .ok (⟨.def_, "def".toList⟩ :: ⟨.identifier, "f".toList⟩ :: ⟨.oparen, "(".toList⟩ ::
        ⟨.cparen, ")".toList⟩ :: (toks ++ [⟨.end_, "end".toList⟩])) := by
  have h0 := rounds_def_header (body ++ " end".toList) (by simp) hh (by
    intro c hc
    rw [List.getLast?_append] at hc
    have h : " end".toList.getLast? = some 'd' := by decide
    rw [h] at hc
    simp only [Option.or, Option.some.injEq] at hc
    subst hc; decide)
  have h6 := loopBody_value_append
    ([⟨.def_, "def".toList⟩, ⟨.identifier, "f".toList⟩, ⟨.oparen, "(".toList⟩,
      ⟨.cparen, ")".toList⟩] ++ toks) ⟨.end_, "end".toList⟩ (by decide) [] (fun _ => rfl)
  have htrim : trim [] = [] := rfl
  rw [htrim, List.append_nil] at h6
  have := rounds_trans _ _ _ _ _ h0 (rounds_trans _ _ _ _ _ hbody (rounds_one _ _ h6))
  rw [List.append_assoc]
  have hres := tokenizeLoop_of_rounds _ ("def f() ".toList ++ (body ++ " end".toList)).length
    _ _ (Nat.le_refl _) this
  simpa [Tokenizer.tokenize, List.append_assoc] using hres

/-- A definition of `f` whose body is a number, run through `generate`. -/
theorem generate_def_integer (v : JSNumber) :
    (generate (.DefNode "f".toList [] (.IntegerNode v))).toStr =
      "function f() \x7b return ".toList ++ numberToString v ++ " \x7d".toList := by
  simp [generate, JSVal.toStr, join_nil]

theorem parse_def_integer (d : List Char) :
    parse [⟨.def_, "def".toList⟩, ⟨.identifier, "f".toList⟩, ⟨.oparen, "(".toList⟩,
      ⟨.cparen, ")".toList⟩, ⟨.integer, d⟩, ⟨.end_, "end".toList⟩] =
      .ok (.DefNode "f".toList [] (.IntegerNode (Number d)), []) := by
  simp [parse, parseDef, parseArgNames, parseExpr, parseInteger, consume_cons]

/-- The literal `9007199254740993` is read as the double `9007199254740992`. -/
theorem integer_literal_rounded :
    decimalValue "9007199254740993".toList = 9007199254740993 ∧
    parseInteger [⟨.integer, "9007199254740993".toList⟩] =
      .ok (.IntegerNode (.nat 9007199254740992), []) ∧
    compile ("def f() ".toList ++ "9007199254740993".toList ++ " end".toList) =
      .ok "function f() \x7b return 9007199254740992 \x7d".toList := by
  refine ⟨by decide, by decide, by decide⟩

/-- C15 (amended). For every non-empty string `d` of ASCII digits the source
`def f() ` + `d` + ` end` compiles and the integer token keeps `d` verbatim as its text;
the generated body returns the text of the number that `Number` reads from `d`.  If `d`
denotes an integer below `2 ^ 53`, then `parseInteger` produces the integer node whose
value is the integer that `d` denotes in base ten, and the generated body returns the
decimal numeral of that value without leading zeros. -/
theorem compile_integer_literal (d : List Char) (hne : d ≠ [])
    (hd : d.all Char.isDigit = true) :
    Tokenizer.tokenize ("def f() ".toList ++ d ++ " end".toList) =
      .ok [⟨.def_, "def".toList⟩, ⟨.identifier, "f".toList⟩, ⟨.oparen, "(".toList⟩,
        ⟨.cparen, ")".toList⟩, ⟨.integer, d⟩, ⟨.end_, "end".toList⟩] ∧
    compile ("def f() ".toList ++ d ++ " end".toList) =
      .ok ("function f() \x7b return ".toList ++ numberToString (Number d) ++
        " \x7d".toList) ∧
    (decimalValue d < 2 ^ 53 →
      parseInteger [⟨.integer, d⟩] = .ok (.IntegerNode (.nat (decimalValue d)), []) ∧
      parse [⟨.def_, "def".toList⟩, ⟨.identifier, "f".toList⟩, ⟨.oparen, "(".toList⟩,
        ⟨.cparen, ")".toList⟩, ⟨.integer, d⟩, ⟨.end_, "end".toList⟩] =
        .ok (.DefNode "f".toList [] (.IntegerNode (.nat (decimalValue d))), []) ∧
      compile ("def f() ".toList ++ d ++ " end".toList) =
        .ok ("function f() \x7b return ".toList ++ Nat.toDigits 10 (decimalValue d) ++
          " \x7d".toList)) := by
  have hwf : Token.WellFormed ⟨.integer, d⟩ := ⟨hne, hd⟩
  have htrim : trim " end".toList = "end".toList := by decide
  have hstep := loopBody_value_append
    [⟨.def_, "def".toList⟩, ⟨.identifier, "f".toList⟩, ⟨.oparen, "(".toList⟩,
      ⟨.cparen, ")".toList⟩] ⟨.integer, d⟩ hwf " end".toList (fun _ => rfl)
  rw [htrim] at hstep
  have htok := tokenize_def_f d [⟨.integer, d⟩] (head_value_append ⟨.integer, d⟩ hwf _)
    (rounds_one _ _ hstep)
  have hcompile : compile ("def f() ".toList ++ d ++ " end".toList) =
      .ok ("function f() \x7b return ".toList ++ numberToString (Number d) ++
        " \x7d".toList) := by
    unfold compile
    rw [htok]
    simp only [List.singleton_append]
    rw [parse_def_integer d]
    simp only [generate_def_integer]
  refine ⟨htok, hcompile, fun hlt => ?_⟩
  have hnum : Number d = .nat (decimalValue d) := by
    unfold Number
    rw [if_pos hd, roundToDouble_of_lt _ hlt]
  refine ⟨?_, ?_, ?_⟩
  · simp [parseInteger, consume_cons, hnum]
  · rw [parse_def_integer d, hnum]
  · rw [hcompile, hnum, numberToString_of_lt _ hlt]

theorem compile_integer_literal_witness :
    compile ("def f() ".toList ++ "007".toList ++ " end".toList) =
      .ok ("function f() \x7b return ".toList ++ Nat.toDigits 10 (decimalValue "007".toList) ++
        " \x7d".toList) ∧
    Nat.toDigits 10 (decimalValue "007".toList) = "7".toList :=
  ⟨((compile_integer_literal "007".toList (by decide) (by decide)).2.2 (by decide)).2.2,
    by decide⟩

/-- The text of the number `10 ^ 21` is not source text. -/
theorem generate_exponent_not_source :
    isDouble (10 ^ 21) ∧
    (generate (.IntegerNode (.nat (10 ^ 21)))).toStr = "1e+21".toList ∧
    Tokenizer.tokenize
        ("def f() ".toList ++ (generate (.IntegerNode (.nat (10 ^ 21)))).toStr ++ " end".toList) =
      .error (.noMatch "1e+21 end".toList) := by
  refine ⟨by decide, by decide, by decide⟩

/-- C19 (amended). The generated text of an expression is source text for it: for every
expression tree whose variable and callee names are non-empty ASCII-letter strings other
than `def` and `end` and whose integer values are natural numbers (doubles) below
`10 ^ 21`, tokenizing the source `def f() ` + generated text + ` end` succeeds and parsing
the tokens yields the definition of `f` without parameters whose body is exactly the
tree, and no token is left.  Consequently the generated text determines the tree on such
expressions. -/
theorem generate_round_trip :
    (∀ e : Node, e.isSourceExpr = true →
      ∃ toks, Tokenizer.tokenize ("def f() ".toList ++ (generate e).toStr ++ " end".toList) =
          .ok toks ∧
        parse toks = .ok (.DefNode "f".toList [] e, [])) ∧
    (∀ e1 e2 : Node, e1.isSourceExpr = true → e2.isSourceExpr = true →
      (generate e1).toStr = (generate e2).toStr → e1 = e2) := by
  have key : ∀ e : Node, e.isSourceExpr = true →
      Tokenizer.tokenize ("def f() ".toList ++ (generate e).toStr ++ " end".toList) =
          .ok (⟨.def_, "def".toList⟩ :: ⟨.identifier, "f".toList⟩ :: ⟨.oparen, "(".toList⟩ ::
            ⟨.cparen, ")".toList⟩ :: (generatedTokens e ++ [⟨.end_, "end".toList⟩])) := by
    intro e he
    have hbody := rounds_generate e he
      [⟨.def_, "def".toList⟩, ⟨.identifier, "f".toList⟩, ⟨.oparen, "(".toList⟩,
        ⟨.cparen, ")".toList⟩] " end".toList goodTail_end
    have htrim : trim " end".toList = "end".toList := by decide
    rw [htrim] at hbody
    exact tokenize_def_f _ _ (generate_head_not_whiteSpace e he _) hbody
  refine ⟨fun e he => ⟨_, key e he, parse_generatedTokens e he⟩, ?_⟩
  intro e1 e2 h1 h2 htext
  have k1 := key e1 h1
  have k2 := key e2 h2
  rw [htext, k2] at k1
  have htoks := Except.ok.inj k1
  have p1 := parse_generatedTokens e1 h1
  have p2 := parse_generatedTokens e2 h2
  rw [← htoks, p2] at p1
  have := Except.ok.inj p1
  simp only [Prod.mk.injEq, Node.DefNode.injEq, and_true, true_and] at this
  exact this.symm

theorem generate_round_trip_witness :
    (Node.CallNode "add".toList [.VarRefNode "x".toList,
      .CallNode "g".toList [.IntegerNode (.nat 18446744073709551616)]]).isSourceExpr = true ∧
    (generate (.CallNode "add".toList [.VarRefNode "x".toList,
      .CallNode "g".toList [.IntegerNode (.nat 18446744073709551616)]])).toStr =
      "add(x, g(18446744073709552000))".toList ∧
    ∃ toks, Tokenizer.tokenize ("def f() ".toList ++
          (generate (.CallNode "add".toList [.VarRefNode "x".toList,
            .CallNode "g".toList [.IntegerNode (.nat 18446744073709551616)]])).toStr ++
          " end".toList) = .ok toks ∧
      parse toks = .ok (.DefNode "f".toList [] (.CallNode "add".toList [.VarRefNode "x".toList,
        .CallNode "g".toList [.IntegerNode (.nat 18446744073709551616)]]), []) :=
  ⟨by decide, by decide, generate_round_trip.1
    (.CallNode "add".toList [.VarRefNode "x".toList,
      .CallNode "g".toList [.IntegerNode (.nat 18446744073709551616)]]) (by decide)⟩

end Compiler
